import Mathlib

/-!
# The fgfh grammar (`tree-sitter-fgfh/grammar.js`)

The source is a grammar written in the tree-sitter DSL.  It is embedded in two layers.

* Lexical layer: the regular-expression literals of the grammar become values of `RE`,
  with an executable matcher `RE.run` (all remainders the pattern can leave behind)
  and a declarative reading `RE.Match`; the two are proved equal (`RE.mem_run_iff`).
* Syntactic layer: every rule of `rules: { ... }` becomes an inductive type of parse
  trees with the rule's name, one constructor per alternative of its `choice`, one
  argument per `field`/symbol of its `seq`.  `yield` gives the sequence of terminals
  (tokens) a tree derives, in source order.

A text is parsed by a tree (`Parses`) when it can be cut into well-formed tokens and
extras (`extras: [/\s/, line_comment, quote_comment]`) so that the tokens that are not
extras are exactly the yield of the tree.  This is the derivation relation of the
grammar.  The entries `conflicts: [[gac_stem, operator]]` and `word: identifier` steer
the generated parser (which readings it keeps side by side, how it tells keywords from
identifiers); they do not change which trees derive which tokens, and how a generated
parser chooses between several derivations or tokens is not part of `grammar.js`.
The choice of the longest token, which the specification asks of its scanner, is
modelled apart from the grammar by `longestScan`.

For texts without a double quote all scans can be enumerated (`allScans`, complete by
`allScans_complete`), which settles by evaluation which token sequences a text has.
-/

namespace Fgfh

/-! ## Regular expressions -/

/-- An item of a character class: a range `lo-hi` or one character. -/
inductive CharSet where
  | range (lo hi : Char)
  | one (c : Char)
  deriving DecidableEq, Repr

/-- Membership of a character in a class item. -/
def CharSet.mem : CharSet → Char → Bool
  | .range lo hi, c => decide (lo.toNat ≤ c.toNat) && decide (c.toNat ≤ hi.toNat)
  | .one d, c => c == d

/-- The regular expressions that occur in `grammar.js`: the empty pattern, a character
class `[...]` (`neg = true` for `[^...]`), sequence, alternative, `*`, and the negative
lookahead `(?!...)`. -/
inductive RE where
  | eps
  | cls (neg : Bool) (sets : List CharSet)
  | seq (a b : RE)
  | alt (a b : RE)
  | star (a : RE)
  | nla (a : RE)
  deriving Repr

/-- Iteration for `*`: zero or more rounds of `f`, each round consuming at least one
character (a round that consumes nothing adds no new remainder). -/
def starRun (f : List Char → List (List Char)) : Nat → List Char → List (List Char)
  | 0, s => [s]
  | n + 1, s =>
    s :: ((f s).filter (fun r => decide (r.length < s.length))).flatMap (starRun f n)

/-- Matching at the start of `s`, where `s` is the whole remaining input (so that a
lookahead sees what follows): the list of remainders after each possible match. -/
def RE.run : RE → List Char → List (List Char)
  | .eps, s => [s]
  | .cls neg sets, s =>
    match s with
    | [] => []
    | c :: t => if (sets.any (fun x => x.mem c)) != neg then [t] else []
  | .seq a b, s => (a.run s).flatMap (fun r => b.run r)
  | .alt a b, s => a.run s ++ b.run s
  | .star a, s => starRun (fun t => a.run t) s.length s
  | .nla a, s => if (a.run s).isEmpty then [s] else []

/-- One specific character. -/
def RE.chr (c : Char) : RE := .cls false [.one c]

/-- A literal string, character by character. -/
def RE.str : List Char → RE
  | [] => .eps
  | c :: cs => .seq (RE.chr c) (RE.str cs)

/-- The postfix `+`. -/
def RE.plus (a : RE) : RE := .seq a (.star a)

/-- The pattern matches the whole of `w`. -/
def RE.matches (r : RE) (w : List Char) : Bool := (r.run w).contains []

/-- The declarative reading of a pattern: `r.Match s t` when `r` matches a prefix of
the input `s` and leaves `t`. -/
def RE.Match : RE → List Char → List Char → Prop
  | .eps, s, t => t = s
  | .cls neg sets, s, t => ∃ c, s = c :: t ∧ ((sets.any (fun x => x.mem c)) != neg) = true
  | .seq a b, s, t => ∃ m, a.Match s m ∧ b.Match m t
  | .alt a b, s, t => a.Match s t ∨ b.Match s t
  | .star a, s, t => Relation.ReflTransGen (fun x y => a.Match x y) s t
  | .nla a, s, t => t = s ∧ ∀ u, ¬ a.Match s u

/-! ### The patterns of `grammar.js` -/

/-- The class `.`: any character but a line terminator. -/
def anyChar : RE :=
  .cls true [.one '\n', .one '\r', .one (Char.ofNat 0x2028), .one (Char.ofNat 0x2029)]

/-- The class `\s` of `extras`. -/
def whitespaceRE : RE :=
  .cls false [.range '\t' '\r', .one ' ', .one (Char.ofNat 0xa0), .one (Char.ofNat 0x1680),
    .range (Char.ofNat 0x2000) (Char.ofNat 0x200a), .one (Char.ofNat 0x2028),
    .one (Char.ofNat 0x2029), .one (Char.ofNat 0x202f), .one (Char.ofNat 0x205f),
    .one (Char.ofNat 0x3000), .one (Char.ofNat 0xfeff)]

/-- Rule `line_comment: token(seq('//', /.*/))`. -/
def line_comment : RE := .seq (RE.str "//".toList) (.star anyChar)

/-- The four dashes that open and close a dash comment. -/
def dashes4 : List Char := "----".toList

/-- The class `[^-]`. -/
def notDash : RE := .cls true [.one '-']

/-- The body alternatives of `dash_comment`: the pattern `[^-]+` and the pattern
`-(?!---)`, a dash not followed by three more. -/
def dashBodyItem : RE :=
  .alt (RE.plus notDash) (.seq (RE.chr '-') (.nla (RE.str "---".toList)))

/-- Rule `dash_comment`: `token(seq('----', repeat(choice(A, B)), '----'))` with the two
patterns `A`, `B` of `dashBodyItem`. -/
def dash_comment : RE :=
  .seq (RE.str dashes4) (.seq (.star dashBodyItem) (RE.str dashes4))

/-- Rule `quote_comment: token(seq('"', repeat(choice(/[^"\\]/, /\\./)), '"'))`. -/
def quote_comment : RE :=
  .seq (RE.chr '"')
    (.seq (.star (.alt (.cls true [.one '"', .one '\\']) (.seq (RE.chr '\\') anyChar)))
      (RE.chr '"'))

/-- The content pattern `/[^"]*/` of `quoted_string`. -/
def quotedContent : RE := .star (.cls true [.one '"'])

/-- Rule `identifier: /[a-zA-Z_][a-zA-Z0-9_\-]*/`. -/
def identifier : RE :=
  .seq (.cls false [.range 'a' 'z', .range 'A' 'Z', .one '_'])
    (.star (.cls false [.range 'a' 'z', .range 'A' 'Z', .range '0' '9', .one '_', .one '-']))

/-- Rule `unicode_string: /[a-zA-Z0-9_\-\.\u4e00-\u9fa5]+/`. -/
def unicode_string : RE :=
  RE.plus (.cls false [.range 'a' 'z', .range 'A' 'Z', .range '0' '9', .one '_', .one '-',
    .one '.', .range (Char.ofNat 0x4e00) (Char.ofNat 0x9fa5)])

/-- The class `[0-9]`. -/
def digit : RE := .cls false [.range '0' '9']

/-- Rule `integer: /[0-9]+/`. -/
def integer : RE := RE.plus digit

/-- Rule `float: /[0-9]+\.[0-9]+/`. -/
def float : RE := .seq (RE.plus digit) (.seq (RE.chr '.') (RE.plus digit))

/-! ## Tokens -/

/-- The terminals of the grammar, each with its source text: an anonymous string
literal, a named pattern, the content pattern of `quoted_string`, the `dash_comment`
token, and the three kinds of `extras`. -/
inductive Tok where
  | lit (s : String)
  | identifier (w : String)
  | unicode_string (w : String)
  | integer (w : String)
  | float (w : String)
  | content (w : String)
  | dash_comment (w : String)
  | whitespace (w : String)
  | line_comment (w : String)
  | quote_comment (w : String)
  deriving DecidableEq, Repr

/-- The string literals that occur in the rules outside `token(...)`. -/
def literals : List String :=
  [";", "#[", "]", "\"", "::", "\x7b", "\x7d", "<-", "->", ">>", "@>", "'", "*[", "[",
   "=", "<|", "-", "+", "|>", "#(", ")", "@", "|", "&", "?", "!", "_", ",", "*", "/", "%"]

/-- The source text of a token. -/
def Tok.text : Tok → List Char
  | .lit s => s.toList
  | .identifier w => w.toList
  | .unicode_string w => w.toList
  | .integer w => w.toList
  | .float w => w.toList
  | .content w => w.toList
  | .dash_comment w => w.toList
  | .whitespace w => w.toList
  | .line_comment w => w.toList
  | .quote_comment w => w.toList

/-- A token is well formed when its text is matched by its literal or pattern. -/
def Tok.wf : Tok → Bool
  | .lit s => literals.contains s
  | .identifier w => Fgfh.identifier.matches w.toList
  | .unicode_string w => Fgfh.unicode_string.matches w.toList
  | .integer w => Fgfh.integer.matches w.toList
  | .float w => Fgfh.float.matches w.toList
  | .content w => quotedContent.matches w.toList
  | .dash_comment w => Fgfh.dash_comment.matches w.toList
  | .whitespace w => whitespaceRE.matches w.toList
  | .line_comment w => Fgfh.line_comment.matches w.toList
  | .quote_comment w => Fgfh.quote_comment.matches w.toList

/-- The `extras` of the grammar: `/\s/`, `line_comment`, `quote_comment`. -/
def Tok.isExtra : Tok → Bool
  | .whitespace _ => true
  | .line_comment _ => true
  | .quote_comment _ => true
  | _ => false

/-- Shorthand for an anonymous string-literal token. -/
abbrev L (s : String) : Tok := Tok.lit s

/-! ## Parse trees, one type per rule -/

/-- Rule `string: choice($.identifier, $.unicode_string)`. -/
inductive StringNode where
  | identifier (w : String)
  | unicode_string (w : String)
  deriving DecidableEq, Repr

/-- Rule `quoted_string: seq('"', field('content', /[^"]*/), '"')`. -/
structure QuotedString where
  content : String
  deriving DecidableEq, Repr

/-- Rule `include_file: choice($.string, $.quoted_string)`. -/
inductive IncludeFile where
  | string (s : StringNode)
  | quoted_string (q : QuotedString)
  deriving DecidableEq, Repr

/-- Rule `include: seq('#[', field('file', $.include_file), ']')`. -/
structure Include where
  file : IncludeFile
  deriving DecidableEq, Repr

/-- Rule `number: choice($.integer, $.float)`. -/
inductive Number where
  | integer (w : String)
  | float (w : String)
  deriving DecidableEq, Repr

/-- Rule `operator: choice('|', '&', '?', '!', '_', '=', ',')`. -/
inductive Operator where
  | or
  | and
  | optional
  | not
  | placeholder
  | equals
  | separator
  deriving DecidableEq, Repr

/-- Rule `arithmetic_op: choice('+', '-', '*', '/', '%')`. -/
inductive ArithmeticOp where
  | plus
  | minus
  | times
  | divide
  | modulo
  deriving DecidableEq, Repr

/-- The items of `pointer_expression`: `choice($.number, $.operator, $.arithmetic_op)`. -/
inductive PointerItem where
  | number (n : Number)
  | operator (o : Operator)
  | arithmetic_op (a : ArithmeticOp)
  deriving DecidableEq, Repr

/-- Rule `pointer_expression: seq('[', field('expression', repeat1(...)), ']')`; the
`repeat1` is a first item and the list of the further ones. -/
structure PointerExpression where
  first : PointerItem
  rest : List PointerItem
  deriving DecidableEq, Repr

/-- Rule `pointer_id: choice($.number, $.pointer_expression)`. -/
inductive PointerId where
  | number (n : Number)
  | pointer_expression (e : PointerExpression)
  deriving DecidableEq, Repr

/-- Rule `pointer_ref: seq('@', field('id', $.pointer_id))`. -/
structure PointerRef where
  id : PointerId
  deriving DecidableEq, Repr

/-- Rule `pointer: seq('@', field('id', $.pointer_id))`. -/
structure Pointer where
  id : PointerId
  deriving DecidableEq, Repr

/-- Rule `fycoide: seq('#(', field('name', $.string), ')')`. -/
structure Fycoide where
  name : StringNode
  deriving DecidableEq, Repr

/-- Rule `type_desc: seq('\'', field('description', $.string), '\'')`. -/
structure TypeDesc where
  description : StringNode
  deriving DecidableEq, Repr

/-- Rule `gac_prefix`: `seq(identifier, '=')` or `seq(identifier, '<|')`; the argument
is the identifier of the field named prefix. -/
inductive GacPrefix where
  | eq (pre : String)
  | lt_bar (pre : String)
  deriving DecidableEq, Repr

/-- Rule `gac_suffix: choice(seq('-', field('suffix', $.identifier)),
seq('+', field('suffix', $.identifier)))`. -/
inductive GacSuffix where
  | minus (suffix : String)
  | plus (suffix : String)
  deriving DecidableEq, Repr

/-- Rule `gac_synonym: seq('|>', field('synonym', $.identifier))`. -/
structure GacSynonym where
  synonym : String
  deriving DecidableEq, Repr

mutual
/-- Rule `gac_stem`, a `choice` of eight alternatives; the last one, `gac_nested:
seq('[', field('content', $.gac_string), ']')`, is recursive. -/
inductive GacStem where
  | fycoide (f : Fycoide)
  | pointer_ref (p : PointerRef)
  | operator (o : Operator)
  | identifier (w : String)
  | gac_prefix (p : GacPrefix)
  | gac_suffix (s : GacSuffix)
  | gac_synonym (s : GacSynonym)
  | gac_nested (content : GacString)
/-- Rule `gac_string: repeat1($.gac_stem)`: a first stem and the further ones. -/
inductive GacString where
  | mk (first : GacStem) (rest : List GacStem)
end

/-- The stems of a gac string, in order. -/
def GacString.stems : GacString → List GacStem
  | .mk first rest => first :: rest

/-- Rule `proto_gac_word: seq('*[', field('content', $.gac_string), ']',
optional(field('pointer', $.pointer)))`. -/
structure ProtoGacWord where
  content : GacString
  pointer : Option Pointer

/-- Rule `std_gac_word: seq('[', field('content', $.gac_string), ']',
optional(field('pointer', $.pointer)))`. -/
structure StdGacWord where
  content : GacString
  pointer : Option Pointer

/-- Rule `type_word: choice($.proto_gac_word, $.std_gac_word)`. -/
inductive TypeWord where
  | proto_gac_word (w : ProtoGacWord)
  | std_gac_word (w : StdGacWord)

/-- Rule `datatype: choice($.type_desc, $.type_word)`. -/
inductive Datatype where
  | type_desc (d : TypeDesc)
  | type_word (w : TypeWord)

/-- Rule `expression: choice($.datatype, $.fycoide, $.pointer_ref)`. -/
inductive Expression where
  | datatype (d : Datatype)
  | fycoide (f : Fycoide)
  | pointer_ref (p : PointerRef)

mutual
/-- Rule `function_block: choice($.include, $.shape, $.hold, $.shift, $.flow, $.melt)`. -/
inductive FunctionBlock where
  | include (i : Include)
  | shape (r : Shape)
  | hold (r : Hold)
  | shift (r : Shift)
  | flow (r : Flow)
  | melt (r : Melt)
/-- Rule `shape: choice($.shape_pure, $.shape_block)` with
`shape_pure: seq(field('left', $.expression), '::', field('right', $.expression))` and
`shape_block: seq(field('left', $.expression), '::', '\x7b',
optional(field('body', $.block_body)), '\x7d')`. -/
inductive Shape where
  | shape_pure (left right : Expression)
  | shape_block (left : Expression) (body : Option BlockBody)
/-- Rule `hold: choice($.hold_pure, $.hold_block)`, as `shape` with `'<-'`. -/
inductive Hold where
  | hold_pure (left right : Expression)
  | hold_block (left : Expression) (body : Option BlockBody)
/-- Rule `shift: choice($.shift_pure, $.shift_block)`, as `shape` with `'->'`. -/
inductive Shift where
  | shift_pure (left right : Expression)
  | shift_block (left : Expression) (body : Option BlockBody)
/-- Rule `flow: choice($.flow_pure, $.flow_block)`, as `shape` with `'>>'`. -/
inductive Flow where
  | flow_pure (left right : Expression)
  | flow_block (left : Expression) (body : Option BlockBody)
/-- Rule `melt: choice($.melt_pure, $.melt_block)`, as `shape` with `'@>'`. -/
inductive Melt where
  | melt_pure (left right : Expression)
  | melt_block (left : Expression) (body : Option BlockBody)
/-- Rule `block_body: choice(commaSep1($.block_element),
trailingCommaSep1($.block_element))`.  `commaSep1(rule)` is `seq(rule, repeat(seq(',',
rule)))`: a first element and the list of the further ones, each after a comma;
`trailingCommaSep1(rule)` adds `optional(',')`, here the flag `trailing`. -/
inductive BlockBody where
  | commaSep1 (first : BlockElement) (rest : List BlockElement)
  | trailingCommaSep1 (first : BlockElement) (rest : List BlockElement) (trailing : Bool)
/-- Rule `block_element: choice($.expression, $.function_block)`. -/
inductive BlockElement where
  | expression (e : Expression)
  | function_block (f : FunctionBlock)
end

/-- Rule `statement: choice(seq($.function_block, ';'), $.dash_comment, ';')`. -/
inductive Statement where
  | function_block (f : FunctionBlock)
  | dash_comment (w : String)
  | empty

/-- Rule `fgfh_file: repeat($.statement)`. -/
abbrev File := List Statement

/-! ## The tokens a tree derives -/

/-- Terminal of rule `string`. -/
def StringNode.yield : StringNode → List Tok
  | .identifier w => [Tok.identifier w]
  | .unicode_string w => [Tok.unicode_string w]

/-- Terminals of `quoted_string`: `'"'`, the content pattern, `'"'`. -/
def QuotedString.yield (q : QuotedString) : List Tok :=
  [L "\"", Tok.content q.content, L "\""]

/-- Terminals of `include_file`. -/
def IncludeFile.yield : IncludeFile → List Tok
  | .string s => s.yield
  | .quoted_string q => q.yield

/-- Terminals of `include`: `'#['`, the file, `']'`. -/
def Include.yield (i : Include) : List Tok :=
  L "#[" :: i.file.yield ++ [L "]"]

/-- Terminal of `number`. -/
def Number.yield : Number → List Tok
  | .integer w => [Tok.integer w]
  | .float w => [Tok.float w]

/-- The literal of each alternative of `operator`. -/
def Operator.yield : Operator → List Tok
  | .or => [L "|"]
  | .and => [L "&"]
  | .optional => [L "?"]
  | .not => [L "!"]
  | .placeholder => [L "_"]
  | .equals => [L "="]
  | .separator => [L ","]

/-- The literal of each alternative of `arithmetic_op`. -/
def ArithmeticOp.yield : ArithmeticOp → List Tok
  | .plus => [L "+"]
  | .minus => [L "-"]
  | .times => [L "*"]
  | .divide => [L "/"]
  | .modulo => [L "%"]

/-- Terminals of one item of a pointer expression. -/
def PointerItem.yield : PointerItem → List Tok
  | .number n => n.yield
  | .operator o => o.yield
  | .arithmetic_op a => a.yield

/-- Terminals of `pointer_expression`: `'['`, the items, `']'`. -/
def PointerExpression.yield (e : PointerExpression) : List Tok :=
  L "[" :: (e.first.yield ++ e.rest.flatMap PointerItem.yield) ++ [L "]"]

/-- Terminals of `pointer_id`. -/
def PointerId.yield : PointerId → List Tok
  | .number n => n.yield
  | .pointer_expression e => e.yield

/-- Terminals of `pointer_ref`: `'@'`, the id. -/
def PointerRef.yield (p : PointerRef) : List Tok := L "@" :: p.id.yield

/-- Terminals of `pointer`: `'@'`, the id. -/
def Pointer.yield (p : Pointer) : List Tok := L "@" :: p.id.yield

/-- Terminals of `fycoide`: `'#('`, the name, `')'`. -/
def Fycoide.yield (f : Fycoide) : List Tok := L "#(" :: f.name.yield ++ [L ")"]

/-- Terminals of `type_desc`: a single quote, the description, a single quote. -/
def TypeDesc.yield (d : TypeDesc) : List Tok := L "'" :: d.description.yield ++ [L "'"]

/-- Terminals of `gac_prefix`. -/
def GacPrefix.yield : GacPrefix → List Tok
  | .eq w => [Tok.identifier w, L "="]
  | .lt_bar w => [Tok.identifier w, L "<|"]

/-- Terminals of `gac_suffix`. -/
def GacSuffix.yield : GacSuffix → List Tok
  | .minus w => [L "-", Tok.identifier w]
  | .plus w => [L "+", Tok.identifier w]

/-- Terminals of `gac_synonym`. -/
def GacSynonym.yield (s : GacSynonym) : List Tok := [L "|>", Tok.identifier s.synonym]

mutual
/-- Terminals of `gac_stem`. -/
def GacStem.yield : GacStem → List Tok
  | .fycoide f => f.yield
  | .pointer_ref p => p.yield
  | .operator o => o.yield
  | .identifier w => [Tok.identifier w]
  | GacStem.gac_prefix p => p.yield
  | .gac_suffix s => s.yield
  | .gac_synonym s => s.yield
  | .gac_nested c => L "[" :: c.yield ++ [L "]"]
/-- Terminals of `gac_string`. -/
def GacString.yield : GacString → List Tok
  | .mk first rest => first.yield ++ GacStem.yieldList rest
/-- Terminals of a run of stems. -/
def GacStem.yieldList : List GacStem → List Tok
  | [] => []
  | s :: rest => s.yield ++ GacStem.yieldList rest
end

/-- Terminals of `optional(field('pointer', $.pointer))`. -/
def Pointer.yieldOpt : Option Pointer → List Tok
  | none => []
  | some p => p.yield

/-- Terminals of `proto_gac_word`. -/
def ProtoGacWord.yield (w : ProtoGacWord) : List Tok :=
  L "*[" :: w.content.yield ++ L "]" :: Pointer.yieldOpt w.pointer

/-- Terminals of `std_gac_word`. -/
def StdGacWord.yield (w : StdGacWord) : List Tok :=
  L "[" :: w.content.yield ++ L "]" :: Pointer.yieldOpt w.pointer

/-- Terminals of `type_word`. -/
def TypeWord.yield : TypeWord → List Tok
  | .proto_gac_word w => w.yield
  | .std_gac_word w => w.yield

/-- Terminals of `datatype`. -/
def Datatype.yield : Datatype → List Tok
  | .type_desc d => d.yield
  | .type_word w => w.yield

/-- Terminals of `expression`. -/
def Expression.yield : Expression → List Tok
  | .datatype d => d.yield
  | .fycoide f => f.yield
  | .pointer_ref p => p.yield

mutual
/-- Terminals of `function_block`. -/
def FunctionBlock.yield : FunctionBlock → List Tok
  | .include i => i.yield
  | .shape r => r.yield
  | .hold r => r.yield
  | .shift r => r.yield
  | .flow r => r.yield
  | .melt r => r.yield
/-- Terminals of `shape`. -/
def Shape.yield : Shape → List Tok
  | .shape_pure l r => l.yield ++ L "::" :: r.yield
  | .shape_block l b => l.yield ++ L "::" :: L "\x7b" :: BlockBody.yieldOpt b ++ [L "\x7d"]
/-- Terminals of `hold`. -/
def Hold.yield : Hold → List Tok
  | .hold_pure l r => l.yield ++ L "<-" :: r.yield
  | .hold_block l b => l.yield ++ L "<-" :: L "\x7b" :: BlockBody.yieldOpt b ++ [L "\x7d"]
/-- Terminals of `shift`. -/
def Shift.yield : Shift → List Tok
  | .shift_pure l r => l.yield ++ L "->" :: r.yield
  | .shift_block l b => l.yield ++ L "->" :: L "\x7b" :: BlockBody.yieldOpt b ++ [L "\x7d"]
/-- Terminals of `flow`. -/
def Flow.yield : Flow → List Tok
  | .flow_pure l r => l.yield ++ L ">>" :: r.yield
  | .flow_block l b => l.yield ++ L ">>" :: L "\x7b" :: BlockBody.yieldOpt b ++ [L "\x7d"]
/-- Terminals of `melt`. -/
def Melt.yield : Melt → List Tok
  | .melt_pure l r => l.yield ++ L "@>" :: r.yield
  | .melt_block l b => l.yield ++ L "@>" :: L "\x7b" :: BlockBody.yieldOpt b ++ [L "\x7d"]
/-- Terminals of `optional(field('body', $.block_body))`. -/
def BlockBody.yieldOpt : Option BlockBody → List Tok
  | none => []
  | some b => b.yield
/-- Terminals of `block_body`: the two alternatives `commaSep1` and
`trailingCommaSep1`. -/
def BlockBody.yield : BlockBody → List Tok
  | .commaSep1 first rest => first.yield ++ BlockElement.yieldRest rest
  | .trailingCommaSep1 first rest trailing =>
    first.yield ++ BlockElement.yieldRest rest ++ (if trailing then [L ","] else [])
/-- Terminals of `repeat(seq(',', rule))`. -/
def BlockElement.yieldRest : List BlockElement → List Tok
  | [] => []
  | e :: rest => L "," :: e.yield ++ BlockElement.yieldRest rest
/-- Terminals of `block_element`. -/
def BlockElement.yield : BlockElement → List Tok
  | .expression e => e.yield
  | .function_block f => f.yield
end

/-- Terminals of `statement`. -/
def Statement.yield : Statement → List Tok
  | .function_block f => f.yield ++ [L ";"]
  | .dash_comment w => [Tok.dash_comment w]
  | .empty => [L ";"]

/-- Terminals of `fgfh_file`: those of its statements, in order. -/
def File.yield : File → List Tok
  | [] => []
  | s :: rest => s.yield ++ File.yield rest

/-- The elements of a block body, in order. -/
def BlockBody.elements : BlockBody → List BlockElement
  | .commaSep1 first rest => first :: rest
  | .trailingCommaSep1 first rest _ => first :: rest

/-! ## Parsing a text -/

/-- The text of a token sequence. -/
def textOf : List Tok → List Char
  | [] => []
  | t :: ts => t.text ++ textOf ts

/-- The tokens that are not `extras`. -/
def significant (ts : List Tok) : List Tok := ts.filter (fun t => !t.isExtra)

/-- A scan of the text `s`: well-formed tokens and extras whose texts, in order, make
up `s`. -/
def Scan (s : List Char) (ts : List Tok) : Prop :=
  (∀ t ∈ ts, t.wf = true) ∧ textOf ts = s

/-- The text `s` parses as the file `f`: some scan of `s` has the yield of `f` as its
tokens outside `extras`. -/
def Parses (s : List Char) (f : File) : Prop :=
  ∃ ts, Scan s ts ∧ significant ts = File.yield f

/-- The text `s` is a valid file. -/
def ValidFile (s : List Char) : Prop := ∃ f, Parses s f

/-! ## Helper definitions used in the statements -/

/-- The expression `[a]`: a std gac word whose gac string is the single identifier
stem `a`, without pointer. -/
def stdIdent (a : String) : Expression :=
  .datatype (.type_word (.std_gac_word ⟨.mk (.identifier a) [], none⟩))

/-- The five relation rules `shape`, `hold`, `shift`, `flow`, `melt`. -/
inductive RelKind where
  | shape
  | hold
  | shift
  | flow
  | melt
  deriving DecidableEq, Repr

/-- The operator literal of each relation rule. -/
def RelKind.op : RelKind → String
  | .shape => "::"
  | .hold => "<-"
  | .shift => "->"
  | .flow => ">>"
  | .melt => "@>"

/-- The pure form `X_pure` of the relation rule `X`. -/
def pureRel : RelKind → Expression → Expression → FunctionBlock
  | .shape, l, r => .shape (.shape_pure l r)
  | .hold, l, r => .hold (.hold_pure l r)
  | .shift, l, r => .shift (.shift_pure l r)
  | .flow, l, r => .flow (.flow_pure l r)
  | .melt, l, r => .melt (.melt_pure l r)

/-- The block form `X_block` of the relation rule `X`. -/
def blockRel : RelKind → Expression → Option BlockBody → FunctionBlock
  | .shape, l, b => .shape (.shape_block l b)
  | .hold, l, b => .hold (.hold_block l b)
  | .shift, l, b => .shift (.shift_block l b)
  | .flow, l, b => .flow (.flow_block l b)
  | .melt, l, b => .melt (.melt_block l b)

/-- The tokens that can begin a gac stem. -/
def stemStart : Tok → Bool
  | .lit s => ["#(", "@", "|", "&", "?", "!", "_", "=", ",", "-", "+", "|>", "["].contains s
  | .identifier _ => true
  | _ => false

/-- The tokens that can begin an expression. -/
def exprStart : Tok → Bool
  | .lit s => ["'", "*[", "[", "#(", "@"].contains s
  | _ => false

/-- The text of the statement `[a]::[b];`. -/
def shapePureText (a b : String) : List Char := ("[" ++ a ++ "]::[" ++ b ++ "];").toList

/-- The tokens that can begin a block element: those of an expression and `#[`. -/
def elemStart (t : Tok) : Bool := exprStart t || t == L "#["

/-- The tokens of a list of block elements written with a comma between consecutive
elements. -/
def commaSeparated : List BlockElement → List Tok
  | [] => []
  | [e] => e.yield
  | e :: es => e.yield ++ L "," :: commaSeparated es

/-- Three dashes, the text the lookahead of the dash-comment body looks for. -/
def dashes3 : List Char := "---".toList

/-- A scanner for the end of a dash comment, applied to the text after the opening
`----`: it looks for the first place where four dashes stand and returns the text
after them. -/
def scanClose : List Char → Option (List Char)
  | [] => none
  | c :: u => if dashes4.isPrefixOf (c :: u) then some ((c :: u).drop 4) else scanClose u

/-- No four consecutive dashes begin inside `b` when `b` is followed by three dashes or
more: `b` has no run of four dashes and does not end with a dash. -/
def NoClose (b : List Char) : Prop := ¬ dashes4 <:+: b ++ dashes3

/-- The children of a function block in the field `left`. -/
def FunctionBlock.lefts : FunctionBlock → List Expression
  | .include _ => []
  | .shape (.shape_pure l _) => [l]
  | .shape (.shape_block l _) => [l]
  | .hold (.hold_pure l _) => [l]
  | .hold (.hold_block l _) => [l]
  | .shift (.shift_pure l _) => [l]
  | .shift (.shift_block l _) => [l]
  | .flow (.flow_pure l _) => [l]
  | .flow (.flow_block l _) => [l]
  | .melt (.melt_pure l _) => [l]
  | .melt (.melt_block l _) => [l]

/-- The children of a function block in the field `right`. -/
def FunctionBlock.rights : FunctionBlock → List Expression
  | .shape (.shape_pure _ r) => [r]
  | .hold (.hold_pure _ r) => [r]
  | .shift (.shift_pure _ r) => [r]
  | .flow (.flow_pure _ r) => [r]
  | .melt (.melt_pure _ r) => [r]
  | _ => []

/-- The function block has the block braces. -/
def FunctionBlock.hasBlock : FunctionBlock → Bool
  | .shape (.shape_block _ _) => true
  | .hold (.hold_block _ _) => true
  | .shift (.shift_block _ _) => true
  | .flow (.flow_block _ _) => true
  | .melt (.melt_block _ _) => true
  | _ => false

/-- The child of a function block in the field `body`. -/
def FunctionBlock.body : FunctionBlock → Option BlockBody
  | .shape (.shape_block _ b) => b
  | .hold (.hold_block _ b) => b
  | .shift (.shift_block _ b) => b
  | .flow (.flow_block _ b) => b
  | .melt (.melt_block _ b) => b
  | _ => none

/-- The function block is a relation (`shape`, `hold`, `shift`, `flow` or `melt`), not an
include. -/
def FunctionBlock.isRelation : FunctionBlock → Bool
  | .include _ => false
  | _ => true

/-- The elements of an optional block body; none when the braces are empty. -/
def BlockBody.elementsOpt : Option BlockBody → List BlockElement
  | none => []
  | some b => b.elements

/-- A necessary condition on the first character `ch` of the text of a well-formed token,
read off its literal or the first character class of its pattern. -/
def Tok.firstOk : Tok → Char → Bool
  | .lit s, ch => s.toList.head? == some ch
  | .identifier _, ch =>
    [CharSet.range 'a' 'z', .range 'A' 'Z', .one '_'].any (fun x => x.mem ch)
  | .unicode_string _, ch =>
    [CharSet.range 'a' 'z', .range 'A' 'Z', .range '0' '9', .one '_', .one '-', .one '.',
      .range (Char.ofNat 0x4e00) (Char.ofNat 0x9fa5)].any (fun x => x.mem ch)
  | .integer _, ch => [CharSet.range '0' '9'].any (fun x => x.mem ch)
  | .float _, ch => [CharSet.range '0' '9'].any (fun x => x.mem ch)
  | .content _, ch => ch != '"'
  | .dash_comment _, ch => ch == '-'
  | .whitespace _, ch => whitespaceRE.matches [ch]
  | .line_comment _, ch => ch == '/'
  | .quote_comment _, ch => ch == '"'

/-- The text of the statement `#["c"];`. -/
def includeText (c : String) : List Char := ("#[\"" ++ c ++ "\"];").toList

/-- The tokens that can begin a statement: `;`, a dash comment, or the first token of a
function block. -/
def stmtStart : Tok → Bool
  | .lit s => [";", "#[", "'", "*[", "[", "#(", "@"].contains s
  | .dash_comment _ => true
  | _ => false

/-- The characters that cannot begin an extra: not white space, not `/`, not `"`. -/
def plainChar (ch : Char) : Bool :=
  ch != '/' && ch != '"' && !whitespaceRE.matches [ch]

/-- The token is a match of the content pattern of `quoted_string`. -/
def Tok.isContent : Tok → Bool
  | .content _ => true
  | _ => false

/-- No token of the list is a content token. -/
def NoContent (l : List Tok) : Prop := ∀ t ∈ l, t.isContent = false

/-- A list of tokens that holds a content token also holds the double-quote literal. -/
def QuoteGuard (l : List Tok) : Prop := (∃ t ∈ l, t.isContent = true) → L "\"" ∈ l

/-- The pattern has no lookahead. -/
def RE.noLookahead : RE → Bool
  | .eps => true
  | .cls _ _ => true
  | .seq a b => a.noLookahead && b.noLookahead
  | .alt a b => a.noLookahead && b.noLookahead
  | .star a => a.noLookahead
  | .nla _ => false

/-- The named token patterns other than the content pattern, each with the constructor
of its token. -/
def tokenKinds : List ((String → Tok) × RE) :=
  [(Tok.identifier, identifier), (Tok.unicode_string, unicode_string),
   (Tok.integer, integer), (Tok.float, float), (Tok.dash_comment, dash_comment),
   (Tok.whitespace, whitespaceRE), (Tok.line_comment, line_comment),
   (Tok.quote_comment, quote_comment)]

/-- The tokens, other than the content pattern, that can stand at the start of the text
`s`, each with the text that follows it. -/
def nextTokens (s : List Char) : List (Tok × List Char) :=
  (literals.filterMap fun l =>
    if l.toList.isPrefixOf s then some (L l, s.drop l.toList.length) else none) ++
  tokenKinds.flatMap fun k =>
    (k.2.run s).map fun r => (k.1 (String.mk (s.take (s.length - r.length))), r)

/-- All scans of a text that use no content token (fuel: the length of the text). -/
def allScans : Nat → List Char → List (List Tok)
  | 0, s => if s = [] then [[]] else []
  | n + 1, s =>
    if s = [] then [[]]
    else (nextTokens s).flatMap fun p =>
      if p.2.length < s.length then (allScans n p.2).map (fun ts => p.1 :: ts) else []

/-- A token pattern: `some t` stands for the token `t`, `none` for any one token; the
pattern matches the token lists that begin with such tokens. -/
def matchPat : List (Option Tok) → List Tok → Bool
  | [], _ => true
  | _ :: _, [] => false
  | none :: ps, _ :: ts => matchPat ps ts
  | some a :: ps, t :: ts => t == a && matchPat ps ts

/-- The tokens `[`, `t`, `]` of a gac word of one token. -/
def wordToks (t : Tok) : List Tok := [L "[", t, L "]"]

/-- The file of the one statement `[a]::[b]`. -/
def shapePureFile (a b : String) : File :=
  [Statement.function_block (.shape (.shape_pure (stdIdent a) (stdIdent b)))]

/-- The file of the one statement `[x]->{ [y], [z], }`: the block form of `shift` whose
body is the `trailingCommaSep1` alternative with the trailing comma. -/
def shiftBlockFile (x y z : String) : File :=
  [Statement.function_block (.shift (.shift_block (stdIdent x)
    (some (.trailingCommaSep1 (.expression (stdIdent y)) [.expression (stdIdent z)] true))))]

/-- The tokens of `[x]->{ [y], [z], };` for identifier-like tokens `tx`, `ty`, `tz`. -/
def shiftBlockToks (tx ty tz : Tok) : List Tok :=
  wordToks tx ++ [L "->", L "\x7b"] ++ wordToks ty ++ [L ","] ++ wordToks tz ++
    [L ",", L "\x7d", L ";"]

/-- The gac string Prefix(`a`, `=`), Suffix(`-`, `b`). -/
def prefixReading (a b : String) : GacString :=
  .mk ( GacStem.gac_prefix (.eq a)) [.gac_suffix (.minus b)]

/-- The gac string Identifier `a`, Operator `=`, Suffix(`-`, `b`). -/
def operatorReading (a b : String) : GacString :=
  .mk (.identifier a) [.operator .equals, .gac_suffix (.minus b)]

/-- The file of the one statement `[g]::[c]` for a gac string `g`. -/
def conflictFile (g : GacString) (c : String) : File :=
  [Statement.function_block (.shape (.shape_pure
    (.datatype (.type_word (.std_gac_word ⟨g, none⟩))) (stdIdent c)))]

/-- The tokens of `[a=-b]::[c];`, the three words given as token lists. -/
def conflictToks (ta : Tok) (m : List Tok) (tc : Tok) : List Tok :=
  L "[" :: ta :: L "=" :: m ++ L "]" :: L "::" :: wordToks tc ++ [L ";"]

/-- Membership of a character in the class `[...]` (`neg = false`) or `[^...]`
(`neg = true`) with the given items. -/
def inClass (neg : Bool) (sets : List CharSet) (ch : Char) : Bool :=
  (sets.any fun x => x.mem ch) != neg

/-- The bodies of a quote comment, read from left to right: a backslash takes the next
character with it, which must not be a line terminator; any other character must not be
a double quote. -/
def escapedBody : List Char → Bool
  | [] => true
  | [c] => c != '\\' && c != '"'
  | c :: d :: r =>
    if c = '\\' then inClass true [.one '\n', .one '\r', .one (Char.ofNat 0x2028),
      .one (Char.ofNat 0x2029)] d && escapedBody r
    else c != '"' && escapedBody (d :: r)

/-- Bracket matching on tokens: the tokens after the `]` that closes a bracket open at
depth `d` (`[` opens one level, `]` closes one). -/
def closeRest : Nat → List Tok → Option (List Tok)
  | _, [] => none
  | d, t :: ts =>
    if t = L "[" then closeRest (d + 1) ts
    else if t = L "]" then
      match d with
      | 0 => some ts
      | d + 1 => closeRest d ts
    else closeRest d ts

/-- The relation rule that a function block is an instance of; none for an include. -/
def FunctionBlock.kind : FunctionBlock → Option RelKind
  | .include _ => none
  | .shape _ => some .shape
  | .hold _ => some .hold
  | .shift _ => some .shift
  | .flow _ => some .flow
  | .melt _ => some .melt

/-- The text of the statement `[a] OP [b];` for the operator of the relation rule `k`. -/
def pureText (k : RelKind) : List Char := ("[a]" ++ k.op ++ "[b];").toList

/-- The content tokens of a token list are no more than its double-quote literals. -/
def ContentBound (l : List Tok) : Prop := l.countP Tok.isContent ≤ l.count (L "\"")

/-- The kinds of token that the rules below `statement` derive: string literals, the
four named patterns and the content pattern, but neither the dash comment nor an
extra. -/
def Tok.inBlock : Tok → Bool
  | .lit _ => true
  | .identifier _ => true
  | .unicode_string _ => true
  | .integer _ => true
  | .float _ => true
  | .content _ => true
  | _ => false

/-- Every token of the list is of a kind that occurs below `statement`. -/
def InBlock (l : List Tok) : Prop := ∀ t ∈ l, t.inBlock = true

/-- The first `k` tokens and extras of every scan of a text that uses no content token
(the whole scan when it has fewer than `k`). -/
def scanPrefixes : Nat → List Char → List (List Tok)
  | 0, _ => [[]]
  | k + 1, s =>
    if s = [] then [[]]
    else (nextTokens s).flatMap fun p =>
      if p.2.length < s.length then (scanPrefixes k p.2).map (fun ts => p.1 :: ts) else []

/-- The tokens that can follow a gac word at the start of a statement: `@` of its
pointer or the operator of a relation. -/
def afterWord (t : Tok) : Bool :=
  [L "@", L "::", L "<-", L "->", L ">>", L "@>"].contains t

/-- A token list that begins `[`, one token, `]` and then a token that cannot follow a
gac word. -/
def wordThenOther : List Tok → Bool
  | a :: _ :: c :: t :: _ => a == L "[" && c == L "]" && !afterWord t
  | _ => false

/-- A token list that begins `[`, one token, `]`, `->`, an opening brace and then a
token that neither begins a block element nor closes the block. -/
def blockThenOther : List Tok → Bool
  | a :: _ :: c :: d :: e :: t :: _ =>
    a == L "[" && c == L "]" && d == L "->" && e == L "\x7b" &&
      !(elemStart t || t == L "\x7d")
  | _ => false

/-- A token list of one token that is the given dash comment, or of one token that is
neither an extra nor the start of a statement. -/
def dashOrOther (w : String) : List Tok → Bool
  | [t] => t == Tok.dash_comment w || (!stmtStart t && !t.isExtra)
  | _ => false

/-- A token list of exactly two tokens, the first one `[`. -/
def openAndOne : List Tok → Bool
  | [a, _] => a == L "["
  | _ => false

/-- The text `s` is the source text of a node that derives the tokens `y`: a scan of
`s` has `y` as its tokens outside `extras`, and neither begins nor ends with an extra
(the text of a node runs from its first token to its last). -/
def Spans (s : List Char) (y : List Tok) : Prop :=
  ∃ ts, Scan s ts ∧ significant ts = y ∧
    (∀ t, ts.head? = some t → t.isExtra = false) ∧
    (∀ t, ts.getLast? = some t → t.isExtra = false)

mutual
/-- The number of block bodies on the longest chain of block bodies nested in one
another inside a function block. -/
def FunctionBlock.depth : FunctionBlock → Nat
  | .include _ => 0
  | .shape (.shape_pure _ _) => 0
  | .shape (.shape_block _ b) => BlockBody.depthOpt b
  | .hold (.hold_pure _ _) => 0
  | .hold (.hold_block _ b) => BlockBody.depthOpt b
  | .shift (.shift_pure _ _) => 0
  | .shift (.shift_block _ b) => BlockBody.depthOpt b
  | .flow (.flow_pure _ _) => 0
  | .flow (.flow_block _ b) => BlockBody.depthOpt b
  | .melt (.melt_pure _ _) => 0
  | .melt (.melt_block _ b) => BlockBody.depthOpt b
/-- The depth of an optional block body: one more than the depth of its deepest element. -/
def BlockBody.depthOpt : Option BlockBody → Nat
  | none => 0
  | some (.commaSep1 first rest) => 1 + max first.depth (BlockElement.depthList rest)
  | some (.trailingCommaSep1 first rest _) => 1 + max first.depth (BlockElement.depthList rest)
/-- The depth of the deepest of a list of block elements. -/
def BlockElement.depthList : List BlockElement → Nat
  | [] => 0
  | e :: rest => max e.depth (BlockElement.depthList rest)
/-- The depth of a block element. -/
def BlockElement.depth : BlockElement → Nat
  | .expression _ => 0
  | .function_block f => f.depth
end

/-- The relation `[a]::[b]` put inside `n` block-form relations `[a]::{ ... }`. -/
def nestBlock : Nat → FunctionBlock
  | 0 => .shape (.shape_pure (stdIdent "a") (stdIdent "b"))
  | n + 1 =>
    .shape (.shape_block (stdIdent "a") (some (.commaSep1 (.function_block (nestBlock n)) [])))

/-- The text of `nestBlock n`: `[a]::[b]` inside `n` times `[a]::{ ... }`. -/
def nestText : Nat → List Char
  | 0 => "[a]::[b]".toList
  | n + 1 => "[a]::\x7b ".toList ++ nestText n ++ " \x7d".toList

/-- The leaves of `nestText n`: its tokens and the blanks inside the braces. -/
def nestLeaves : Nat → List Tok
  | 0 => [L "[", Tok.identifier "a", L "]", L "::", L "[", Tok.identifier "b", L "]"]
  | n + 1 =>
    [L "[", Tok.identifier "a", L "]", L "::", L "\x7b", Tok.whitespace " "] ++ nestLeaves n ++
      [Tok.whitespace " ", L "\x7d"]

/-- The tokens of `nestText n`. -/
def nestToks : Nat → List Tok
  | 0 => [L "[", Tok.identifier "a", L "]", L "::", L "[", Tok.identifier "b", L "]"]
  | n + 1 => [L "[", Tok.identifier "a", L "]", L "::", L "\x7b"] ++ nestToks n ++ [L "\x7d"]

/-- The character class of `unicode_string`. -/
def unicodeClass : List CharSet :=
  [.range 'a' 'z', .range 'A' 'Z', .range '0' '9', .one '_', .one '-', .one '.',
    .range (Char.ofNat 0x4e00) (Char.ofNat 0x9fa5)]

/-- The file of the one statement `#(foo)::[b]`, the name read by the given alternative of
`string`. -/
def fycoideFile (name : StringNode) : File :=
  [Statement.function_block (.shape (.shape_pure (.fycoide ⟨name⟩) (stdIdent "b")))]

/-- The file of the one statement `'foo'::[b]`, the description read by the given
alternative of `string`. -/
def typeDescFile (description : StringNode) : File :=
  [Statement.function_block (.shape (.shape_pure (.datatype (.type_desc ⟨description⟩))
    (stdIdent "b")))]

/-- The trees of `commaSep1(rule)`, that is `seq(rule, repeat(seq(',', rule)))`, for the
trees `α` of `rule`: a first tree and the list of the further ones. -/
structure CommaSep1 (α : Type) where
  first : α
  rest : List α

/-- The trees of `trailingCommaSep1(rule)`, that is `seq(rule, repeat(seq(',', rule)),
optional(','))`: as `CommaSep1`, and whether the optional comma is there. -/
structure TrailingCommaSep1 (α : Type) where
  first : α
  rest : List α
  trailing : Bool

/-- Terminals of `repeat(seq(',', rule))` for a rule with the terminals `y`. -/
def commaRest {α : Type} (y : α → List Tok) : List α → List Tok
  | [] => []
  | e :: rest => L "," :: y e ++ commaRest y rest

/-- Terminals of `commaSep1(rule)` for a rule with the terminals `y`. -/
def CommaSep1.yield {α : Type} (y : α → List Tok) (c : CommaSep1 α) : List Tok :=
  y c.first ++ commaRest y c.rest

/-- Terminals of `trailingCommaSep1(rule)` for a rule with the terminals `y`. -/
def TrailingCommaSep1.yield {α : Type} (y : α → List Tok) (t : TrailingCommaSep1 α) :
    List Tok :=
  y t.first ++ commaRest y t.rest ++ (if t.trailing then [L ","] else [])

/-- Modelled from the spec: the scanner of section 4.1, "Given a cursor into the source,
produce the next token/trivia unit", with "Maximal-munch: operators sharing a prefix
(`-`/`->`, `@`/`@>`) resolve longest-match-first", and of section 5, "the scanner always
advances by at least one byte".  A token sequence obeys it when every token is
non-empty and none of the tokens and extras that can stand at its position (`nextTokens`;
the content pattern is read only inside a quoted string and is not among them) is
longer. -/
def longestScan : List Tok → Bool
  | [] => true
  | t :: post =>
    !t.text.isEmpty &&
    (nextTokens (textOf (t :: post))).all
      (fun p => decide ((textOf (t :: post)).length ≤ p.2.length + t.text.length)) &&
    longestScan post

/-- Modelled from the spec: a scan of the text `s` by longest match (`longestScan`). -/
def LongestMatch (s : List Char) (ts : List Tok) : Prop := Scan s ts ∧ longestScan ts = true

/-! ## The matcher and the declarative reading agree -/

theorem RE.match_suffix (re : RE) : ∀ s t : List Char, re.Match s t → t <:+ s := by
  induction re with
  | eps => intro s t h; simp only [RE.Match] at h; subst h; exact List.suffix_refl _
  | cls neg sets =>
    intro s t h
    obtain ⟨c, hs, -⟩ := h
    subst hs
    exact List.suffix_cons c t
  | seq a b iha ihb =>
    intro s t h
    obtain ⟨m, h1, h2⟩ := h
    exact (ihb m t h2).trans (iha s m h1)
  | alt a b iha ihb =>
    intro s t h
    rcases h with h | h
    · exact iha s t h
    · exact ihb s t h
  | star a iha =>
    intro s t h
    simp only [RE.Match] at h
    induction h with
    | refl => exact List.suffix_refl _
    | tail _ hstep ih => exact (iha _ _ hstep).trans ih
  | nla a _ => intro s t h; rw [h.1]

theorem mem_starRun_self (f : List Char → List (List Char)) (n : Nat) (s : List Char) :
    s ∈ starRun f n s := by
  cases n <;> simp [starRun]

theorem starRun_sound (f : List Char → List (List Char)) (step : List Char → List Char → Prop)
    (hf : ∀ x y, y ∈ f x → step x y) :
    ∀ (n : Nat) (s t : List Char), t ∈ starRun f n s → Relation.ReflTransGen step s t := by
  intro n
  induction n with
  | zero =>
    intro s t h
    simp only [starRun, List.mem_singleton] at h
    subst h
    exact Relation.ReflTransGen.refl
  | succ n ih =>
    intro s t h
    simp only [starRun, List.mem_cons, List.mem_flatMap, List.mem_filter] at h
    rcases h with rfl | ⟨m, ⟨hm, -⟩, ht⟩
    · exact Relation.ReflTransGen.refl
    · exact Relation.ReflTransGen.head (hf s m hm) (ih m t ht)

theorem starRun_complete (f : List Char → List (List Char)) (step : List Char → List Char → Prop)
    (hf : ∀ x y, step x y → y ∈ f x) (hsuf : ∀ x y, step x y → y <:+ x)
    (s t : List Char) (h : Relation.ReflTransGen step s t) :
    ∀ n, s.length ≤ n → t ∈ starRun f n s := by
  induction h using Relation.ReflTransGen.head_induction_on with
  | refl => intro n _; exact mem_starRun_self f n t
  | head hstep _ ih =>
    rename_i x m _
    intro n hn
    have hsuffix := hsuf x m hstep
    rcases Nat.lt_or_ge m.length x.length with hlt | hge
    · cases n with
      | zero => omega
      | succ n =>
        simp only [starRun, List.mem_cons, List.mem_flatMap, List.mem_filter]
        exact Or.inr ⟨m, ⟨hf x m hstep, by simpa using hlt⟩, ih n (by omega)⟩
    · have hmx : m = x := hsuffix.eq_of_length (le_antisymm hsuffix.length_le hge)
      subst hmx
      exact ih n hn

/-- The matcher computes exactly the declarative reading. -/
theorem RE.mem_run_iff (re : RE) : ∀ s t : List Char, t ∈ re.run s ↔ re.Match s t := by
  induction re with
  | eps => intro s t; simp [RE.run, RE.Match]
  | cls neg sets =>
    intro s t
    cases s with
    | nil => simp [RE.run, RE.Match]
    | cons c s =>
      simp only [RE.run, RE.Match]
      by_cases hc : ((sets.any fun x => x.mem c) != neg) = true
      · simp only [hc, if_true, List.mem_singleton]
        constructor
        · rintro rfl; exact ⟨c, rfl, hc⟩
        · rintro ⟨c2, h1, -⟩; simp only [List.cons.injEq] at h1; exact h1.2.symm
      · have hc2 : ((sets.any fun x => x.mem c) != neg) = false := by simpa using hc
        rw [hc2]
        constructor
        · intro h; simp at h
        · rintro ⟨c2, h1, h2⟩
          simp only [List.cons.injEq] at h1
          rw [← h1.1] at h2
          exact absurd h2 hc
  | seq a b iha ihb =>
    intro s t
    simp only [RE.run, RE.Match, List.mem_flatMap, iha, ihb]
  | alt a b iha ihb =>
    intro s t
    simp only [RE.run, RE.Match, List.mem_append, iha, ihb]
  | star a iha =>
    intro s t
    simp only [RE.run, RE.Match]
    constructor
    · exact starRun_sound _ _ (fun x y h => (iha x y).1 h) _ s t
    · intro h
      exact starRun_complete _ _ (fun x y h => (iha x y).2 h)
        (fun x y h => RE.match_suffix a x y h) s t h _ (le_refl _)
  | nla a iha =>
    intro s t
    simp only [RE.run, RE.Match]
    by_cases he : (a.run s).isEmpty = true
    · simp only [he, if_true, List.mem_singleton]
      constructor
      · intro h
        refine ⟨h, fun u hu => ?_⟩
        have := (iha s u).2 hu
        rw [List.isEmpty_iff.1 he] at this
        simp at this
      · exact fun h => h.1
    · have he2 : (a.run s).isEmpty = false := by simpa using he
      rw [he2]
      constructor
      · intro h; simp at h
      · rintro ⟨-, h⟩
        exfalso
        apply he
        rw [List.isEmpty_iff]
        apply List.eq_nil_iff_forall_not_mem.2
        intro u hu
        exact h u ((iha s u).1 hu)

theorem RE.matches_iff (re : RE) (w : List Char) : re.matches w = true ↔ re.Match w [] := by
  simp [RE.matches, RE.mem_run_iff]

/-! ## Lemmas on yields -/

attribute [simp] StringNode.yield QuotedString.yield IncludeFile.yield Include.yield Number.yield
  Operator.yield ArithmeticOp.yield PointerItem.yield PointerExpression.yield PointerId.yield
  PointerRef.yield Pointer.yield Fycoide.yield TypeDesc.yield GacPrefix.yield GacSuffix.yield
  GacSynonym.yield GacStem.yield GacString.yield GacStem.yieldList Pointer.yieldOpt
  ProtoGacWord.yield StdGacWord.yield TypeWord.yield Datatype.yield Expression.yield
  FunctionBlock.yield Shape.yield Hold.yield Shift.yield Flow.yield Melt.yield BlockBody.yieldOpt
  BlockBody.yield BlockElement.yieldRest BlockElement.yield Statement.yield File.yield

theorem pureRel_yield (k : RelKind) (l r : Expression) :
    (pureRel k l r).yield = l.yield ++ L k.op :: r.yield := by
  cases k <;> simp [pureRel, RelKind.op]

theorem blockRel_yield (k : RelKind) (l : Expression) (b : Option BlockBody) :
    (blockRel k l b).yield = l.yield ++ L k.op :: L "\x7b" :: BlockBody.yieldOpt b ++ [L "\x7d"] := by
  cases k <;> simp [blockRel, RelKind.op]

/-- Every function block is an include, a pure relation or a block relation. -/
theorem functionBlock_forms (fb : FunctionBlock) :
    (∃ i, fb = .include i) ∨ (∃ k l r, fb = pureRel k l r) ∨ (∃ k l b, fb = blockRel k l b) := by
  cases fb with
  | «include» i => exact Or.inl ⟨i, rfl⟩
  | shape r => cases r with
    | shape_pure l r => exact Or.inr (Or.inl ⟨.shape, l, r, rfl⟩)
    | shape_block l b => exact Or.inr (Or.inr ⟨.shape, l, b, rfl⟩)
  | hold r => cases r with
    | hold_pure l r => exact Or.inr (Or.inl ⟨.hold, l, r, rfl⟩)
    | hold_block l b => exact Or.inr (Or.inr ⟨.hold, l, b, rfl⟩)
  | shift r => cases r with
    | shift_pure l r => exact Or.inr (Or.inl ⟨.shift, l, r, rfl⟩)
    | shift_block l b => exact Or.inr (Or.inr ⟨.shift, l, b, rfl⟩)
  | flow r => cases r with
    | flow_pure l r => exact Or.inr (Or.inl ⟨.flow, l, r, rfl⟩)
    | flow_block l b => exact Or.inr (Or.inr ⟨.flow, l, b, rfl⟩)
  | melt r => cases r with
    | melt_pure l r => exact Or.inr (Or.inl ⟨.melt, l, r, rfl⟩)
    | melt_block l b => exact Or.inr (Or.inr ⟨.melt, l, b, rfl⟩)

theorem gacStem_yield_head (s : GacStem) :
    ∃ t x, s.yield = t :: x ∧ stemStart t = true := by
  cases s with
  | fycoide f => exact ⟨_, _, rfl, by decide⟩
  | pointer_ref p => exact ⟨_, _, rfl, by decide⟩
  | operator o => cases o <;> exact ⟨_, _, rfl, by decide⟩
  | identifier w => exact ⟨_, _, rfl, rfl⟩
  | gac_prefix p => cases p <;> exact ⟨_, _, rfl, rfl⟩
  | gac_suffix p => cases p <;> exact ⟨_, _, rfl, by decide⟩
  | gac_synonym p => exact ⟨_, _, rfl, by decide⟩
  | gac_nested c => exact ⟨L "[", c.yield ++ [L "]"], by simp, by decide⟩

theorem gacString_yield_head (g : GacString) :
    ∃ t x, g.yield = t :: x ∧ stemStart t = true := by
  obtain ⟨first, rest⟩ := g
  obtain ⟨t, x, h, ht⟩ := gacStem_yield_head first
  exact ⟨t, x ++ GacStem.yieldList rest, by simp [h], ht⟩

theorem expression_yield_head (e : Expression) :
    ∃ t x, e.yield = t :: x ∧ exprStart t = true := by
  cases e with
  | datatype d => cases d with
    | type_desc d => exact ⟨_, _, rfl, by decide⟩
    | type_word w => cases w with
      | proto_gac_word w => exact ⟨_, _, rfl, by decide⟩
      | std_gac_word w => exact ⟨_, _, rfl, by decide⟩
  | fycoide f => exact ⟨_, _, rfl, by decide⟩
  | pointer_ref p => exact ⟨_, _, rfl, by decide⟩

theorem gacStem_yield_ne_close (s : GacStem) (r x : List Tok) :
    s.yield ++ r ≠ L "]" :: x := by
  obtain ⟨t, y, h, ht⟩ := gacStem_yield_head s
  rw [h]
  intro hh
  simp only [List.cons_append, List.cons.injEq] at hh
  rw [hh.1] at ht
  exact absurd ht (by decide)

/-- A gac string that begins with an identifier and is closed right after it is that
one identifier stem. -/
theorem gacString_inv_ident (g : GacString) (a : String) (r x : List Tok)
    (h : g.yield ++ L "]" :: r = Tok.identifier a :: L "]" :: x) :
    g = .mk (.identifier a) [] ∧ r = x := by
  obtain ⟨first, rest⟩ := g
  cases first with
  | fycoide f => simp at h
  | pointer_ref p => simp at h
  | operator o => cases o <;> simp at h
  | identifier w =>
    simp at h
    obtain ⟨rfl, h⟩ := h
    cases rest with
    | nil => simp at h; simp [h]
    | cons s rest =>
      simp at h
      exact absurd h (by simpa using gacStem_yield_ne_close s _ _)
  | gac_prefix p => cases p <;> simp at h
  | gac_suffix p => cases p <;> simp at h
  | gac_synonym p => simp at h
  | gac_nested c => simp at h

/-- An expression whose tokens begin `[`, identifier `a`, `]` is the std gac word of the
stem `a`, perhaps with a pointer. -/
theorem expression_inv_ident (e : Expression) (a : String) (r x : List Tok)
    (h : e.yield ++ r = L "[" :: Tok.identifier a :: L "]" :: x) :
    ∃ p, e = .datatype (.type_word (.std_gac_word ⟨.mk (.identifier a) [], p⟩)) ∧
      Pointer.yieldOpt p ++ r = x := by
  cases e with
  | datatype d => cases d with
    | type_desc d => simp at h
    | type_word w => cases w with
      | proto_gac_word w => simp at h
      | std_gac_word w =>
        obtain ⟨c, p⟩ := w
        simp only [Expression.yield, Datatype.yield, TypeWord.yield, StdGacWord.yield,
          List.cons_append, List.append_assoc, List.cons.injEq, true_and] at h
        obtain ⟨hc, hx⟩ := gacString_inv_ident c a _ _ h
        subst hc
        exact ⟨p, rfl, hx⟩
  | fycoide f => simp at h
  | pointer_ref p => simp at h

/-- As `expression_inv_ident`, when the next token is not `@`: there is no pointer. -/
theorem expression_inv_stdIdent (e : Expression) (a : String) (r : List Tok) (t : Tok)
    (x : List Tok) (ht : t ≠ L "@")
    (h : e.yield ++ r = L "[" :: Tok.identifier a :: L "]" :: t :: x) :
    e = stdIdent a ∧ r = t :: x := by
  obtain ⟨p, rfl, h⟩ := expression_inv_ident e a r _ h
  cases p with
  | none => exact ⟨rfl, by simpa using h⟩
  | some p => simp at h; exact absurd h.1.symm ht

theorem statement_yield_ne_nil (s : Statement) : s.yield ≠ [] := by
  cases s <;> simp

theorem file_yield_eq_nil (f : File) (h : File.yield f = []) : f = [] := by
  cases f with
  | nil => rfl
  | cons s rest =>
    simp at h
    exact absurd h.1 (statement_yield_ne_nil s)

theorem relKind_op_ne_at (k : RelKind) : L k.op ≠ L "@" := by
  cases k <;> decide

theorem relKind_op_inj (k k2 : RelKind) (h : L k2.op = L k.op) : k2 = k := by
  cases k <;> cases k2 <;> first | rfl | exact absurd h (by decide)

/-- A function block whose tokens begin `[`, identifier `a`, `]`, operator of kind `k` is
the relation of kind `k` with left `[a]`, in pure or in block form. -/
theorem functionBlock_inv_ident (fb : FunctionBlock) (a : String) (k : RelKind)
    (r x : List Tok)
    (h : fb.yield ++ r = L "[" :: Tok.identifier a :: L "]" :: L k.op :: x) :
    (∃ right, fb = pureRel k (stdIdent a) right ∧ right.yield ++ r = x) ∨
    (∃ b, fb = blockRel k (stdIdent a) b ∧
      L "\x7b" :: (BlockBody.yieldOpt b ++ L "\x7d" :: r) = x) := by
  rcases functionBlock_forms fb with ⟨i, rfl⟩ | ⟨k2, l, rr, rfl⟩ | ⟨k2, l, b, rfl⟩
  · simp at h
  · rw [pureRel_yield, List.append_assoc] at h
    obtain ⟨hl, hr⟩ := expression_inv_stdIdent l a _ _ _ (relKind_op_ne_at k) h
    simp only [List.cons_append, List.cons.injEq] at hr
    obtain rfl := relKind_op_inj k k2 hr.1
    exact Or.inl ⟨rr, by rw [hl], hr.2⟩
  · simp only [blockRel_yield, List.append_assoc, List.cons_append] at h
    obtain ⟨hl, hr⟩ := expression_inv_stdIdent l a _ _ _ (relKind_op_ne_at k) h
    simp only [List.cons_append, List.cons.injEq, List.append_assoc, List.nil_append] at hr
    obtain rfl := relKind_op_inj k k2 hr.1
    exact Or.inr ⟨b, by rw [hl], by rw [← hr.2]⟩

theorem string_toList_append (s t : String) : (s ++ t).toList = s.toList ++ t.toList := by
  simp [String.toList]

theorem expression_yield_start (e : Expression) (r : List Tok) (t : Tok) (x : List Tok)
    (h : e.yield ++ r = t :: x) : exprStart t = true := by
  obtain ⟨t2, y, h2, ht⟩ := expression_yield_head e
  rw [h2] at h
  simp only [List.cons_append, List.cons.injEq] at h
  rw [← h.1]
  exact ht

theorem blockElement_yield_start (el : BlockElement) (r : List Tok) (t : Tok) (x : List Tok)
    (h : el.yield ++ r = t :: x) : elemStart t = true := by
  cases el with
  | expression e =>
    have := expression_yield_start e r t x h
    simp [elemStart, this]
  | function_block fb =>
    rcases functionBlock_forms fb with ⟨i, rfl⟩ | ⟨k, l, rr, rfl⟩ | ⟨k, l, b, rfl⟩
    · simp at h
      simp [elemStart, ← h.1]
    · simp only [BlockElement.yield, pureRel_yield, List.append_assoc] at h
      have := expression_yield_start l _ t x h
      simp [elemStart, this]
    · simp only [BlockElement.yield, blockRel_yield, List.append_assoc] at h
      have := expression_yield_start l _ t x h
      simp [elemStart, this]

/-- A block element whose tokens are `[`, identifier `a`, `]` followed by a token that is
neither `@` nor a relation operator is the expression `[a]`. -/
theorem blockElement_inv_ident (el : BlockElement) (a : String) (r : List Tok) (t : Tok)
    (x : List Tok) (ht : t ≠ L "@") (hk : ∀ k : RelKind, t ≠ L k.op)
    (h : el.yield ++ r = L "[" :: Tok.identifier a :: L "]" :: t :: x) :
    el = .expression (stdIdent a) ∧ r = t :: x := by
  cases el with
  | expression e =>
    obtain ⟨rfl, hr⟩ := expression_inv_stdIdent e a r t x ht h
    exact ⟨rfl, hr⟩
  | function_block fb =>
    exfalso
    rcases functionBlock_forms fb with ⟨i, rfl⟩ | ⟨k, l, rr, rfl⟩ | ⟨k, l, b, rfl⟩
    · simp at h
    · simp only [BlockElement.yield, pureRel_yield, List.append_assoc] at h
      obtain ⟨-, hr⟩ := expression_inv_stdIdent l a _ t x ht h
      simp only [List.cons_append, List.cons.injEq] at hr
      exact hk k hr.1.symm
    · simp only [BlockElement.yield, blockRel_yield, List.append_assoc] at h
      obtain ⟨-, hr⟩ := expression_inv_stdIdent l a _ t x ht h
      simp only [List.cons_append, List.cons.injEq] at hr
      exact hk k hr.1.symm

theorem comma_ne_relOp (k : RelKind) : L "," ≠ L k.op := by cases k <;> decide

theorem commaSeparated_cons (e : BlockElement) (es : List BlockElement) :
    commaSeparated (e :: es) = e.yield ++ BlockElement.yieldRest es := by
  induction es generalizing e with
  | nil => simp [commaSeparated]
  | cons e2 es ih => simp [commaSeparated, ih]

theorem yieldRest_stop (es : List BlockElement) (r : List Tok) (t : Tok) (x : List Tok)
    (ht : t ≠ L ",") (h : BlockElement.yieldRest es ++ r = t :: x) : es = [] ∧ r = t :: x := by
  cases es with
  | nil => exact ⟨rfl, by simpa using h⟩
  | cons e es => simp at h; exact absurd h.1.symm ht

theorem yieldRest_comma_stop (es : List BlockElement) (r : List Tok) (t : Tok) (x : List Tok)
    (ht : elemStart t = false) (h : BlockElement.yieldRest es ++ r = L "," :: t :: x) :
    es = [] ∧ r = L "," :: t :: x := by
  cases es with
  | nil => exact ⟨rfl, by simpa using h⟩
  | cons e es =>
    simp only [BlockElement.yieldRest, List.cons_append, List.append_assoc, List.cons.injEq,
      true_and] at h
    have := blockElement_yield_start e _ t x h
    rw [ht] at this
    exact absurd this (by decide)

/-- The further elements of a block body: when the tokens go on with `,`, `[`, identifier
`a`, `]`, the next element is the expression `[a]`. -/
theorem yieldRest_inv_ident (es : List BlockElement) (a : String) (r : List Tok) (t : Tok)
    (x : List Tok) (ht : t ≠ L "@") (hk : ∀ k : RelKind, t ≠ L k.op)
    (hr : ∀ y, r ≠ L "," :: L "[" :: y)
    (h : BlockElement.yieldRest es ++ r = L "," :: L "[" :: Tok.identifier a :: L "]" :: t :: x) :
    ∃ es2, es = .expression (stdIdent a) :: es2 ∧ BlockElement.yieldRest es2 ++ r = t :: x := by
  cases es with
  | nil => exact absurd (by simpa using h) (hr _)
  | cons e es =>
    simp only [BlockElement.yieldRest, List.cons_append, List.append_assoc, List.cons.injEq,
      true_and] at h
    obtain ⟨rfl, h2⟩ := blockElement_inv_ident e a _ t x ht hk h
    exact ⟨es, rfl, h2⟩

/-! ## The dash comment -/

theorem chr_match (c : Char) (s t : List Char) : (RE.chr c).Match s t ↔ s = c :: t := by
  simp only [RE.chr, RE.Match, List.any_cons, List.any_nil, CharSet.mem, Bool.or_false,
    Bool.bne_false, beq_iff_eq]
  constructor
  · rintro ⟨d, h, rfl⟩; exact h
  · intro h; exact ⟨c, h, rfl⟩

theorem str_match (w s t : List Char) : (RE.str w).Match s t ↔ s = w ++ t := by
  induction w generalizing s with
  | nil => simp [RE.str, RE.Match, eq_comm]
  | cons c w ih =>
    show (∃ m, (RE.chr c).Match s m ∧ (RE.str w).Match m t) ↔ _
    simp only [chr_match, ih, List.cons_append]
    constructor
    · rintro ⟨m, rfl, rfl⟩; rfl
    · intro h; exact ⟨w ++ t, h, rfl⟩

theorem notDash_match (s t : List Char) : notDash.Match s t ↔ ∃ c, s = c :: t ∧ c ≠ '-' := by
  simp only [notDash, RE.Match, List.any_cons, List.any_nil, CharSet.mem, Bool.or_false]
  constructor
  · rintro ⟨c, h, hc⟩; exact ⟨c, h, by simpa using hc⟩
  · rintro ⟨c, h, hc⟩; exact ⟨c, h, by simpa using hc⟩

theorem dashes4_prefix_cons (c : Char) (u : List Char) :
    dashes4 <+: c :: u ↔ c = '-' ∧ dashes3 <+: u := by
  show ('-' :: dashes3) <+: c :: u ↔ _
  rw [List.cons_prefix_cons]
  constructor
  · rintro ⟨h, h2⟩; exact ⟨h.symm, h2⟩
  · rintro ⟨h, h2⟩; exact ⟨h.symm, h2⟩

theorem scanClose_cons_skip (c : Char) (u : List Char) (h : ¬ dashes4 <+: c :: u) :
    scanClose (c :: u) = scanClose u := by
  have : dashes4.isPrefixOf (c :: u) = false := by
    rw [← Bool.not_eq_true, List.isPrefixOf_iff_prefix]; exact h
  rw [scanClose, this]
  rfl

theorem scanClose_at_close (u : List Char) (h : dashes4 <+: u) :
    scanClose u = some (u.drop 4) := by
  cases u with
  | nil => exact absurd h (by decide)
  | cons c u =>
    have : dashes4.isPrefixOf (c :: u) = true := List.isPrefixOf_iff_prefix.2 h
    rw [scanClose, this]
    rfl

theorem dashBodyItem_scanClose (x m : List Char) (h : dashBodyItem.Match x m) :
    scanClose x = scanClose m := by
  rcases h with h | h
  · obtain ⟨m1, h1, h2⟩ := h
    obtain ⟨c, rfl, hc⟩ := (notDash_match _ _).1 h1
    have hstar : scanClose m1 = scanClose m := by
      simp only [RE.Match] at h2
      induction h2 with
      | refl => rfl
      | tail _ hstep ih =>
        obtain ⟨d, rfl, hd⟩ := (notDash_match _ _).1 hstep
        rw [ih]
        exact scanClose_cons_skip d _ (fun hp => hd ((dashes4_prefix_cons _ _).1 hp).1)
    rw [← hstar]
    exact scanClose_cons_skip c _ (fun hp => hc ((dashes4_prefix_cons _ _).1 hp).1)
  · obtain ⟨m1, h1, h2⟩ := h
    rw [chr_match] at h1
    obtain ⟨rfl, hno⟩ := h2
    subst h1
    apply scanClose_cons_skip
    intro hp
    have h3 := ((dashes4_prefix_cons _ _).1 hp).2
    obtain ⟨q, hq⟩ := h3
    exact hno q ((str_match _ _ _).2 hq.symm)

theorem dashBodyItem_step (c : Char) (u : List Char) (h : ¬ dashes4 <+: c :: u) :
    dashBodyItem.Match (c :: u) u := by
  by_cases hc : c = '-'
  · subst hc
    refine Or.inr ⟨u, (chr_match _ _ _).2 rfl, rfl, ?_⟩
    intro q hq
    rw [str_match] at hq
    exact h ((dashes4_prefix_cons _ _).2 ⟨rfl, ⟨q, hq.symm⟩⟩)
  · exact Or.inl ⟨u, (notDash_match _ _).2 ⟨c, rfl, hc⟩, Relation.ReflTransGen.refl⟩

/-- The dash-comment pattern is the scanner for the first four dashes after the opening
`----`. -/
theorem dash_comment_match_iff (s t : List Char) :
    dash_comment.Match s t ↔ ∃ u, s = dashes4 ++ u ∧ scanClose u = some t := by
  show (∃ m1, (RE.str dashes4).Match s m1 ∧
    ∃ m2, Relation.ReflTransGen (fun x y => dashBodyItem.Match x y) m1 m2 ∧
      (RE.str dashes4).Match m2 t) ↔ _
  simp only [str_match]
  constructor
  · rintro ⟨m1, rfl, m2, hstar, rfl⟩
    refine ⟨m1, rfl, ?_⟩
    induction hstar using Relation.ReflTransGen.head_induction_on with
    | refl => exact scanClose_at_close _ ⟨t, rfl⟩
    | head hstep _ ih => rw [dashBodyItem_scanClose _ _ hstep]; exact ih
  · rintro ⟨u, rfl, h⟩
    refine ⟨u, rfl, ?_⟩
    induction u with
    | nil => simp [scanClose] at h
    | cons c u ih =>
      by_cases hp : dashes4 <+: c :: u
      · rw [scanClose_at_close _ hp] at h
        obtain ⟨q, hq⟩ := hp
        have : q = t := by
          have h2 := Option.some.inj h
          rw [← hq] at h2
          simpa [dashes4] using h2
        subst this
        exact ⟨c :: u, Relation.ReflTransGen.refl, hq.symm⟩
      · rw [scanClose_cons_skip c u hp] at h
        obtain ⟨m2, hstar, hm2⟩ := ih h
        exact ⟨m2, Relation.ReflTransGen.head (dashBodyItem_step c u hp) hstar, hm2⟩

theorem dash_comment_run_iff (s t : List Char) :
    t ∈ dash_comment.run s ↔ ∃ u, s = dashes4 ++ u ∧ scanClose u = some t := by
  rw [RE.mem_run_iff, dash_comment_match_iff]

theorem noClose_nil : NoClose [] := by
  unfold NoClose
  decide

theorem noClose_cons (c : Char) (b : List Char) :
    NoClose (c :: b) ↔ ¬ dashes4 <+: c :: (b ++ dashes3) ∧ NoClose b := by
  unfold NoClose
  rw [List.cons_append, List.infix_cons_iff, not_or]

theorem dashes4_prefix_extend (l r : List Char) (hl : 4 ≤ l.length) :
    dashes4 <+: l ++ r ↔ dashes4 <+: l := by
  constructor
  · intro h
    exact List.prefix_of_prefix_length_le h (List.prefix_append l r) hl
  · intro h
    exact h.trans (List.prefix_append l r)

theorem dashes4_prefix_body (c : Char) (b t : List Char) :
    dashes4 <+: c :: (b ++ dashes4 ++ t) ↔ dashes4 <+: c :: (b ++ dashes3) := by
  have e : c :: (b ++ dashes4 ++ t) = (c :: (b ++ dashes3)) ++ ('-' :: t) := by
    simp [dashes4, dashes3]
  rw [e]
  exact dashes4_prefix_extend _ _ (by simp [dashes3])

/-- The scanner stops after the body `b` exactly when no four dashes begin inside `b`. -/
theorem scanClose_iff (u t : List Char) :
    scanClose u = some t ↔ ∃ b, u = b ++ dashes4 ++ t ∧ NoClose b := by
  constructor
  · intro h
    induction u with
    | nil => simp [scanClose] at h
    | cons c u ih =>
      by_cases hp : dashes4 <+: c :: u
      · rw [scanClose_at_close _ hp] at h
        obtain ⟨q, hq⟩ := hp
        have h2 := Option.some.inj h
        rw [← hq] at h2
        have hqt : q = t := by simpa [dashes4] using h2
        subst hqt
        exact ⟨[], by simp [hq], noClose_nil⟩
      · rw [scanClose_cons_skip c u hp] at h
        obtain ⟨b, rfl, hb⟩ := ih h
        refine ⟨c :: b, by simp, (noClose_cons c b).2 ⟨?_, hb⟩⟩
        rw [← dashes4_prefix_body c b t]
        exact hp
  · rintro ⟨b, rfl, hb⟩
    induction b with
    | nil => simpa [dashes4] using scanClose_at_close (dashes4 ++ t) ⟨t, rfl⟩
    | cons c b ih =>
      obtain ⟨h1, h2⟩ := (noClose_cons c b).1 hb
      have : scanClose (c :: b ++ dashes4 ++ t) = scanClose (b ++ dashes4 ++ t) :=
        scanClose_cons_skip c _ (by
          rw [← dashes4_prefix_body c b t] at h1
          simpa using h1)
      rw [this]
      exact ih h2

/-- When the four dashes after `b` are the first ones after the opening, no four dashes
begin inside `b`. -/
theorem noClose_of_first (b t : List Char)
    (h : ∀ p q, b ++ dashes4 ++ t = p ++ dashes4 ++ q → b.length ≤ p.length) : NoClose b := by
  rintro ⟨p, q, hpq⟩
  have e : b ++ dashes4 ++ t = p ++ dashes4 ++ (q ++ '-' :: t) := by
    have : b ++ dashes4 ++ t = (b ++ dashes3) ++ '-' :: t := by simp [dashes4, dashes3]
    rw [this, ← hpq]
    simp
  have h1 := h p _ e
  have h2 := congrArg List.length hpq
  simp [dashes4, dashes3] at h2
  omega

/-- No four dashes begin inside `b` (followed by dashes) exactly when `b` has no four
consecutive dashes and does not end with a dash. -/
theorem noClose_iff (b : List Char) :
    NoClose b ↔ ¬ dashes4 <:+: b ∧ b.getLast? ≠ some '-' := by
  constructor
  · intro h
    constructor
    · intro hin
      exact h (hin.trans (List.infix_append' [] b dashes3))
    · intro hl
      obtain ⟨b2, rfl⟩ : ∃ b2, b = b2 ++ ['-'] := by
        rcases List.eq_nil_or_concat b with rfl | ⟨b2, c, rfl⟩
        · simp at hl
        · simp at hl
          exact ⟨b2, by rw [hl]; simp⟩
      exact h ⟨b2, [], by simp [dashes4, dashes3]⟩
  · rintro ⟨h1, h2⟩
    induction b with
    | nil => exact noClose_nil
    | cons c b ih =>
      rw [List.infix_cons_iff, not_or] at h1
      rw [noClose_cons]
      rcases b with _ | ⟨b1, _ | ⟨b2, _ | ⟨b3, b⟩⟩⟩
      · refine ⟨?_, noClose_nil⟩
        intro hp
        simp at h2
        exact h2 ((dashes4_prefix_cons _ _).1 hp).1
      · refine ⟨?_, ih h1.2 (by simpa using h2)⟩
        intro hp
        simp [dashes4, dashes3] at hp h2
        exact h2 hp.2.symm
      · refine ⟨?_, ih h1.2 (by simpa using h2)⟩
        intro hp
        simp [dashes4, dashes3] at hp h2
        exact h2 hp.2.2.symm
      · refine ⟨?_, ih h1.2 (by simpa using h2)⟩
        intro hp
        apply h1.1
        have e : c :: (b1 :: b2 :: b3 :: b ++ dashes3) = (c :: b1 :: b2 :: [b3]) ++ (b ++ dashes3) := by
          simp
        rw [e] at hp
        have hp2 := (dashes4_prefix_extend _ _ (by simp)).1 hp
        exact hp2.trans ⟨b, by simp⟩

/-! ## Relations and block bodies -/

/-- A file whose tokens begin `[`, identifier `x`, `]`, operator of kind `k`, opening
brace begins with the block relation of kind `k` and left `[x]`. -/
theorem file_block_inv (f : File) (x : String) (k : RelKind) (rest : List Tok)
    (h : File.yield f = L "[" :: Tok.identifier x :: L "]" :: L k.op :: L "\x7b" :: rest) :
    ∃ b f2, f = Statement.function_block (blockRel k (stdIdent x) b) :: f2 ∧
      BlockBody.yieldOpt b ++ L "\x7d" :: L ";" :: File.yield f2 = rest := by
  cases f with
  | nil => simp at h
  | cons s f2 =>
    cases s with
    | function_block fb =>
      simp only [File.yield, Statement.yield, List.append_assoc] at h
      rcases functionBlock_inv_ident fb x k _ _ h with ⟨right, -, h2⟩ | ⟨bb, rfl, h2⟩
      · exact absurd (expression_yield_start right _ _ _ h2) (by decide)
      · simp only [List.cons.injEq, true_and, List.singleton_append] at h2
        exact ⟨bb, f2, rfl, h2⟩
    | dash_comment w => simp at h
    | empty => simp at h

/-- Both alternatives of `block_body` derive a first element, further elements each
after a comma, and then nothing or one comma. -/
theorem blockBody_yield_form (body : BlockBody) :
    ∃ first more trail, (trail = [] ∨ trail = [L ","]) ∧ body.elements = first :: more ∧
      body.yield = first.yield ++ (BlockElement.yieldRest more ++ trail) := by
  cases body with
  | commaSep1 first more => exact ⟨first, more, [], Or.inl rfl, rfl, by simp⟩
  | trailingCommaSep1 first more tr =>
    cases tr
    · exact ⟨first, more, [], Or.inl rfl, rfl, by simp⟩
    · exact ⟨first, more, [L ","], Or.inr rfl, rfl, by simp⟩

theorem blockBody_yield_start (body : BlockBody) (r : List Tok) (t : Tok) (x : List Tok)
    (h : body.yield ++ r = t :: x) : elemStart t = true := by
  obtain ⟨first, more, trail, -, -, hy⟩ := blockBody_yield_form body
  rw [hy, List.append_assoc] at h
  exact blockElement_yield_start first _ t x h

/-- Braces that close at once hold no block body. -/
theorem yieldOpt_close_inv (b : Option BlockBody) (r x : List Tok)
    (h : BlockBody.yieldOpt b ++ L "\x7d" :: r = L "\x7d" :: x) : b = none ∧ r = x := by
  cases b with
  | none => exact ⟨rfl, by simpa using h⟩
  | some body =>
    simp only [BlockBody.yieldOpt] at h
    exact absurd (blockBody_yield_start body _ _ _ h) (by decide)

/-! ## Scans of a text -/

theorem cls_match (neg : Bool) (sets : List CharSet) (s t : List Char)
    (h : (RE.cls neg sets).Match s t) :
    ∃ ch, s = ch :: t ∧ ((sets.any fun x => x.mem ch) != neg) = true := h

theorem seq_cls_first (neg : Bool) (sets : List CharSet) (b : RE) (s t : List Char)
    (h : (RE.seq (.cls neg sets) b).Match s t) :
    ∃ ch m, s = ch :: m ∧ ((sets.any fun x => x.mem ch) != neg) = true := by
  obtain ⟨m, ⟨ch, hs, hc⟩, -⟩ := h
  exact ⟨ch, m, hs, hc⟩

theorem literals_nonempty : ∀ s ∈ literals, s.toList ≠ [] := by decide

/-- The text of a well-formed token is empty only for the content pattern. -/
theorem wf_text_nil (t : Tok) (hwf : t.wf = true) (h : t.text = []) : ∃ w, t = Tok.content w := by
  cases t with
  | lit s =>
    have hs : s ∈ literals := by simpa [Tok.wf] using hwf
    exact absurd h (literals_nonempty s hs)
  | identifier w =>
    simp only [Tok.wf, RE.matches_iff, Tok.text] at hwf h
    rw [h] at hwf
    obtain ⟨ch, m, hs, -⟩ := seq_cls_first _ _ _ _ _ hwf
    exact absurd hs (by simp)
  | unicode_string w =>
    simp only [Tok.wf, RE.matches_iff, Tok.text] at hwf h
    rw [h] at hwf
    obtain ⟨ch, m, hs, -⟩ := seq_cls_first _ _ _ _ _ hwf
    exact absurd hs (by simp)
  | integer w =>
    simp only [Tok.wf, RE.matches_iff, Tok.text] at hwf h
    rw [h] at hwf
    obtain ⟨ch, m, hs, -⟩ := seq_cls_first _ _ _ _ _ hwf
    exact absurd hs (by simp)
  | float w =>
    simp only [Tok.wf, RE.matches_iff, Tok.text] at hwf h
    rw [h] at hwf
    obtain ⟨m, h1, -⟩ := hwf
    obtain ⟨ch, m, hs, -⟩ := seq_cls_first _ _ _ _ _ h1
    exact absurd hs (by simp)
  | content w => exact ⟨w, rfl⟩
  | dash_comment w =>
    simp only [Tok.wf, RE.matches_iff, Tok.text] at hwf h
    rw [h] at hwf
    obtain ⟨u, hu, -⟩ := (dash_comment_match_iff _ _).1 hwf
    exact absurd hu (by simp [dashes4])
  | whitespace w =>
    simp only [Tok.wf, RE.matches_iff, Tok.text] at hwf h
    rw [h] at hwf
    obtain ⟨ch, hs, -⟩ := cls_match _ _ _ _ hwf
    exact absurd hs (by simp)
  | line_comment w =>
    simp only [Tok.wf, RE.matches_iff, Tok.text] at hwf h
    rw [h] at hwf
    obtain ⟨m, h1, -⟩ := hwf
    rw [str_match] at h1
    exact absurd h1 (by simp)
  | quote_comment w =>
    simp only [Tok.wf, RE.matches_iff, Tok.text] at hwf h
    rw [h] at hwf
    obtain ⟨m, h1, -⟩ := hwf
    rw [chr_match] at h1
    exact absurd h1 (by simp)

/-- The first character of the text of a well-formed token. -/
theorem wf_firstOk (t : Tok) (ch : Char) (r : List Char) (hwf : t.wf = true)
    (h : t.text = ch :: r) : t.firstOk ch = true := by
  cases t with
  | lit s =>
    simp only [Tok.text] at h
    simp only [Tok.firstOk, h, List.head?_cons, beq_self_eq_true]
  | identifier w =>
    simp only [Tok.wf, RE.matches_iff, Tok.text] at hwf h
    rw [h] at hwf
    obtain ⟨c2, m, hs, hc⟩ := seq_cls_first _ _ _ _ _ hwf
    simp only [List.cons.injEq] at hs
    rw [← hs.1] at hc
    simpa [Tok.firstOk] using hc
  | unicode_string w =>
    simp only [Tok.wf, RE.matches_iff, Tok.text] at hwf h
    rw [h] at hwf
    obtain ⟨c2, m, hs, hc⟩ := seq_cls_first _ _ _ _ _ hwf
    simp only [List.cons.injEq] at hs
    rw [← hs.1] at hc
    simpa [Tok.firstOk] using hc
  | integer w =>
    simp only [Tok.wf, RE.matches_iff, Tok.text] at hwf h
    rw [h] at hwf
    obtain ⟨c2, m, hs, hc⟩ := seq_cls_first _ _ _ _ _ hwf
    simp only [List.cons.injEq] at hs
    rw [← hs.1] at hc
    simpa [Tok.firstOk] using hc
  | float w =>
    simp only [Tok.wf, RE.matches_iff, Tok.text] at hwf h
    rw [h] at hwf
    obtain ⟨m, h1, -⟩ := hwf
    obtain ⟨c2, m, hs, hc⟩ := seq_cls_first _ _ _ _ _ h1
    simp only [List.cons.injEq] at hs
    rw [← hs.1] at hc
    simpa [Tok.firstOk] using hc
  | content w =>
    simp only [Tok.wf, RE.matches_iff, Tok.text] at hwf h
    rw [h] at hwf
    simp only [quotedContent, RE.Match] at hwf
    rcases Relation.ReflTransGen.cases_head hwf with h0 | ⟨m, h1, -⟩
    · exact absurd h0 (by simp)
    · obtain ⟨c2, hs, hc⟩ := h1
      simp only [List.cons.injEq] at hs
      rw [← hs.1] at hc
      simpa [Tok.firstOk, CharSet.mem] using hc
  | dash_comment w =>
    simp only [Tok.wf, RE.matches_iff, Tok.text] at hwf h
    rw [h] at hwf
    obtain ⟨u, hu, -⟩ := (dash_comment_match_iff _ _).1 hwf
    simp only [dashes4] at hu
    have : ch = '-' := by
      have := congrArg List.head? hu
      simpa using this
    simp [Tok.firstOk, this]
  | whitespace w =>
    simp only [Tok.wf, Tok.text] at hwf h
    have hm := hwf
    rw [RE.matches_iff, h] at hm
    obtain ⟨c2, hs, -⟩ := cls_match _ _ _ _ hm
    simp only [List.cons.injEq] at hs
    rw [h, hs.2] at hwf
    exact hwf
  | line_comment w =>
    simp only [Tok.wf, RE.matches_iff, Tok.text] at hwf h
    rw [h] at hwf
    obtain ⟨m, h1, -⟩ := hwf
    rw [str_match] at h1
    have : ch = '/' := by
      have := congrArg List.head? h1
      simpa using this
    simp [Tok.firstOk, this]
  | quote_comment w =>
    simp only [Tok.wf, RE.matches_iff, Tok.text] at hwf h
    rw [h] at hwf
    obtain ⟨m, h1, -⟩ := hwf
    rw [chr_match] at h1
    simp only [List.cons.injEq] at h1
    simp [Tok.firstOk, h1.1]

/-- An extra has a non-empty text, which begins with a white-space character, `/` or
`"`. -/
theorem extra_firstOk (t : Tok) (hwf : t.wf = true) (hx : t.isExtra = true) :
    ∃ ch r, t.text = ch :: r ∧ t.firstOk ch = true := by
  cases hte : t.text with
  | nil =>
    obtain ⟨w, rfl⟩ := wf_text_nil t hwf hte
    simp [Tok.isExtra] at hx
  | cons ch r => exact ⟨ch, r, rfl, wf_firstOk t ch r hwf hte⟩

/-- The next token of a scan: when the text begins with `ch` and no extra of the scan
can begin with `ch`, the scan begins with its first token outside `extras`. -/
theorem scan_head (ts : List Tok) (ch : Char) (rest : List Char) (e : Tok) (es : List Tok)
    (hwf : ∀ t ∈ ts, t.wf = true) (htext : textOf ts = ch :: rest)
    (hno : ∀ t ∈ ts, t.isExtra = true → t.firstOk ch = false)
    (hsig : significant ts = e :: es) :
    ∃ ts2, ts = e :: ts2 ∧ significant ts2 = es := by
  cases ts with
  | nil => simp [significant] at hsig
  | cons t ts2 =>
    by_cases hx : t.isExtra = true
    · exfalso
      obtain ⟨c2, r, ht, hok⟩ := extra_firstOk t (hwf t (List.mem_cons_self _ _)) hx
      simp only [textOf, ht, List.cons_append, List.cons.injEq] at htext
      rw [htext.1, hno t (List.mem_cons_self _ _) hx] at hok
      exact absurd hok (by decide)
    · have hx2 : t.isExtra = false := by simpa using hx
      simp only [significant, List.filter_cons, hx2, Bool.not_false, if_true,
        List.cons.injEq] at hsig
      exact ⟨ts2, by rw [hsig.1], hsig.2⟩

theorem extra_firstOk_plain (t : Tok) (ch : Char) (hx : t.isExtra = true)
    (hch : plainChar ch = true) : t.firstOk ch = false := by
  simp only [plainChar, Bool.and_eq_true, bne_iff_ne, ne_eq, Bool.not_eq_true'] at hch
  cases t with
  | whitespace w => exact hch.2
  | line_comment w => simp [Tok.firstOk, hch.1.1]
  | quote_comment w => simp [Tok.firstOk, hch.1.2]
  | lit s => simp [Tok.isExtra] at hx
  | identifier w => simp [Tok.isExtra] at hx
  | unicode_string w => simp [Tok.isExtra] at hx
  | integer w => simp [Tok.isExtra] at hx
  | float w => simp [Tok.isExtra] at hx
  | content w => simp [Tok.isExtra] at hx
  | dash_comment w => simp [Tok.isExtra] at hx

theorem file_yield_start (f : File) (e : Tok) (es : List Tok) (h : File.yield f = e :: es) :
    stmtStart e = true := by
  cases f with
  | nil => simp at h
  | cons s f2 =>
    cases s with
    | function_block fb =>
      simp only [File.yield, Statement.yield, List.append_assoc] at h
      have := blockElement_yield_start (.function_block fb) _ e es h
      cases e with
      | lit s =>
        simp [elemStart, exprStart, L] at this
        simp [stmtStart]
        tauto
      | identifier w => simp [elemStart, exprStart] at this
      | unicode_string w => simp [elemStart, exprStart] at this
      | integer w => simp [elemStart, exprStart] at this
      | float w => simp [elemStart, exprStart] at this
      | content w => simp [elemStart, exprStart] at this
      | dash_comment w => rfl
      | whitespace w => simp [elemStart, exprStart] at this
      | line_comment w => simp [elemStart, exprStart] at this
      | quote_comment w => simp [elemStart, exprStart] at this
    | dash_comment w =>
      simp at h
      rw [← h.1]
      rfl
    | empty =>
      simp at h
      rw [← h.1]
      rfl

/-- Tokens without text make up no statement. -/
theorem file_of_empty_text (ts : List Tok) (f : File) (hwf : ∀ t ∈ ts, t.wf = true)
    (htext : textOf ts = []) (hsig : significant ts = File.yield f) : f = [] := by
  apply file_yield_eq_nil
  cases hy : File.yield f with
  | nil => rfl
  | cons e es =>
    exfalso
    rw [hy] at hsig
    have hmem : e ∈ ts := by
      have : e ∈ significant ts := by rw [hsig]; exact List.mem_cons_self _ _
      exact List.mem_of_mem_filter this
    obtain ⟨pre, post, rfl⟩ := List.append_of_mem hmem
    have hte : e.text = [] := by
      have : textOf (pre ++ e :: post) = textOf pre ++ (e.text ++ textOf post) := by
        clear hwf htext hsig hmem
        induction pre with
        | nil => rfl
        | cons t pre ih => simp [textOf, ih]
      rw [this] at htext
      simp only [List.append_eq_nil] at htext
      exact htext.2.1
    obtain ⟨w, rfl⟩ := wf_text_nil e (hwf e hmem) hte
    exact absurd (file_yield_start f _ es hy) (by simp [stmtStart])

theorem textOf_append (a b : List Tok) : textOf (a ++ b) = textOf a ++ textOf b := by
  induction a with
  | nil => rfl
  | cons t a ih => simp [textOf, ih]

/-- Splitting two texts at their first double quote. -/
theorem first_split (a : Char) (A X S S2 : List Char) (hA : a ∉ A) (hX : a ∉ X)
    (h : A ++ a :: S = X ++ a :: S2) : A = X ∧ S = S2 := by
  induction A generalizing X with
  | nil =>
    cases X with
    | nil => simpa using h
    | cons x X =>
      simp only [List.nil_append, List.cons_append, List.cons.injEq] at h
      exact absurd (h.1 ▸ List.mem_cons_self _ _) hX
  | cons b A ih =>
    cases X with
    | nil =>
      simp only [List.nil_append, List.cons_append, List.cons.injEq] at h
      exact absurd (h.1 ▸ List.mem_cons_self _ _) hA
    | cons x X =>
      simp only [List.cons_append, List.cons.injEq] at h
      obtain ⟨h1, h2⟩ := ih X (fun hm => hA (List.mem_cons_of_mem _ hm))
        (fun hm => hX (List.mem_cons_of_mem _ hm)) h.2
      exact ⟨by rw [h.1, h1], h2⟩

/-- The text of a quote comment begins and ends with a double quote. -/
theorem quote_comment_text (w : String) (hwf : (Tok.quote_comment w).wf = true) :
    ∃ p, w.toList = '"' :: (p ++ ['"']) := by
  simp only [Tok.wf, RE.matches_iff] at hwf
  obtain ⟨m1, h1, m2, h2, h3⟩ := hwf
  rw [chr_match] at h1 h3
  have hsuf := RE.match_suffix _ _ _ h2
  rw [h3] at hsuf
  obtain ⟨p, hp⟩ := hsuf
  exact ⟨p, by rw [h1, hp]⟩

/-- A file whose first token is `#[` begins with an include statement. -/
theorem file_include_inv (f : File) (es : List Tok) (h : File.yield f = L "#[" :: es) :
    ∃ i f2, f = Statement.function_block (.include i) :: f2 ∧
      i.file.yield ++ L "]" :: L ";" :: File.yield f2 = es := by
  cases f with
  | nil => simp at h
  | cons s f2 =>
    cases s with
    | function_block fb =>
      simp only [File.yield, Statement.yield, List.append_assoc] at h
      rcases functionBlock_forms fb with ⟨i, rfl⟩ | ⟨k, l, r, rfl⟩ | ⟨k, l, b, rfl⟩
      · simp only [FunctionBlock.yield, Include.yield, List.cons_append, List.append_assoc,
          List.cons.injEq, true_and, List.singleton_append] at h
        exact ⟨i, f2, rfl, h⟩
      · rw [pureRel_yield, List.append_assoc] at h
        exact absurd (expression_yield_start l _ _ _ h) (by decide)
      · simp only [blockRel_yield, List.append_assoc] at h
        exact absurd (expression_yield_start l _ _ _ h) (by decide)
    | dash_comment w => simp at h
    | empty => simp at h

/-- When the text begins with a character that begins no extra, the scan begins with a
token outside `extras`. -/
theorem scan_head_plain (ts : List Tok) (ch : Char) (rest : List Char)
    (hwf : ∀ t ∈ ts, t.wf = true) (htext : textOf ts = ch :: rest)
    (hch : plainChar ch = true) :
    ∃ e ts2, ts = e :: ts2 ∧ e.isExtra = false ∧ significant ts = e :: significant ts2 := by
  cases ts with
  | nil => simp [textOf] at htext
  | cons t ts2 =>
    by_cases hx : t.isExtra = true
    · exfalso
      obtain ⟨c2, r, ht, hok⟩ := extra_firstOk t (hwf t (List.mem_cons_self _ _)) hx
      simp only [textOf, ht, List.cons_append, List.cons.injEq] at htext
      rw [htext.1, extra_firstOk_plain t ch hx hch] at hok
      exact absurd hok (by decide)
    · have hx2 : t.isExtra = false := by simpa using hx
      exact ⟨t, ts2, rfl, hx2, by simp [significant, List.filter_cons, hx2]⟩

/-- A token that is not the content pattern and stands at the head of a text begins with
the first character of the text. -/
theorem tok_first (e : Tok) (X : List Char) (ch : Char) (rest : List Char)
    (hwf : e.wf = true) (hne : ∀ w, e ≠ Tok.content w) (h : e.text ++ X = ch :: rest) :
    e.firstOk ch = true := by
  cases hte : e.text with
  | nil =>
    obtain ⟨w, hw⟩ := wf_text_nil e hwf hte
    exact absurd hw (hne w)
  | cons c r =>
    rw [hte] at h
    simp only [List.cons_append, List.cons.injEq] at h
    rw [← h.1]
    exact wf_firstOk e c r hwf hte

/-- A scan of a text that begins `#[`, for a file: the first token is `#[` and the first
statement is an include. -/
theorem include_scan_start (ts : List Tok) (f : File) (rest : List Char)
    (hwf : ∀ t ∈ ts, t.wf = true) (htext : textOf ts = '#' :: '[' :: rest)
    (hsig : significant ts = File.yield f) :
    ∃ ts2 i f2, ts = L "#[" :: ts2 ∧ f = Statement.function_block (.include i) :: f2 ∧
      textOf ts2 = rest ∧
      significant ts2 = i.file.yield ++ L "]" :: L ";" :: File.yield f2 := by
  obtain ⟨e, ts2, rfl, hx, hs⟩ := scan_head_plain ts '#' _ hwf htext (by decide)
  rw [hs] at hsig
  have hstart := file_yield_start f e _ hsig.symm
  have hewf := hwf e (List.mem_cons_self _ _)
  simp only [textOf] at htext
  cases e with
  | lit s =>
    simp [stmtStart] at hstart
    simp only [Tok.text] at htext
    rcases hstart with rfl | rfl | rfl | rfl | rfl | rfl | rfl
    · simp at htext
    · obtain ⟨i, f2, rfl, h2⟩ := file_include_inv f _ hsig.symm
      exact ⟨ts2, i, f2, rfl, rfl, by simpa using htext, h2.symm⟩
    · simp at htext
    · simp at htext
    · simp at htext
    · simp at htext
    · simp at htext
  | dash_comment w =>
    have := tok_first _ _ _ _ hewf (by intro w2 h; cases h) htext
    exact absurd this (by simp [Tok.firstOk])
  | identifier w => simp [stmtStart] at hstart
  | unicode_string w => simp [stmtStart] at hstart
  | integer w => simp [stmtStart] at hstart
  | float w => simp [stmtStart] at hstart
  | content w => simp [stmtStart] at hstart
  | whitespace w => simp [stmtStart] at hstart
  | line_comment w => simp [stmtStart] at hstart
  | quote_comment w => simp [stmtStart] at hstart

theorem includeText_eq (c : String) :
    includeText c = '#' :: '[' :: '"' :: (c.toList ++ ['"', ']', ';']) := by
  simp [includeText, string_toList_append]

/-- The first token of an include file is an identifier, a unicode string or the double
quote; none of them can stand where the text goes on with `]`. -/
theorem include_file_not_close (i : Include) (r : List Tok) (ts : List Tok) (X : List Char)
    (hwf : ∀ t ∈ ts, t.wf = true) (htext : textOf ts = ']' :: X)
    (hsig : significant ts = i.file.yield ++ r) : False := by
  obtain ⟨e, ts2, rfl, hx, hs⟩ := scan_head_plain ts ']' _ hwf htext (by decide)
  rw [hs] at hsig
  have hewf := hwf e (List.mem_cons_self _ _)
  simp only [textOf] at htext
  obtain ⟨file⟩ := i
  cases file with
  | string sn =>
    cases sn with
    | identifier w =>
      simp only [IncludeFile.yield, StringNode.yield, List.cons_append, List.nil_append,
        List.cons.injEq] at hsig
      rw [hsig.1] at hewf htext
      have := tok_first _ _ _ _ hewf (by intro w2 h; cases h) htext
      simp only [Tok.firstOk] at this
      exact absurd this (by decide)
    | unicode_string w =>
      simp only [IncludeFile.yield, StringNode.yield, List.cons_append, List.nil_append,
        List.cons.injEq] at hsig
      rw [hsig.1] at hewf htext
      have := tok_first _ _ _ _ hewf (by intro w2 h; cases h) htext
      simp only [Tok.firstOk] at this
      exact absurd this (by decide)
  | quoted_string q =>
    simp only [IncludeFile.yield, QuotedString.yield, List.cons_append, List.cons.injEq] at hsig
    rw [hsig.1] at htext
    simp [Tok.text] at htext

theorem include_file_head_ne_content (i : Include) (r es : List Tok) (w : String) :
    i.file.yield ++ r ≠ Tok.content w :: es := by
  obtain ⟨file⟩ := i
  cases file with
  | string sn => cases sn <;> simp
  | quoted_string q => simp

/-- In a scan of `"c"];` (with `c` free of double quotes) that goes on with an include
file, no quote comment occurs: the double-quoted text is not read as an extra. -/
theorem include_no_quote_comment (c : List Char) (hc : '"' ∉ c) (ts : List Tok) (i : Include)
    (r : List Tok) (hwf : ∀ t ∈ ts, t.wf = true)
    (htext : textOf ts = '"' :: (c ++ ['"', ']', ';']))
    (hsig : significant ts = i.file.yield ++ r) (w : String) : Tok.quote_comment w ∉ ts := by
  intro hmem
  obtain ⟨pre, post, rfl⟩ := List.append_of_mem hmem
  obtain ⟨p, hp⟩ := quote_comment_text w (hwf _ hmem)
  have hc0 : List.count '"' c = 0 := List.count_eq_zero.2 hc
  simp only [textOf_append, textOf, Tok.text, hp] at htext
  have hcount := congrArg (List.count '"') htext
  simp [List.count_cons, hc0] at hcount
  have hpre : textOf pre = [] := by
    cases hA : textOf pre with
    | nil => rfl
    | cons a A =>
      exfalso
      rw [hA] at htext hcount
      simp only [List.cons_append, List.cons.injEq] at htext
      rw [htext.1] at hcount
      simp [List.count_cons] at hcount
      omega
  rw [hpre] at htext hcount
  simp only [List.nil_append, List.cons_append, List.cons.injEq, true_and,
    List.append_assoc] at htext
  have hp0 : '"' ∉ p := by
    apply List.count_eq_zero.1
    simp at hcount
    omega
  obtain ⟨-, hpost⟩ := first_split '"' p c _ _ hp0 hc htext
  have hpre_nil : pre = [] := by
    cases pre with
    | nil => rfl
    | cons t pre2 =>
      exfalso
      simp only [textOf, List.append_eq_nil] at hpre
      obtain ⟨w2, rfl⟩ := wf_text_nil t (hwf t (by simp)) hpre.1
      simp only [significant, List.cons_append, List.filter_cons, Tok.isExtra, Bool.not_false,
        if_true] at hsig
      exact include_file_head_ne_content i r _ w2 hsig.symm
  subst hpre_nil
  have hsig2 : significant post = i.file.yield ++ r := by
    simpa [significant, List.filter_cons, Tok.isExtra] using hsig
  exact include_file_not_close i r post _ (fun t ht => hwf t (by simp [ht])) hpost hsig2

/-- Extras whose text lies in a text of plain characters: there are none. -/
theorem extras_plain_nil (l : List Tok) (hwf : ∀ t ∈ l, t.wf = true)
    (hx : ∀ t ∈ l, t.isExtra = true) (hplain : ∀ ch ∈ textOf l, plainChar ch = true) :
    l = [] := by
  cases l with
  | nil => rfl
  | cons t l2 =>
    exfalso
    obtain ⟨ch, r, ht, hok⟩ := extra_firstOk t (hwf t (by simp)) (hx t (by simp))
    have hch : plainChar ch = true := hplain ch (by simp [textOf, ht])
    rw [extra_firstOk_plain t ch (hx t (by simp)) hch] at hok
    exact absurd hok (by decide)

/-- A scan of `"c"];` (with `c` free of double quotes) that goes on with an include file,
`]`, `;` and further statements: the include file is a quoted string, there is no further
statement, and when `c` has only plain characters the content is `c`. -/
theorem include_quoted_inv (c : List Char) (hc : '"' ∉ c) (ts : List Tok) (i : Include)
    (f2 : File) (hwf : ∀ t ∈ ts, t.wf = true)
    (htext : textOf ts = '"' :: (c ++ ['"', ']', ';']))
    (hsig : significant ts = i.file.yield ++ L "]" :: L ";" :: File.yield f2) :
    ∃ q, i.file = .quoted_string q ∧ f2 = [] ∧
      ((∀ ch ∈ c, plainChar ch = true) → q.content.toList = c) := by
  have hnoq := include_no_quote_comment c hc ts i _ hwf htext hsig
  have hno : ∀ t ∈ ts, t.isExtra = true → t.firstOk '"' = false := by
    intro t ht hx
    cases t with
    | whitespace w => simp only [Tok.firstOk]; decide
    | line_comment w => simp only [Tok.firstOk]; decide
    | quote_comment w => exact absurd ht (hnoq w)
    | lit s => simp [Tok.isExtra] at hx
    | identifier w => simp [Tok.isExtra] at hx
    | unicode_string w => simp [Tok.isExtra] at hx
    | integer w => simp [Tok.isExtra] at hx
    | float w => simp [Tok.isExtra] at hx
    | content w => simp [Tok.isExtra] at hx
    | dash_comment w => simp [Tok.isExtra] at hx
  have hc0 : List.count '"' c = 0 := List.count_eq_zero.2 hc
  obtain ⟨file⟩ := i
  cases file with
  | string sn =>
    exfalso
    cases sn with
    | identifier w =>
      simp only [IncludeFile.yield, StringNode.yield, List.cons_append, List.nil_append] at hsig
      obtain ⟨ts2, rfl, -⟩ := scan_head ts _ _ _ _ hwf htext hno hsig
      have := tok_first _ _ _ _ (hwf _ (by simp)) (by intro w2 h; cases h) htext
      simp only [Tok.firstOk] at this
      exact absurd this (by decide)
    | unicode_string w =>
      simp only [IncludeFile.yield, StringNode.yield, List.cons_append, List.nil_append] at hsig
      obtain ⟨ts2, rfl, -⟩ := scan_head ts _ _ _ _ hwf htext hno hsig
      have := tok_first _ _ _ _ (hwf _ (by simp)) (by intro w2 h; cases h) htext
      simp only [Tok.firstOk] at this
      exact absurd this (by decide)
  | quoted_string q =>
    refine ⟨q, rfl, ?_⟩
    simp only [IncludeFile.yield, QuotedString.yield, List.cons_append, List.nil_append] at hsig
    obtain ⟨ts2, rfl, hsig2⟩ := scan_head ts _ _ _ _ hwf htext hno hsig
    simp only [textOf, Tok.text] at htext
    have htext2 : textOf ts2 = c ++ ['"', ']', ';'] := by simpa using htext
    obtain ⟨l1, l2, rfl, hl1, -, hsig3⟩ := List.filter_eq_cons_iff.1 hsig2
    obtain ⟨l3, l4, rfl, hl3, -, hsig4⟩ := List.filter_eq_cons_iff.1 hsig3
    simp only [textOf_append, textOf, Tok.text] at htext2
    have e1 : textOf l1 ++ (q.content.toList ++ (textOf l3 ++ ("\"".toList ++ textOf l4))) =
        (textOf l1 ++ (q.content.toList ++ textOf l3)) ++ '"' :: textOf l4 := by simp
    rw [e1] at htext2
    have hcount := congrArg (List.count '"') htext2
    simp [List.count_cons, hc0] at hcount
    have hA : '"' ∉ textOf l1 ++ (q.content.toList ++ textOf l3) := by
      apply List.count_eq_zero.1
      simp
      omega
    obtain ⟨hbody, hl4⟩ := first_split '"' _ c _ _ hA hc htext2
    have hwf4 : ∀ t ∈ l4, t.wf = true := fun t ht => hwf t (by simp [ht])
    obtain ⟨e5, l5, rfl, -, hs5⟩ := scan_head_plain l4 ']' _ hwf4 hl4 (by decide)
    have hsig4b : significant (e5 :: l5) = L "]" :: L ";" :: File.yield f2 := hsig4
    rw [hs5] at hsig4b
    simp only [List.cons.injEq] at hsig4b
    obtain ⟨rfl, hsig5⟩ := hsig4b
    have hl5 : textOf l5 = [';'] := by simpa [textOf, Tok.text] using hl4
    have hwf5 : ∀ t ∈ l5, t.wf = true := fun t ht => hwf4 t (by simp [ht])
    obtain ⟨e6, l6, rfl, -, hs6⟩ := scan_head_plain l5 ';' _ hwf5 hl5 (by decide)
    rw [hs6] at hsig5
    simp only [List.cons.injEq] at hsig5
    obtain ⟨rfl, hsig6⟩ := hsig5
    have hl6 : textOf l6 = [] := by simpa [textOf, Tok.text] using hl5
    refine ⟨file_of_empty_text l6 f2 (fun t ht => hwf5 t (by simp [ht])) hl6 hsig6, ?_⟩
    intro hplain
    have h1 : l1 = [] := by
      apply extras_plain_nil l1 (fun t ht => hwf t (by simp [ht]))
        (fun t ht => by simpa using hl1 t ht)
      intro ch hch
      exact hplain ch (by rw [← hbody]; simp [hch])
    have h3 : l3 = [] := by
      apply extras_plain_nil l3 (fun t ht => hwf t (by simp [ht]))
        (fun t ht => by simpa using hl3 t ht)
      intro ch hch
      exact hplain ch (by rw [← hbody]; simp [hch])
    rw [h1, h3] at hbody
    simpa [textOf] using hbody

theorem quotedContent_matches (s : List Char) (hs : '"' ∉ s) :
    quotedContent.matches s = true := by
  rw [RE.matches_iff]
  show Relation.ReflTransGen (fun x y => (RE.cls true [.one '"']).Match x y) s []
  induction s with
  | nil => exact Relation.ReflTransGen.refl
  | cons ch s ih =>
    refine Relation.ReflTransGen.head ⟨ch, rfl, ?_⟩ (ih (fun h => hs (List.mem_cons_of_mem _ h)))
    have : ch ≠ '"' := fun h => hs (h ▸ List.mem_cons_self _ _)
    simp [CharSet.mem, this]

/-! ## Content tokens, enumeration of scans, words of one token -/

theorem noContent_nil : NoContent [] := by simp [NoContent]

theorem noContent_cons (t : Tok) (l : List Tok) :
    NoContent (t :: l) ↔ t.isContent = false ∧ NoContent l := by
  simp [NoContent]

theorem noContent_append (a b : List Tok) : NoContent (a ++ b) ↔ NoContent a ∧ NoContent b := by
  simp only [NoContent, List.mem_append]
  constructor
  · intro h; exact ⟨fun t ht => h t (Or.inl ht), fun t ht => h t (Or.inr ht)⟩
  · rintro ⟨h1, h2⟩ t (ht | ht)
    · exact h1 t ht
    · exact h2 t ht

theorem quoteGuard_of_noContent (l : List Tok) (h : NoContent l) : QuoteGuard l := by
  rintro ⟨t, ht, hc⟩
  rw [h t ht] at hc
  exact absurd hc (by decide)

theorem quoteGuard_append (a b : List Tok) (ha : QuoteGuard a) (hb : QuoteGuard b) :
    QuoteGuard (a ++ b) := by
  rintro ⟨t, ht, hc⟩
  rcases List.mem_append.1 ht with h | h
  · exact List.mem_append.2 (Or.inl (ha ⟨t, h, hc⟩))
  · exact List.mem_append.2 (Or.inr (hb ⟨t, h, hc⟩))

theorem quoteGuard_cons (t : Tok) (l : List Tok) (ht : t.isContent = false)
    (hl : QuoteGuard l) : QuoteGuard (t :: l) :=
  quoteGuard_append [t] l (quoteGuard_of_noContent _ (by simp [NoContent, ht])) hl

theorem stringNode_noContent (n : StringNode) : NoContent n.yield := by
  cases n <;> simp [NoContent, Tok.isContent]

theorem number_noContent (n : Number) : NoContent n.yield := by
  cases n <;> simp [NoContent, Tok.isContent]

theorem operator_noContent (o : Operator) : NoContent o.yield := by
  cases o <;> simp [NoContent, Tok.isContent]

theorem pointerItem_noContent (p : PointerItem) : NoContent p.yield := by
  cases p with
  | number n => exact number_noContent n
  | operator o => exact operator_noContent o
  | arithmetic_op a => cases a <;> simp [NoContent, Tok.isContent]

theorem pointerId_noContent (p : PointerId) : NoContent p.yield := by
  cases p with
  | number n => exact number_noContent n
  | pointer_expression e =>
    obtain ⟨first, rest⟩ := e
    simp only [PointerId.yield, PointerExpression.yield, List.cons_append, noContent_cons,
      noContent_append, noContent_nil, and_true]
    refine ⟨rfl, ⟨pointerItem_noContent first, ?_⟩, rfl⟩
    intro t ht
    obtain ⟨p, -, hp⟩ := List.mem_flatMap.1 ht
    exact pointerItem_noContent p t hp

theorem fycoide_noContent (f : Fycoide) : NoContent f.yield := by
  simp only [Fycoide.yield, List.cons_append, noContent_cons, noContent_append, noContent_nil,
    and_true]
  exact ⟨rfl, stringNode_noContent _, rfl⟩

theorem pointerRef_noContent (p : PointerRef) : NoContent p.yield := by
  simp only [PointerRef.yield, noContent_cons]
  exact ⟨rfl, pointerId_noContent _⟩

theorem pointerOpt_noContent (p : Option Pointer) : NoContent (Pointer.yieldOpt p) := by
  cases p with
  | none => exact noContent_nil
  | some p =>
    simp only [Pointer.yieldOpt, Pointer.yield, noContent_cons]
    exact ⟨rfl, pointerId_noContent _⟩

mutual
theorem gacStem_noContent : ∀ s : GacStem, NoContent s.yield
  | .fycoide f => fycoide_noContent f
  | .pointer_ref p => pointerRef_noContent p
  | .operator o => operator_noContent o
  | .identifier v => by simp [NoContent, Tok.isContent]
  | GacStem.gac_prefix p => by cases p <;> simp [NoContent, Tok.isContent]
  | .gac_suffix p => by cases p <;> simp [NoContent, Tok.isContent]
  | .gac_synonym p => by simp [NoContent, Tok.isContent]
  | .gac_nested c => by
    simp only [GacStem.yield, List.cons_append, noContent_cons, noContent_append,
      noContent_nil, and_true]
    exact ⟨rfl, gacString_noContent c, rfl⟩
theorem gacString_noContent : ∀ g : GacString, NoContent g.yield
  | .mk first rest => by
    simp only [GacString.yield, noContent_append]
    exact ⟨gacStem_noContent first, gacStemList_noContent rest⟩
theorem gacStemList_noContent : ∀ l : List GacStem, NoContent (GacStem.yieldList l)
  | [] => noContent_nil
  | s :: rest => by
    simp only [GacStem.yieldList, noContent_append]
    exact ⟨gacStem_noContent s, gacStemList_noContent rest⟩
end

theorem expression_noContent (e : Expression) : NoContent e.yield := by
  cases e with
  | datatype d => cases d with
    | type_desc d =>
      simp only [Expression.yield, Datatype.yield, TypeDesc.yield, List.cons_append,
        noContent_cons, noContent_append, noContent_nil, and_true]
      exact ⟨rfl, stringNode_noContent _, rfl⟩
    | type_word w => cases w with
      | proto_gac_word w =>
        simp only [Expression.yield, Datatype.yield, TypeWord.yield, ProtoGacWord.yield,
          List.cons_append, noContent_cons, noContent_append]
        exact ⟨rfl, gacString_noContent _, rfl, pointerOpt_noContent _⟩
      | std_gac_word w =>
        simp only [Expression.yield, Datatype.yield, TypeWord.yield, StdGacWord.yield,
          List.cons_append, noContent_cons, noContent_append]
        exact ⟨rfl, gacString_noContent _, rfl, pointerOpt_noContent _⟩
  | fycoide f => exact fycoide_noContent f
  | pointer_ref p => exact pointerRef_noContent p

theorem include_quoteGuard (i : Include) : QuoteGuard i.yield := by
  obtain ⟨file⟩ := i
  cases file with
  | string n =>
    apply quoteGuard_of_noContent
    simp only [Include.yield, IncludeFile.yield, List.cons_append, noContent_cons,
      noContent_append, noContent_nil, and_true]
    exact ⟨rfl, stringNode_noContent _, rfl⟩
  | quoted_string q =>
    intro _
    simp

theorem pure_quoteGuard (l r : Expression) (op : String) :
    QuoteGuard (l.yield ++ L op :: r.yield) := by
  apply quoteGuard_of_noContent
  simp only [noContent_append, noContent_cons]
  exact ⟨expression_noContent l, rfl, expression_noContent r⟩

theorem block_quoteGuard (l : Expression) (op : String) (body : List Tok)
    (hb : QuoteGuard body) :
    QuoteGuard (l.yield ++ L op :: L "\x7b" :: body ++ [L "\x7d"]) := by
  have e : l.yield ++ L op :: L "\x7b" :: body ++ [L "\x7d"] =
      (l.yield ++ [L op, L "\x7b"]) ++ (body ++ [L "\x7d"]) := by simp
  rw [e]
  apply quoteGuard_append
  · apply quoteGuard_of_noContent
    simp only [noContent_append, noContent_cons, noContent_nil, and_true]
    exact ⟨expression_noContent l, rfl, rfl⟩
  · exact quoteGuard_append _ _ hb (quoteGuard_of_noContent _ (by simp [NoContent, Tok.isContent]))

mutual
theorem functionBlock_quoteGuard : ∀ fb : FunctionBlock, QuoteGuard fb.yield
  | .include i => include_quoteGuard i
  | .shape (.shape_pure l r) => pure_quoteGuard l r _
  | .shape (.shape_block l b) => block_quoteGuard l _ _ (bodyOpt_quoteGuard b)
  | .hold (.hold_pure l r) => pure_quoteGuard l r _
  | .hold (.hold_block l b) => block_quoteGuard l _ _ (bodyOpt_quoteGuard b)
  | .shift (.shift_pure l r) => pure_quoteGuard l r _
  | .shift (.shift_block l b) => block_quoteGuard l _ _ (bodyOpt_quoteGuard b)
  | .flow (.flow_pure l r) => pure_quoteGuard l r _
  | .flow (.flow_block l b) => block_quoteGuard l _ _ (bodyOpt_quoteGuard b)
  | .melt (.melt_pure l r) => pure_quoteGuard l r _
  | .melt (.melt_block l b) => block_quoteGuard l _ _ (bodyOpt_quoteGuard b)
theorem bodyOpt_quoteGuard : ∀ b : Option BlockBody, QuoteGuard (BlockBody.yieldOpt b)
  | none => quoteGuard_of_noContent _ noContent_nil
  | some (.commaSep1 first rest) => by
    simp only [BlockBody.yieldOpt, BlockBody.yield]
    exact quoteGuard_append _ _ (element_quoteGuard first) (elements_quoteGuard rest)
  | some (.trailingCommaSep1 first rest tr) => by
    simp only [BlockBody.yieldOpt, BlockBody.yield]
    refine quoteGuard_append _ _ (quoteGuard_append _ _ (element_quoteGuard first)
      (elements_quoteGuard rest)) (quoteGuard_of_noContent _ ?_)
    cases tr <;> simp [NoContent, Tok.isContent]
theorem elements_quoteGuard : ∀ l : List BlockElement, QuoteGuard (BlockElement.yieldRest l)
  | [] => quoteGuard_of_noContent _ noContent_nil
  | e :: rest => by
    simp only [BlockElement.yieldRest]
    exact quoteGuard_cons _ _ rfl
      (quoteGuard_append _ _ (element_quoteGuard e) (elements_quoteGuard rest))
theorem element_quoteGuard : ∀ e : BlockElement, QuoteGuard e.yield
  | .expression e => quoteGuard_of_noContent _ (expression_noContent e)
  | .function_block fb => functionBlock_quoteGuard fb
end

/-- A file that derives a content token also derives the double-quote literal. -/
theorem file_quoteGuard (f : File) : QuoteGuard (File.yield f) := by
  induction f with
  | nil => exact quoteGuard_of_noContent _ noContent_nil
  | cons s f ih =>
    simp only [File.yield]
    apply quoteGuard_append _ _ _ ih
    cases s with
    | function_block fb =>
      exact quoteGuard_append _ _ (functionBlock_quoteGuard fb)
        (quoteGuard_of_noContent _ (by simp [NoContent, Tok.isContent]))
    | dash_comment w => exact quoteGuard_of_noContent _ (by simp [NoContent, Tok.isContent])
    | empty => exact quoteGuard_of_noContent _ (by simp [NoContent, Tok.isContent])

/-- A pattern without lookahead matches the same prefix whatever follows. -/
theorem RE.match_append (re : RE) (x : List Char) :
    re.noLookahead = true → ∀ s t : List Char, re.Match s t → re.Match (s ++ x) (t ++ x) := by
  induction re with
  | eps => intro _ s t h; simp only [RE.Match] at h ⊢; rw [h]
  | cls neg sets =>
    intro _ s t h
    obtain ⟨c, hs, hc⟩ := h
    exact ⟨c, by rw [hs]; rfl, hc⟩
  | seq a b iha ihb =>
    intro hn s t h
    simp only [RE.noLookahead, Bool.and_eq_true] at hn
    obtain ⟨m, h1, h2⟩ := h
    exact ⟨m ++ x, iha hn.1 s m h1, ihb hn.2 m t h2⟩
  | alt a b iha ihb =>
    intro hn s t h
    simp only [RE.noLookahead, Bool.and_eq_true] at hn
    rcases h with h | h
    · exact Or.inl (iha hn.1 s t h)
    · exact Or.inr (ihb hn.2 s t h)
  | star a iha =>
    intro hn s t h
    simp only [RE.noLookahead] at hn
    simp only [RE.Match] at h ⊢
    induction h with
    | refl => exact Relation.ReflTransGen.refl
    | tail _ hstep ih => exact Relation.ReflTransGen.tail ih (iha hn _ _ hstep)
  | nla a _ => intro hn; simp [RE.noLookahead] at hn

theorem dash_comment_match_append (w x : List Char) (h : dash_comment.Match w []) :
    dash_comment.Match (w ++ x) x := by
  obtain ⟨u, rfl, hu⟩ := (dash_comment_match_iff _ _).1 h
  obtain ⟨b, rfl, hb⟩ := (scanClose_iff _ _).1 hu
  rw [dash_comment_match_iff]
  exact ⟨b ++ dashes4 ++ x, by simp, (scanClose_iff _ _).2 ⟨b, rfl, hb⟩⟩

theorem take_append_sub (w r : List Char) :
    (w ++ r).take ((w ++ r).length - r.length) = w := by
  simp

theorem mem_nextTokens_kind (k : (String → Tok) × RE) (hk : k ∈ tokenKinds) (w : String)
    (r : List Char) (h : k.2.Match (w.toList ++ r) r) :
    (k.1 w, r) ∈ nextTokens (w.toList ++ r) := by
  apply List.mem_append_right
  apply List.mem_flatMap.2
  refine ⟨k, hk, List.mem_map.2 ⟨r, (RE.mem_run_iff _ _ _).2 h, ?_⟩⟩
  rw [take_append_sub]
  rfl

theorem matches_append (re : RE) (hn : re.noLookahead = true) (w r : List Char)
    (h : re.matches w = true) : re.Match (w ++ r) r := by
  simpa using RE.match_append re r hn w [] ((RE.matches_iff _ _).1 h)

/-- Every well-formed token other than a content token is found at the start of a text
that begins with its text. -/
theorem mem_nextTokens (t : Tok) (r : List Char) (hwf : t.wf = true)
    (hc : t.isContent = false) : (t, r) ∈ nextTokens (t.text ++ r) := by
  cases t with
  | lit s =>
    apply List.mem_append_left
    apply List.mem_filterMap.2
    have hs : s ∈ literals := by simpa [Tok.wf] using hwf
    refine ⟨s, hs, ?_⟩
    have : s.toList.isPrefixOf (s.toList ++ r) = true :=
      List.isPrefixOf_iff_prefix.2 (List.prefix_append _ _)
    simp [Tok.text, this]
  | identifier w =>
    exact mem_nextTokens_kind (Tok.identifier, identifier) (by simp [tokenKinds]) w r
      (matches_append _ (by decide) _ r hwf)
  | unicode_string w =>
    exact mem_nextTokens_kind (Tok.unicode_string, Fgfh.unicode_string) (by simp [tokenKinds])
      w r (matches_append _ (by decide) _ r hwf)
  | integer w =>
    exact mem_nextTokens_kind (Tok.integer, Fgfh.integer) (by simp [tokenKinds]) w r
      (matches_append _ (by decide) _ r hwf)
  | float w =>
    exact mem_nextTokens_kind (Tok.float, Fgfh.float) (by simp [tokenKinds]) w r
      (matches_append _ (by decide) _ r hwf)
  | content w => simp [Tok.isContent] at hc
  | dash_comment w =>
    exact mem_nextTokens_kind (Tok.dash_comment, Fgfh.dash_comment) (by simp [tokenKinds]) w r
      (dash_comment_match_append _ r ((RE.matches_iff _ _).1 hwf))
  | whitespace w =>
    exact mem_nextTokens_kind (Tok.whitespace, whitespaceRE) (by simp [tokenKinds]) w r
      (matches_append _ (by decide) _ r hwf)
  | line_comment w =>
    exact mem_nextTokens_kind (Tok.line_comment, Fgfh.line_comment) (by simp [tokenKinds]) w r
      (matches_append _ (by decide) _ r hwf)
  | quote_comment w =>
    exact mem_nextTokens_kind (Tok.quote_comment, Fgfh.quote_comment) (by simp [tokenKinds]) w r
      (matches_append _ (by decide) _ r hwf)

/-- Every scan without content tokens is among the enumerated ones. -/
theorem allScans_complete (ts : List Tok) :
    ∀ (n : Nat) (s : List Char), s.length ≤ n → (∀ t ∈ ts, t.wf = true) →
      (∀ t ∈ ts, t.isContent = false) → textOf ts = s → ts ∈ allScans n s := by
  induction ts with
  | nil =>
    intro n s _ _ _ ht
    simp only [textOf] at ht
    subst ht
    cases n <;> simp [allScans]
  | cons t ts ih =>
    intro n s hn hwf hc ht
    have htne : t.text ≠ [] := by
      intro h0
      obtain ⟨w, rfl⟩ := wf_text_nil t (hwf t (by simp)) h0
      have := hc _ (List.mem_cons_self _ _)
      simp [Tok.isContent] at this
    simp only [textOf] at ht
    have hlen : (textOf ts).length < s.length := by
      rw [← ht, List.length_append]
      have : 0 < t.text.length := List.length_pos.2 htne
      omega
    have hsne : s ≠ [] := by
      intro h0
      rw [h0] at hlen
      simp at hlen
    cases n with
    | zero => omega
    | succ n =>
      simp only [allScans, hsne, if_false]
      apply List.mem_flatMap.2
      refine ⟨(t, textOf ts), ?_, ?_⟩
      · rw [← ht]
        exact mem_nextTokens t _ (hwf t (by simp)) (hc t (by simp))
      · simp only [hlen, if_true]
        exact List.mem_map.2 ⟨ts, ih n _ (by omega) (fun t ht => hwf t (by simp [ht]))
          (fun t ht => hc t (by simp [ht])) rfl, rfl⟩

theorem mem_textOf (t : Tok) (ts : List Tok) (ch : Char) (ht : t ∈ ts) (hch : ch ∈ t.text) :
    ch ∈ textOf ts := by
  induction ts with
  | nil => simp at ht
  | cons a ts ih =>
    simp only [textOf, List.mem_append]
    rcases List.mem_cons.1 ht with rfl | h
    · exact Or.inl hch
    · exact Or.inr (ih h)

/-- A parse of a text without a double quote uses one of the enumerated scans. -/
theorem parses_scans (s : List Char) (hq : '"' ∉ s) (f : File) (h : Parses s f) :
    ∃ ts ∈ allScans s.length s, significant ts = File.yield f := by
  obtain ⟨ts, ⟨hwf, htext⟩, hsig⟩ := h
  refine ⟨ts, allScans_complete ts _ s (le_refl _) hwf ?_ htext, hsig⟩
  intro t ht
  by_contra hc
  have hc2 : t.isContent = true := by simpa using hc
  have hsigmem : t ∈ significant ts := by
    apply List.mem_filter.2
    refine ⟨ht, ?_⟩
    cases t <;> simp [Tok.isContent] at hc2
    simp [Tok.isExtra]
  rw [hsig] at hsigmem
  have hquote : L "\"" ∈ File.yield f := file_quoteGuard f ⟨t, hsigmem, hc2⟩
  rw [← hsig] at hquote
  have hq2 : L "\"" ∈ ts := List.mem_of_mem_filter hquote
  apply hq
  rw [← htext]
  exact mem_textOf _ ts '"' hq2 (by simp [Tok.text])

/-- A valid file without a double quote has an enumerated scan whose tokens outside
`extras` are the yield of a file. -/
theorem validFile_scans (s : List Char) (hq : '"' ∉ s) (h : ValidFile s) :
    ∃ ts ∈ allScans s.length s, ∃ f : File, significant ts = File.yield f := by
  obtain ⟨f, hf⟩ := h
  obtain ⟨ts, hmem, hsig⟩ := parses_scans s hq f hf
  exact ⟨ts, hmem, f, hsig⟩

theorem matchPat_some (a : Tok) (ps : List (Option Tok)) (l : List Tok) :
    matchPat (some a :: ps) l = true ↔ ∃ l2, l = a :: l2 ∧ matchPat ps l2 = true := by
  cases l with
  | nil => simp [matchPat]
  | cons t ts =>
    simp only [matchPat, Bool.and_eq_true, beq_iff_eq, List.cons.injEq]
    constructor
    · rintro ⟨rfl, h⟩; exact ⟨ts, ⟨rfl, rfl⟩, h⟩
    · rintro ⟨l2, ⟨rfl, rfl⟩, h⟩; exact ⟨rfl, h⟩

theorem matchPat_none (ps : List (Option Tok)) (l : List Tok) :
    matchPat (none :: ps) l = true ↔ ∃ t l2, l = t :: l2 ∧ matchPat ps l2 = true := by
  cases l with
  | nil => simp [matchPat]
  | cons t ts =>
    simp only [matchPat, List.cons.injEq]
    constructor
    · intro h; exact ⟨t, ts, ⟨rfl, rfl⟩, h⟩
    · rintro ⟨t2, l2, ⟨rfl, rfl⟩, h⟩; exact h

/-- A text without a double quote all of whose scans show a pattern that no file derives
is not a valid file. -/
theorem not_valid_of_scans (s : List Char) (hq : '"' ∉ s) (P : List Tok → Bool)
    (hall : ∀ ts ∈ allScans s.length s, P (significant ts) = true)
    (hP : ∀ f : File, P (File.yield f) = false) : ¬ ValidFile s := by
  intro h
  obtain ⟨ts, hmem, f, hsig⟩ := validFile_scans s hq h
  have h1 := hall ts hmem
  rw [hsig, hP f] at h1
  exact absurd h1 (by decide)

/-- A gac string of one single-token stem: when the second token closes the word, the
string ends there. -/
theorem gacString_single (g : GacString) (tx : Tok) (r x : List Tok)
    (h : g.yield ++ L "]" :: r = tx :: L "]" :: x) : r = x := by
  obtain ⟨first, rest⟩ := g
  have hrest : ∀ y, GacStem.yieldList rest ++ L "]" :: r = L "]" :: y → r = y := by
    intro y hy
    cases rest with
    | nil => simpa using hy
    | cons s rest =>
      simp only [GacStem.yieldList, List.append_assoc] at hy
      exact absurd hy (gacStem_yield_ne_close s _ _)
  cases first with
  | fycoide f => obtain ⟨n⟩ := f; cases n <;> simp at h
  | pointer_ref p =>
    obtain ⟨id⟩ := p
    cases id with
    | number n => cases n <;> simp at h
    | pointer_expression e => simp at h
  | operator o => cases o <;> simp at h <;> exact hrest _ h.2
  | identifier w => simp at h; exact hrest _ h.2
  | gac_prefix p => cases p <;> simp at h
  | gac_suffix p => cases p <;> simp at h
  | gac_synonym p => simp at h
  | gac_nested c =>
    simp only [GacString.yield, GacStem.yield, List.cons_append, List.append_assoc,
      List.cons.injEq] at h
    exact absurd h.2 (by
      obtain ⟨t, y, hy, hst⟩ := gacString_yield_head c
      rw [hy]
      intro hh
      simp only [List.cons_append, List.cons.injEq] at hh
      rw [hh.1] at hst
      exact absurd hst (by decide))

/-- An expression that begins `[`, one token, `]`: when the next token is not `@`, the
expression ends there. -/
theorem expression_single (e : Expression) (tx : Tok) (r : List Tok) (t : Tok) (x : List Tok)
    (ht : t ≠ L "@") (h : e.yield ++ r = L "[" :: tx :: L "]" :: t :: x) : r = t :: x := by
  cases e with
  | datatype d => cases d with
    | type_desc d => simp at h
    | type_word w => cases w with
      | proto_gac_word w => simp at h
      | std_gac_word w =>
        obtain ⟨c, p⟩ := w
        simp only [Expression.yield, Datatype.yield, TypeWord.yield, StdGacWord.yield,
          List.cons_append, List.append_assoc, List.cons.injEq, true_and] at h
        have h2 := gacString_single c tx _ _ h
        cases p with
        | none => simpa using h2
        | some p => simp at h2; exact absurd h2.1.symm ht
  | fycoide f => simp at h
  | pointer_ref p => simp at h

theorem functionBlock_single (fb : FunctionBlock) (tx : Tok) (k : RelKind) (r x : List Tok)
    (h : fb.yield ++ r = L "[" :: tx :: L "]" :: L k.op :: x) :
    (∃ right : Expression, right.yield ++ r = x) ∨
    (∃ b, L "\x7b" :: (BlockBody.yieldOpt b ++ L "\x7d" :: r) = x) := by
  rcases functionBlock_forms fb with ⟨i, rfl⟩ | ⟨k2, l, rr, rfl⟩ | ⟨k2, l, b, rfl⟩
  · obtain ⟨file⟩ := i
    simp at h
  · rw [pureRel_yield, List.append_assoc] at h
    have hr := expression_single l tx _ _ _ (relKind_op_ne_at k) h
    simp only [List.cons_append, List.cons.injEq] at hr
    exact Or.inl ⟨rr, hr.2⟩
  · simp only [blockRel_yield, List.append_assoc, List.cons_append] at h
    have hr := expression_single l tx _ _ _ (relKind_op_ne_at k) h
    simp only [List.cons_append, List.cons.injEq, List.append_assoc, List.nil_append] at hr
    exact Or.inr ⟨b, by rw [← hr.2]⟩

theorem file_block_single (f : File) (tx : Tok) (k : RelKind) (rest : List Tok)
    (h : File.yield f = L "[" :: tx :: L "]" :: L k.op :: L "\x7b" :: rest) :
    ∃ b f2, BlockBody.yieldOpt b ++ L "\x7d" :: L ";" :: File.yield f2 = rest := by
  cases f with
  | nil => simp at h
  | cons s f2 =>
    cases s with
    | function_block fb =>
      simp only [File.yield, Statement.yield, List.append_assoc] at h
      rcases functionBlock_single fb tx k _ _ h with ⟨right, h2⟩ | ⟨bb, h2⟩
      · exact absurd (expression_yield_start right _ _ _ h2) (by decide)
      · simp only [List.cons.injEq, true_and, List.singleton_append] at h2
        exact ⟨bb, f2, h2⟩
    | dash_comment w => simp at h
    | empty => simp at h

theorem blockElement_single (el : BlockElement) (ty : Tok) (r : List Tok) (t : Tok)
    (x : List Tok) (ht : t ≠ L "@") (hk : ∀ k : RelKind, t ≠ L k.op)
    (h : el.yield ++ r = L "[" :: ty :: L "]" :: t :: x) : r = t :: x := by
  cases el with
  | expression e => exact expression_single e ty r t x ht h
  | function_block fb =>
    exfalso
    rcases functionBlock_forms fb with ⟨i, rfl⟩ | ⟨k, l, rr, rfl⟩ | ⟨k, l, b, rfl⟩
    · simp at h
    · simp only [BlockElement.yield, pureRel_yield, List.append_assoc] at h
      have hr := expression_single l ty _ t x ht h
      simp only [List.cons_append, List.cons.injEq] at hr
      exact hk k hr.1.symm
    · simp only [BlockElement.yield, blockRel_yield, List.append_assoc] at h
      have hr := expression_single l ty _ t x ht h
      simp only [List.cons_append, List.cons.injEq] at hr
      exact hk k hr.1.symm

theorem matchPat_nil (l : List Tok) : matchPat [] l = true := by
  cases l <;> rfl

/-- A text without a double quote all of whose scans derive one of the candidate token
lists, each of which only the file `tree` can derive, parses only as `tree`. -/
theorem unique_parse_of_scans (s : List Char) (hq : '"' ∉ s) (cands : List (List Tok))
    (hall : ∀ ts ∈ allScans s.length s, significant ts ∈ cands) (tree : File)
    (hc : ∀ f : File, File.yield f ∈ cands → f = tree) (f : File) (h : Parses s f) :
    f = tree := by
  obtain ⟨ts, hmem, hsig⟩ := parses_scans s hq f h
  exact hc f (hsig ▸ hall ts hmem)

theorem gacString_yield_ne_close (g : GacString) (r x : List Tok) :
    g.yield ++ r ≠ L "]" :: x := by
  obtain ⟨first, rest⟩ := g
  simp only [GacString.yield, List.append_assoc]
  exact gacStem_yield_ne_close first _ x

/-- After the `[` that opens an expression comes the first token of a gac stem. -/
theorem expression_open_stem (e : Expression) (t : Tok) (r x : List Tok)
    (h : e.yield ++ r = L "[" :: t :: x) : stemStart t = true := by
  cases e with
  | datatype d => cases d with
    | type_desc d => simp at h
    | type_word w => cases w with
      | proto_gac_word w => simp at h
      | std_gac_word w =>
        simp only [Expression.yield, Datatype.yield, TypeWord.yield, StdGacWord.yield,
          List.cons_append, List.append_assoc, List.cons.injEq, true_and] at h
        obtain ⟨t2, y, hy, hst⟩ := gacString_yield_head w.content
        rw [hy] at h
        simp only [List.cons_append, List.cons.injEq] at h
        rw [← h.1]
        exact hst
  | fycoide f => simp at h
  | pointer_ref p => simp at h

theorem blockElement_open_stem (el : BlockElement) (t : Tok) (r x : List Tok)
    (h : el.yield ++ r = L "[" :: t :: x) : stemStart t = true := by
  cases el with
  | expression e => exact expression_open_stem e t r x h
  | function_block fb =>
    rcases functionBlock_forms fb with ⟨i, rfl⟩ | ⟨k, l, rr, rfl⟩ | ⟨k, l, b, rfl⟩
    · simp at h
    · simp only [BlockElement.yield, pureRel_yield, List.append_assoc] at h
      exact expression_open_stem l t _ x h
    · simp only [BlockElement.yield, blockRel_yield, List.append_assoc] at h
      exact expression_open_stem l t _ x h

theorem file_open_stem (f : File) (t : Tok) (x : List Tok)
    (h : File.yield f = L "[" :: t :: x) : stemStart t = true := by
  cases f with
  | nil => simp at h
  | cons s f2 =>
    cases s with
    | function_block fb =>
      simp only [File.yield, Statement.yield, List.append_assoc] at h
      exact blockElement_open_stem (.function_block fb) t _ x h
    | dash_comment w => simp at h
    | empty => simp at h

/-- No file derives tokens that begin `[`, `]`. -/
theorem file_not_open_close (f : File) (x : List Tok) : File.yield f ≠ L "[" :: L "]" :: x :=
  fun h => absurd (file_open_stem f _ x h) (by decide)

/-- No file derives tokens that begin `[`, `[`, `]`. -/
theorem file_not_open_open_close (f : File) (x : List Tok) :
    File.yield f ≠ L "[" :: L "[" :: L "]" :: x := by
  have hnest : ∀ (e : Expression) (r : List Tok),
      e.yield ++ r ≠ L "[" :: L "[" :: L "]" :: x := by
    intro e r h
    cases e with
    | datatype d => cases d with
      | type_desc d => simp at h
      | type_word w => cases w with
        | proto_gac_word w => simp at h
        | std_gac_word w =>
          obtain ⟨⟨first, rest⟩, p⟩ := w
          cases first with
          | fycoide f => simp at h
          | pointer_ref p => simp at h
          | operator o => cases o <;> simp at h
          | identifier w => simp at h
          | gac_prefix p => cases p <;> simp at h
          | gac_suffix p => cases p <;> simp at h
          | gac_synonym p => simp at h
          | gac_nested c =>
            simp only [Expression.yield, Datatype.yield, TypeWord.yield, StdGacWord.yield,
              GacString.yield, GacStem.yield, List.cons_append, List.append_assoc,
              List.cons.injEq, true_and] at h
            exact gacString_yield_ne_close _ _ _ h
    | fycoide f => simp at h
    | pointer_ref p => simp at h
  intro h
  cases f with
  | nil => simp at h
  | cons s f2 =>
    cases s with
    | function_block fb =>
      simp only [File.yield, Statement.yield, List.append_assoc] at h
      rcases functionBlock_forms fb with ⟨i, rfl⟩ | ⟨k, l, r, rfl⟩ | ⟨k, l, b, rfl⟩
      · simp at h
      · rw [pureRel_yield, List.append_assoc] at h
        exact hnest l _ h
      · simp only [blockRel_yield, List.append_assoc] at h
        exact hnest l _ h
    | dash_comment w => simp at h
    | empty => simp at h

/-- No file derives tokens that begin `[`, one token, `]`, `::` and then `*[`, `]` or
`*`: the right side of a relation is an expression or a block, and a proto gac word is
not empty. -/
theorem file_not_empty_proto (f : File) (tx : Tok) (x : List Tok) :
    File.yield f ≠ L "[" :: tx :: L "]" :: L "::" :: L "*[" :: L "]" :: x ∧
    File.yield f ≠ L "[" :: tx :: L "]" :: L "::" :: L "*" :: x := by
  have key : ∀ (t : Tok) (y : List Tok),
      File.yield f = L "[" :: tx :: L "]" :: L "::" :: t :: y →
      ∃ (right : Expression) (r : List Tok), right.yield ++ r = t :: y ∨ t = L "\x7b" := by
    intro t y h
    cases f with
    | nil => simp at h
    | cons s f2 =>
      cases s with
      | function_block fb =>
        simp only [File.yield, Statement.yield, List.append_assoc] at h
        rcases functionBlock_single fb tx .shape _ _ h with ⟨right, h2⟩ | ⟨bb, h2⟩
        · exact ⟨right, _, Or.inl h2⟩
        · simp only [List.cons.injEq] at h2
          exact ⟨stdIdent "a", [], Or.inr h2.1.symm⟩
      | dash_comment w => simp at h
      | empty => simp at h
  constructor
  · intro h
    obtain ⟨right, r, h2 | h2⟩ := key _ _ h
    · cases right with
      | datatype d => cases d with
        | type_desc d => simp at h2
        | type_word w => cases w with
          | proto_gac_word w =>
            simp only [Expression.yield, Datatype.yield, TypeWord.yield, ProtoGacWord.yield,
              List.cons_append, List.append_assoc, List.cons.injEq, true_and] at h2
            exact gacString_yield_ne_close _ _ _ h2
          | std_gac_word w => simp at h2
      | fycoide f => simp at h2
      | pointer_ref p => simp at h2
    · exact absurd h2 (by decide)
  · intro h
    obtain ⟨right, r, h2 | h2⟩ := key _ _ h
    · exact absurd (expression_yield_start right _ _ _ h2) (by decide)
    · exact absurd h2 (by decide)

/-- No file derives tokens that begin `[`, one token, `]`, `->`, opening brace, `,`. -/
theorem file_not_block_comma (f : File) (tx : Tok) (rest : List Tok) :
    File.yield f ≠ wordToks tx ++ L "->" :: L "\x7b" :: L "," :: rest := by
  intro h
  obtain ⟨b, f2, h2⟩ := file_block_single f tx .shift _ h
  cases b with
  | none => simp at h2
  | some body =>
    simp only [BlockBody.yieldOpt] at h2
    exact absurd (blockBody_yield_start body _ _ _ h2) (by decide)

/-- No file derives tokens that begin `[`, one token, `]`, `->`, opening brace, `[`, one
token, `]`, `,`, `,`. -/
theorem file_not_block_double_comma (f : File) (tx ty : Tok) (rest : List Tok) :
    File.yield f ≠ wordToks tx ++ L "->" :: L "\x7b" :: wordToks ty ++ L "," :: L "," :: rest := by
  intro h
  obtain ⟨b, f2, h2⟩ := file_block_single f tx .shift _ h
  cases b with
  | none => simp [wordToks] at h2
  | some body =>
    obtain ⟨first, more, trail, htrail, -, hy⟩ := blockBody_yield_form body
    simp only [BlockBody.yieldOpt, hy, List.append_assoc, wordToks, List.cons_append,
      List.nil_append] at h2
    have h3 := blockElement_single first ty _ _ _ (by decide) comma_ne_relOp h2
    obtain ⟨-, h4⟩ := yieldRest_comma_stop more _ _ _ (by decide) h3
    rcases htrail with rfl | rfl <;> simp at h4

/-- No file derives tokens that begin `[`, one token, `]`, `->`, opening brace, `[`, one
token, `]`, `[`. -/
theorem file_not_block_no_comma (f : File) (tx ty : Tok) (rest : List Tok) :
    File.yield f ≠ wordToks tx ++ L "->" :: L "\x7b" :: wordToks ty ++ L "[" :: rest := by
  intro h
  obtain ⟨b, f2, h2⟩ := file_block_single f tx .shift _ h
  cases b with
  | none => simp [wordToks] at h2
  | some body =>
    obtain ⟨first, more, trail, htrail, -, hy⟩ := blockBody_yield_form body
    simp only [BlockBody.yieldOpt, hy, List.append_assoc, wordToks, List.cons_append,
      List.nil_append] at h2
    have h3 := blockElement_single first ty _ (L "[") _ (by decide)
      (fun k => by cases k <;> decide) h2
    obtain ⟨-, h4⟩ := yieldRest_stop more _ _ _ (by decide) h3
    rcases htrail with rfl | rfl <;> simp at h4

theorem not_matchPat (pat : List (Option Tok)) (f : File)
    (h : matchPat pat (File.yield f) = true → False) : matchPat pat (File.yield f) = false := by
  rw [Bool.eq_false_iff]
  exact h

/-- The only file that derives `[`, `a`, `]`, `::`, `[`, `b`, `]`, `;`. -/
theorem shapePure_unique (a b : String) (f : File)
    (h : File.yield f = wordToks (Tok.identifier a) ++ L "::" :: wordToks (Tok.identifier b) ++
      [L ";"]) : f = shapePureFile a b := by
  cases f with
  | nil => simp [wordToks] at h
  | cons s rest =>
    cases s with
    | function_block fb =>
      simp only [File.yield, Statement.yield, List.append_assoc, wordToks, List.cons_append,
        List.nil_append] at h
      rcases functionBlock_inv_ident fb a .shape _ _ h with ⟨right, rfl, h2⟩ | ⟨bb, -, h2⟩
      · obtain ⟨rfl, h3⟩ := expression_inv_stdIdent right b _ _ _ (by decide) h2
        simp only [List.singleton_append, List.cons.injEq, true_and] at h3
        rw [file_yield_eq_nil rest h3]
        rfl
      · simp at h2
    | dash_comment w => simp [wordToks] at h
    | empty => simp [wordToks] at h

/-- The only file that derives the tokens of `[x]->{ [y], [z], };`. -/
theorem shiftBlock_unique (x y z : String) (f : File)
    (h : File.yield f = shiftBlockToks (Tok.identifier x) (Tok.identifier y) (Tok.identifier z)) :
    f = shiftBlockFile x y z := by
  simp only [shiftBlockToks, wordToks, List.cons_append, List.nil_append, List.append_assoc] at h
  obtain ⟨b, f2, rfl, h2⟩ := file_block_inv f x .shift _ h
  cases b with
  | none => simp at h2
  | some body =>
    simp only [BlockBody.yieldOpt] at h2
    cases body with
    | commaSep1 first more =>
      exfalso
      simp only [BlockBody.yield, List.append_assoc] at h2
      obtain ⟨-, h3⟩ := blockElement_inv_ident first y _ _ _ (by decide) comma_ne_relOp h2
      obtain ⟨es2, -, h4⟩ := yieldRest_inv_ident more z _ _ _ (by decide)
        comma_ne_relOp (by simp) h3
      obtain ⟨-, h5⟩ := yieldRest_comma_stop es2 _ _ _ (by decide) h4
      simp at h5
    | trailingCommaSep1 first more tr =>
      simp only [BlockBody.yield, List.append_assoc] at h2
      obtain ⟨rfl, h3⟩ := blockElement_inv_ident first y _ _ _ (by decide) comma_ne_relOp h2
      obtain ⟨es2, rfl, h4⟩ := yieldRest_inv_ident more z _ _ _ (by decide)
        comma_ne_relOp (by cases tr <;> simp) h3
      obtain ⟨rfl, h5⟩ := yieldRest_comma_stop es2 _ _ _ (by decide) h4
      cases tr with
      | false => simp at h5
      | true =>
        simp at h5
        rw [file_yield_eq_nil f2 h5]
        rfl

/-- A unicode-string token in one of the three words of `[x]->{ [y], [z], };` leaves no
file that derives the tokens. -/
theorem shiftBlock_no_unicode (x y z : String) (f : File) (tx ty tz : Tok)
    (hx : tx = Tok.identifier x ∨ stemStart tx = false)
    (hy : ty = Tok.identifier y ∨ stemStart ty = false)
    (hz : tz = Tok.identifier z ∨ stemStart tz = false)
    (h : File.yield f = shiftBlockToks tx ty tz) :
    tx = Tok.identifier x ∧ ty = Tok.identifier y ∧ tz = Tok.identifier z := by
  simp only [shiftBlockToks, wordToks, List.cons_append, List.nil_append, List.append_assoc] at h
  rcases hx with rfl | hx
  swap
  · exact absurd (file_open_stem f _ _ h) (by rw [hx]; decide)
  obtain ⟨b, f2, -, h2⟩ := file_block_inv f x .shift _ h
  cases b with
  | none => simp at h2
  | some body =>
    obtain ⟨first, more, trail, htrail, -, hb⟩ := blockBody_yield_form body
    simp only [BlockBody.yieldOpt, hb, List.append_assoc] at h2
    rcases hy with rfl | hy
    swap
    · exact absurd (blockElement_open_stem first _ _ _ h2) (by rw [hy]; decide)
    obtain ⟨-, h3⟩ := blockElement_inv_ident first y _ _ _ (by decide) comma_ne_relOp h2
    rcases hz with rfl | hz
    · exact ⟨rfl, rfl, rfl⟩
    · exfalso
      cases more with
      | nil => rcases htrail with rfl | rfl <;> simp at h3
      | cons e2 more2 =>
        simp only [BlockElement.yieldRest, List.cons_append, List.append_assoc, List.cons.injEq,
          true_and] at h3
        exact absurd (blockElement_open_stem e2 _ _ _ h3) (by rw [hz]; decide)

/-- A property of every file that derives one of the candidate token lists holds of every
parse of a text whose scans derive only candidates. -/
theorem parses_property_of_scans (s : List Char) (hq : '"' ∉ s) (cands : List (List Tok))
    (hall : ∀ ts ∈ allScans s.length s, significant ts ∈ cands) (Q : File → Prop)
    (hc : ∀ f : File, File.yield f ∈ cands → Q f) (f : File) (h : Parses s f) : Q f := by
  obtain ⟨ts, hmem, hsig⟩ := parses_scans s hq f h
  exact hc f (hsig ▸ hall ts hmem)

theorem gacStem_yieldList_stop (rest : List GacStem) (r x : List Tok)
    (h : GacStem.yieldList rest ++ L "]" :: r = L "]" :: x) : rest = [] ∧ r = x := by
  cases rest with
  | nil => exact ⟨rfl, by simpa using h⟩
  | cons s rest =>
    simp only [GacStem.yieldList, List.append_assoc] at h
    exact absurd h (gacStem_yield_ne_close s _ _)

/-- Stems that go on with `-`: the next stem is a suffix, so an identifier follows. -/
theorem gacStem_yieldList_minus (rest : List GacStem) (t : Tok) (r x : List Tok)
    (h : GacStem.yieldList rest ++ L "]" :: r = L "-" :: t :: L "]" :: x) :
    ∃ b, t = Tok.identifier b ∧ rest = [.gac_suffix (.minus b)] ∧ r = x := by
  cases rest with
  | nil => simp at h
  | cons s rest =>
    cases s with
    | fycoide f => simp at h
    | pointer_ref p => simp at h
    | operator o => cases o <;> simp at h
    | identifier w => simp at h
    | gac_prefix p => cases p <;> simp at h
    | gac_suffix p =>
      cases p with
      | minus w =>
        simp only [GacStem.yieldList, GacStem.yield, GacSuffix.yield, List.cons_append,
          List.nil_append, List.cons.injEq, true_and] at h
        obtain ⟨rfl, h2⟩ := h
        obtain ⟨rfl, rfl⟩ := gacStem_yieldList_stop rest _ _ h2
        exact ⟨w, rfl, rfl, rfl⟩
      | plus w => simp at h
    | gac_synonym p => simp at h
    | gac_nested c => simp at h

/-- A gac string that begins identifier `a`, `=`: the token after `=` begins a stem or
closes the word, and when the string goes on `-`, `t`, `]` it is one of the two readings
of `a=-b`. -/
theorem gacString_conflict_inv (g : GacString) (a : String) (t1 : Tok) (y r : List Tok)
    (h : g.yield ++ L "]" :: r = Tok.identifier a :: L "=" :: t1 :: y) :
    (stemStart t1 = true ∨ t1 = L "]") ∧
    ∀ t2 x, t1 = L "-" → y = t2 :: L "]" :: x →
      ∃ b, t2 = Tok.identifier b ∧ (g = prefixReading a b ∨ g = operatorReading a b) ∧
        r = x := by
  obtain ⟨first, rest⟩ := g
  have hrest : ∀ rest : List GacStem,
      GacStem.yieldList rest ++ L "]" :: r = t1 :: y → stemStart t1 = true ∨ t1 = L "]" := by
    intro rest h
    cases rest with
    | nil => simp at h; exact Or.inr h.1.symm
    | cons s rest =>
      obtain ⟨t, z, hz, hst⟩ := gacStem_yield_head s
      simp only [GacStem.yieldList, hz, List.cons_append, List.append_assoc,
        List.cons.injEq] at h
      rw [← h.1]
      exact Or.inl hst
  cases first with
  | fycoide f => simp at h
  | pointer_ref p => simp at h
  | operator o => cases o <;> simp at h
  | identifier w =>
    simp only [GacString.yield, GacStem.yield, List.cons_append, List.nil_append,
      List.cons.injEq, Tok.identifier.injEq] at h
    obtain ⟨rfl, h2⟩ := h
    cases rest with
    | nil => simp at h2
    | cons s rest =>
      cases s with
      | fycoide f => simp at h2
      | pointer_ref p => simp at h2
      | operator o =>
        cases o <;> simp at h2
        refine ⟨hrest rest h2, ?_⟩
        rintro t2 x rfl rfl
        obtain ⟨b, rfl, rfl, rfl⟩ := gacStem_yieldList_minus rest _ _ _ h2
        exact ⟨b, rfl, Or.inr rfl, rfl⟩
      | identifier w => simp at h2
      | gac_prefix p => cases p <;> simp at h2
      | gac_suffix p => cases p <;> simp at h2
      | gac_synonym p => simp at h2
      | gac_nested c => simp at h2
  | gac_prefix p =>
    cases p with
    | eq w =>
      simp only [GacString.yield, GacStem.yield, GacPrefix.yield, List.cons_append,
        List.nil_append, List.cons.injEq, Tok.identifier.injEq, true_and] at h
      obtain ⟨rfl, h2⟩ := h
      refine ⟨hrest rest h2, ?_⟩
      rintro t2 x rfl rfl
      obtain ⟨b, rfl, rfl, rfl⟩ := gacStem_yieldList_minus rest _ _ _ h2
      exact ⟨b, rfl, Or.inl rfl, rfl⟩
    | lt_bar w => simp at h
  | gac_suffix p => cases p <;> simp at h
  | gac_synonym p => simp at h
  | gac_nested c => simp at h

/-- The files that derive `[`, `a`, `=`, then tokens `m`, `]`, `::`, `[`, `tc`, `]`, `;`
when `m` is `-` and one token, or one or two tokens of which the first begins no stem:
`m` is `-`, identifier `b`, the token `tc` is an identifier `c`, and the file is
`[g]::[c]` for one of the two readings `g` of `a=-b`. -/
theorem conflict_file_inv (f : File) (a : String) (t1 : Tok) (m2 : List Tok) (tc : Tok)
    (hm : (t1 = L "-" ∧ ∃ t2, m2 = [t2]) ∨ (stemStart t1 = false ∧ t1 ≠ L "]"))
    (htc : (∃ c, tc = Tok.identifier c) ∨ stemStart tc = false)
    (h : File.yield f = conflictToks (Tok.identifier a) (t1 :: m2) tc) :
    ∃ b c, t1 = L "-" ∧ m2 = [Tok.identifier b] ∧ tc = Tok.identifier c ∧
      (f = conflictFile (prefixReading a b) c ∨ f = conflictFile (operatorReading a b) c) := by
  simp only [conflictToks, wordToks, List.cons_append, List.nil_append, List.append_assoc] at h
  cases f with
  | nil => simp at h
  | cons s rest =>
    cases s with
    | function_block fb =>
      simp only [File.yield, Statement.yield, List.append_assoc] at h
      rcases functionBlock_forms fb with ⟨i, rfl⟩ | ⟨k, l, rr, rfl⟩ | ⟨k, l, b, rfl⟩
      · simp at h
      · rw [pureRel_yield, List.append_assoc] at h
        cases l with
        | datatype d => cases d with
          | type_desc d => simp at h
          | type_word w => cases w with
            | proto_gac_word w => simp at h
            | std_gac_word w =>
              obtain ⟨g, p⟩ := w
              simp only [Expression.yield, Datatype.yield, TypeWord.yield, StdGacWord.yield,
                List.cons_append, List.append_assoc, List.cons.injEq, true_and] at h
              obtain ⟨h1, h2⟩ := gacString_conflict_inv g a t1 _ _ h
              rcases hm with ⟨rfl, t2, rfl⟩ | ⟨hns, hnc⟩
              swap
              · rcases h1 with h1 | h1
                · rw [hns] at h1; exact absurd h1 (by decide)
                · exact absurd h1 hnc
              obtain ⟨b, rfl, hg, hr⟩ := h2 t2 _ rfl rfl
              cases p with
              | some p => simp at hr
              | none =>
                simp only [Pointer.yieldOpt, List.nil_append, List.cons_append,
                  List.cons.injEq] at hr
                obtain ⟨hk, hr2⟩ := hr
                obtain rfl := relKind_op_inj .shape k hk
                rcases htc with ⟨c, rfl⟩ | htc
                swap
                · exact absurd (expression_open_stem rr _ _ _ hr2) (by rw [htc]; decide)
                obtain ⟨rfl, h3⟩ := expression_inv_stdIdent rr c _ _ _ (by decide) hr2
                simp only [List.singleton_append, List.cons.injEq, true_and] at h3
                rw [file_yield_eq_nil rest h3]
                refine ⟨b, c, rfl, rfl, rfl, ?_⟩
                rcases hg with rfl | rfl
                · exact Or.inl rfl
                · exact Or.inr rfl
        | fycoide f => simp at h
        | pointer_ref p => simp at h
      · exfalso
        simp only [blockRel_yield, List.append_assoc, List.cons_append] at h
        cases l with
        | datatype d => cases d with
          | type_desc d => simp at h
          | type_word w => cases w with
            | proto_gac_word w => simp at h
            | std_gac_word w =>
              obtain ⟨g, p⟩ := w
              simp only [Expression.yield, Datatype.yield, TypeWord.yield, StdGacWord.yield,
                List.cons_append, List.append_assoc, List.cons.injEq, true_and] at h
              obtain ⟨h1, h2⟩ := gacString_conflict_inv g a t1 _ _ h
              rcases hm with ⟨rfl, t2, rfl⟩ | ⟨hns, hnc⟩
              swap
              · rcases h1 with h1 | h1
                · rw [hns] at h1; exact absurd h1 (by decide)
                · exact absurd h1 hnc
              obtain ⟨b, rfl, hg, hr⟩ := h2 t2 _ rfl rfl
              cases p with
              | some p => simp at hr
              | none => simp at hr
        | fycoide f => simp at h
        | pointer_ref p => simp at h
    | dash_comment w => simp at h
    | empty => simp at h

/-! ## Character classes and the quote comment -/

theorem star_cls_match (neg : Bool) (sets : List CharSet) (s t : List Char) :
    (RE.star (.cls neg sets)).Match s t ↔
      ∃ w, s = w ++ t ∧ ∀ ch ∈ w, inClass neg sets ch = true := by
  constructor
  · intro h
    induction h using Relation.ReflTransGen.head_induction_on with
    | refl => exact ⟨[], rfl, by simp⟩
    | head hxy _ ih =>
      obtain ⟨c, rfl, hc⟩ := hxy
      obtain ⟨w, rfl, hw⟩ := ih
      refine ⟨c :: w, rfl, ?_⟩
      intro ch hch
      rcases List.mem_cons.1 hch with rfl | h2
      · exact hc
      · exact hw ch h2
  · rintro ⟨w, rfl, hw⟩
    induction w with
    | nil => exact Relation.ReflTransGen.refl
    | cons c w ih =>
      refine Relation.ReflTransGen.head ⟨c, rfl, hw c (List.mem_cons_self _ _)⟩ (ih ?_)
      intro ch hch
      exact hw ch (List.mem_cons_of_mem _ hch)

theorem plus_cls_match (neg : Bool) (sets : List CharSet) (s t : List Char) :
    (RE.plus (.cls neg sets)).Match s t ↔
      ∃ c w, s = c :: (w ++ t) ∧ inClass neg sets c = true ∧
        ∀ ch ∈ w, inClass neg sets ch = true := by
  constructor
  · rintro ⟨m, ⟨c, rfl, hc⟩, hm⟩
    obtain ⟨w, rfl, hw⟩ := (star_cls_match neg sets _ _).1 hm
    exact ⟨c, w, rfl, hc, hw⟩
  · rintro ⟨c, w, rfl, hc, hw⟩
    exact ⟨w ++ t, ⟨c, rfl, hc⟩, (star_cls_match neg sets _ _).2 ⟨w, rfl, hw⟩⟩

theorem identifier_match (s t : List Char) :
    identifier.Match s t ↔
      ∃ c w, s = c :: (w ++ t) ∧
        inClass false [.range 'a' 'z', .range 'A' 'Z', .one '_'] c = true ∧
        ∀ ch ∈ w, inClass false [.range 'a' 'z', .range 'A' 'Z', .range '0' '9', .one '_',
          .one '-'] ch = true := by
  constructor
  · rintro ⟨m, ⟨c, rfl, hc⟩, hm⟩
    obtain ⟨w, rfl, hw⟩ := (star_cls_match _ _ _ _).1 hm
    exact ⟨c, w, rfl, hc, hw⟩
  · rintro ⟨c, w, rfl, hc, hw⟩
    exact ⟨w ++ t, ⟨c, rfl, hc⟩, (star_cls_match _ _ _ _).2 ⟨w, rfl, hw⟩⟩

theorem quotedContent_iff (w : List Char) : quotedContent.matches w = true ↔ '"' ∉ w := by
  rw [RE.matches_iff]
  unfold quotedContent
  rw [star_cls_match]
  constructor
  · rintro ⟨v, hv, h⟩ hq
    simp only [List.append_nil] at hv
    subst hv
    have := h _ hq
    revert this
    decide
  · intro hq
    refine ⟨w, by simp, ?_⟩
    intro ch hch
    have : ch ≠ '"' := fun e => hq (e ▸ hch)
    simpa [inClass, CharSet.mem] using this

theorem escapedBody_plain (c : Char) (r : List Char) (h : c ≠ '\\') :
    escapedBody (c :: r) = (c != '"' && escapedBody r) := by
  cases r with
  | nil => simp [escapedBody, h]
  | cons d r => simp [escapedBody, h]

theorem escapedBody_escape (d : Char) (r : List Char) :
    escapedBody ('\\' :: d :: r) = (inClass true [.one '\n', .one '\r',
      .one (Char.ofNat 0x2028), .one (Char.ofNat 0x2029)] d && escapedBody r) := by
  simp [escapedBody]

theorem escapedBody_backslash : escapedBody ['\\'] = false := by decide

/-- One round of the body of `quote_comment`: a character that is neither a double quote
nor a backslash, or a backslash and the character it escapes. -/
theorem quoteItem_match (x y : List Char) :
    (RE.alt (.cls true [.one '"', .one '\\']) (.seq (RE.chr '\\') anyChar)).Match x y ↔
      (∃ c, x = c :: y ∧ c ≠ '"' ∧ c ≠ '\\') ∨
      (∃ d, x = '\\' :: d :: y ∧ inClass true [.one '\n', .one '\r',
        .one (Char.ofNat 0x2028), .one (Char.ofNat 0x2029)] d = true) := by
  constructor
  · rintro (⟨c, rfl, hc⟩ | ⟨m, hm, d, rfl, hd⟩)
    · left
      refine ⟨c, rfl, ?_⟩
      simpa [CharSet.mem] using hc
    · right
      rw [chr_match] at hm
      exact ⟨d, hm, hd⟩
  · rintro (⟨c, rfl, h1, h2⟩ | ⟨d, rfl, hd⟩)
    · left
      refine ⟨c, rfl, ?_⟩
      simpa [CharSet.mem] using ⟨h1, h2⟩
    · right
      exact ⟨d :: y, (chr_match _ _ _).2 rfl, d, rfl, hd⟩

theorem escapedBody_split : ∀ (n : Nat) (p q : List Char), p.length ≤ n →
    escapedBody (p ++ '"' :: q) = true →
    ∃ p2, p = p2 ++ ['\\'] ∧ escapedBody p2 = true ∧ escapedBody q = true := by
  intro n
  induction n with
  | zero =>
    intro p q hp h
    have hp2 : p = [] := List.length_eq_zero.1 (Nat.le_zero.1 hp)
    subst hp2
    rw [List.nil_append, escapedBody_plain _ _ (by decide)] at h
    simp at h
  | succ n ih =>
    intro p q hp h
    match p, hp, h with
    | [], _, h =>
      rw [List.nil_append, escapedBody_plain _ _ (by decide)] at h
      simp at h
    | [c], _, h =>
      by_cases hc : c = '\\'
      · subst hc
        rw [List.singleton_append, escapedBody_escape] at h
        simp only [Bool.and_eq_true] at h
        exact ⟨[], rfl, rfl, h.2⟩
      · rw [List.singleton_append, escapedBody_plain _ _ hc,
          escapedBody_plain _ _ (by decide)] at h
        simp at h
    | c :: d :: p2, hp, h =>
      by_cases hc : c = '\\'
      · subst hc
        rw [List.cons_append, List.cons_append, escapedBody_escape] at h
        simp only [Bool.and_eq_true] at h
        obtain ⟨p3, rfl, h3, h4⟩ := ih p2 q (by simp at hp; omega) h.2
        refine ⟨'\\' :: d :: p3, rfl, ?_, h4⟩
        rw [escapedBody_escape, h.1, h3]
        rfl
      · rw [List.cons_append, escapedBody_plain _ _ hc] at h
        simp only [Bool.and_eq_true] at h
        obtain ⟨p3, h5, h3, h4⟩ := ih (d :: p2) q (by simp at hp ⊢; omega) h.2
        refine ⟨c :: p3, by rw [h5]; rfl, ?_, h4⟩
        rw [escapedBody_plain _ _ hc, h.1, h3]
        rfl

theorem quoteBody_match (s t : List Char) :
    (RE.star (RE.alt (.cls true [.one '"', .one '\\']) (.seq (RE.chr '\\') anyChar))).Match s t ↔
      ∃ body, s = body ++ t ∧ escapedBody body = true := by
  constructor
  · intro h
    induction h using Relation.ReflTransGen.head_induction_on with
    | refl => exact ⟨[], rfl, rfl⟩
    | head hxy _ ih =>
      obtain ⟨body, rfl, hb⟩ := ih
      rcases (quoteItem_match _ _).1 hxy with ⟨c, rfl, h1, h2⟩ | ⟨d, rfl, hd⟩
      · refine ⟨c :: body, rfl, ?_⟩
        rw [escapedBody_plain _ _ h2, hb]
        simpa using h1
      · refine ⟨'\\' :: d :: body, rfl, ?_⟩
        rw [escapedBody_escape, hd, hb]
        rfl
  · rintro ⟨body, rfl, hb⟩
    suffices hs : ∀ (n : Nat) (b : List Char), b.length ≤ n → escapedBody b = true →
        (RE.star (RE.alt (.cls true [.one '"', .one '\\'])
          (.seq (RE.chr '\\') anyChar))).Match (b ++ t) t from hs _ body (le_refl _) hb
    intro n
    induction n with
    | zero =>
      intro b hn _
      have hb2 : b = [] := List.length_eq_zero.1 (Nat.le_zero.1 hn)
      subst hb2
      exact Relation.ReflTransGen.refl
    | succ n ih =>
      intro b hn hb
      match b, hn, hb with
      | [], _, _ => exact Relation.ReflTransGen.refl
      | [c], _, hb =>
        have hc : c ≠ '\\' := by
          rintro rfl
          rw [escapedBody_backslash] at hb
          exact Bool.noConfusion hb
        rw [escapedBody_plain _ _ hc] at hb
        simp only [Bool.and_eq_true, bne_iff_ne, ne_eq] at hb
        exact Relation.ReflTransGen.head ((quoteItem_match _ _).2 (Or.inl ⟨c, rfl, hb.1, hc⟩))
          Relation.ReflTransGen.refl
      | c :: d :: r, hn, hb =>
        by_cases hc : c = '\\'
        · subst hc
          rw [escapedBody_escape] at hb
          simp only [Bool.and_eq_true] at hb
          exact Relation.ReflTransGen.head
            ((quoteItem_match _ _).2 (Or.inr ⟨d, rfl, hb.1⟩))
            (ih r (by simp at hn; omega) hb.2)
        · rw [escapedBody_plain _ _ hc] at hb
          simp only [Bool.and_eq_true, bne_iff_ne, ne_eq] at hb
          exact Relation.ReflTransGen.head
            ((quoteItem_match _ _).2 (Or.inl ⟨c, rfl, hb.1, hc⟩))
            (ih (d :: r) (by simp at hn ⊢; omega) hb.2)

/-- The matches of `quote_comment`: a double quote, an escaped body, a double quote. -/
theorem quote_comment_match_iff (s t : List Char) :
    quote_comment.Match s t ↔
      ∃ body, s = '"' :: (body ++ '"' :: t) ∧ escapedBody body = true := by
  constructor
  · rintro ⟨m, hm, m2, h2, h3⟩
    rw [chr_match] at hm h3
    obtain ⟨body, rfl, hb⟩ := (quoteBody_match _ _).1 h2
    subst h3
    exact ⟨body, hm, hb⟩
  · rintro ⟨body, rfl, hb⟩
    exact ⟨body ++ '"' :: t, (chr_match _ _ _).2 rfl, '"' :: t,
      (quoteBody_match _ _).2 ⟨body, rfl, hb⟩, (chr_match _ _ _).2 rfl⟩

theorem unicode_string_match (s t : List Char) :
    unicode_string.Match s t ↔
      ∃ c w, s = c :: (w ++ t) ∧
        inClass false [.range 'a' 'z', .range 'A' 'Z', .range '0' '9', .one '_', .one '-',
          .one '.', .range (Char.ofNat 0x4e00) (Char.ofNat 0x9fa5)] c = true ∧
        ∀ ch ∈ w, inClass false [.range 'a' 'z', .range 'A' 'Z', .range '0' '9', .one '_',
          .one '-', .one '.', .range (Char.ofNat 0x4e00) (Char.ofNat 0x9fa5)] ch = true :=
  plus_cls_match _ _ _ _

theorem identifier_no_apostrophe (w : List Char) (h : identifier.matches w = true) :
    '\'' ∉ w := by
  rw [RE.matches_iff, identifier_match] at h
  obtain ⟨c, v, rfl, hc, hv⟩ := h
  intro hm
  simp only [List.append_nil, List.mem_cons] at hm
  rcases hm with rfl | hm
  · revert hc
    decide
  · have := hv _ hm
    revert this
    decide

theorem unicode_string_no_apostrophe (w : List Char) (h : unicode_string.matches w = true) :
    '\'' ∉ w := by
  rw [RE.matches_iff, unicode_string_match] at h
  obtain ⟨c, v, rfl, hc, hv⟩ := h
  intro hm
  simp only [List.append_nil, List.mem_cons] at hm
  rcases hm with rfl | hm
  · revert hc
    decide
  · have := hv _ hm
    revert this
    decide

/-! ## Brackets balance: where an expression ends -/

theorem closeRest_skip (d : Nat) (t : Tok) (ts : List Tok) (h1 : t ≠ L "[") (h2 : t ≠ L "]") :
    closeRest d (t :: ts) = closeRest d ts := by
  simp [closeRest, h1, h2]

theorem closeRest_open (d : Nat) (ts : List Tok) :
    closeRest d (L "[" :: ts) = closeRest (d + 1) ts := by
  simp [closeRest]

theorem closeRest_close (d : Nat) (ts : List Tok) :
    closeRest (d + 1) (L "]" :: ts) = closeRest d ts := by
  simp [closeRest]

theorem closeRest_close_zero (ts : List Tok) : closeRest 0 (L "]" :: ts) = some ts := by
  simp [closeRest]

theorem stringNode_balanced (n : StringNode) (d : Nat) (r : List Tok) :
    closeRest d (n.yield ++ r) = closeRest d r := by
  cases n <;> simp [StringNode.yield, closeRest]

theorem number_balanced (n : Number) (d : Nat) (r : List Tok) :
    closeRest d (n.yield ++ r) = closeRest d r := by
  cases n <;> simp [Number.yield, closeRest]

theorem operator_balanced (o : Operator) (d : Nat) (r : List Tok) :
    closeRest d (o.yield ++ r) = closeRest d r := by
  cases o <;> simp [Operator.yield, closeRest]

theorem pointerItem_balanced (p : PointerItem) (d : Nat) (r : List Tok) :
    closeRest d (p.yield ++ r) = closeRest d r := by
  cases p with
  | number n => exact number_balanced n d r
  | operator o => exact operator_balanced o d r
  | arithmetic_op a => cases a <;> simp [PointerItem.yield, ArithmeticOp.yield, closeRest]

theorem pointerItems_balanced (l : List PointerItem) (d : Nat) (r : List Tok) :
    closeRest d (l.flatMap PointerItem.yield ++ r) = closeRest d r := by
  induction l with
  | nil => rfl
  | cons p l ih =>
    rw [List.flatMap_cons, List.append_assoc, pointerItem_balanced, ih]

theorem pointerId_balanced (p : PointerId) (d : Nat) (r : List Tok) :
    closeRest d (p.yield ++ r) = closeRest d r := by
  cases p with
  | number n => exact number_balanced n d r
  | pointer_expression e =>
    obtain ⟨first, rest⟩ := e
    simp only [PointerId.yield, PointerExpression.yield, List.cons_append, List.append_assoc,
      closeRest_open, pointerItem_balanced, pointerItems_balanced, List.nil_append,
      closeRest_close]

theorem fycoide_balanced (f : Fycoide) (d : Nat) (r : List Tok) :
    closeRest d (f.yield ++ r) = closeRest d r := by
  obtain ⟨n⟩ := f
  simp only [Fycoide.yield, List.cons_append, List.append_assoc, List.nil_append]
  rw [closeRest_skip _ _ _ (by decide) (by decide), stringNode_balanced,
    closeRest_skip _ _ _ (by decide) (by decide)]

theorem pointerRef_balanced (p : PointerRef) (d : Nat) (r : List Tok) :
    closeRest d (p.yield ++ r) = closeRest d r := by
  simp only [PointerRef.yield, List.cons_append]
  rw [closeRest_skip _ _ _ (by decide) (by decide), pointerId_balanced]

mutual
theorem gacStem_balanced : ∀ (s : GacStem) (d : Nat) (r : List Tok),
    closeRest d (s.yield ++ r) = closeRest d r
  | .fycoide f, d, r => fycoide_balanced f d r
  | .pointer_ref p, d, r => pointerRef_balanced p d r
  | .operator o, d, r => operator_balanced o d r
  | .identifier v, d, r => by simp [closeRest]
  | GacStem.gac_prefix p, d, r => by cases p <;> simp [closeRest]
  | .gac_suffix p, d, r => by cases p <;> simp [closeRest]
  | .gac_synonym p, d, r => by simp [closeRest]
  | .gac_nested c, d, r => by
    simp only [GacStem.yield, List.cons_append, List.append_assoc, List.nil_append,
      closeRest_open]
    rw [gacString_balanced c (d + 1) _, closeRest_close]
theorem gacString_balanced : ∀ (g : GacString) (d : Nat) (r : List Tok),
    closeRest d (g.yield ++ r) = closeRest d r
  | .mk first rest, d, r => by
    simp only [GacString.yield, List.append_assoc]
    rw [gacStem_balanced first d _, gacStemList_balanced rest d r]
theorem gacStemList_balanced : ∀ (l : List GacStem) (d : Nat) (r : List Tok),
    closeRest d (GacStem.yieldList l ++ r) = closeRest d r
  | [], d, r => rfl
  | s :: rest, d, r => by
    simp only [GacStem.yieldList, List.append_assoc]
    rw [gacStem_balanced s d _, gacStemList_balanced rest d r]
end

/-- A gac string ends where its bracket closes. -/
theorem gacString_delimit (g1 g2 : GacString) (r1 r2 : List Tok)
    (h : g1.yield ++ L "]" :: r1 = g2.yield ++ L "]" :: r2) :
    g1.yield = g2.yield ∧ r1 = r2 := by
  have h2 := congrArg (closeRest 0) h
  rw [gacString_balanced, gacString_balanced, closeRest_close_zero, closeRest_close_zero] at h2
  have h3 : r1 = r2 := Option.some.inj h2
  subst h3
  exact ⟨List.append_cancel_right h, rfl⟩

theorem pointerId_delimit (p1 p2 : PointerId) (x1 x2 : List Tok)
    (h : p1.yield ++ x1 = p2.yield ++ x2) : p1.yield = p2.yield ∧ x1 = x2 := by
  have hnum : ∀ n : Number, ∃ t, n.yield = [t] ∧ t ≠ L "[" := by
    intro n
    cases n with
    | integer w => exact ⟨_, rfl, by simp⟩
    | float w => exact ⟨_, rfl, by simp⟩
  cases p1 with
  | number n1 =>
    obtain ⟨t1, e1, ht1⟩ := hnum n1
    cases p2 with
    | number n2 =>
      obtain ⟨t2, e2, -⟩ := hnum n2
      simp only [PointerId.yield, e1, e2, List.singleton_append, List.cons.injEq] at h ⊢
      exact ⟨⟨h.1, trivial⟩, h.2⟩
    | pointer_expression e =>
      simp only [PointerId.yield, e1, PointerExpression.yield, List.singleton_append,
        List.cons_append, List.cons.injEq] at h
      exact absurd h.1 ht1
  | pointer_expression e1 =>
    cases p2 with
    | number n2 =>
      obtain ⟨t2, e2, ht2⟩ := hnum n2
      simp only [PointerId.yield, e2, PointerExpression.yield, List.singleton_append,
        List.cons_append, List.cons.injEq] at h
      exact absurd h.1.symm ht2
    | pointer_expression e2 =>
      have h0 := h
      simp only [PointerId.yield, PointerExpression.yield, List.cons_append, List.append_assoc,
        List.nil_append, List.cons.injEq, true_and] at h
      have h2 := congrArg (closeRest 0) h
      simp only [pointerItem_balanced, pointerItems_balanced, closeRest_close_zero,
        Option.some.injEq] at h2
      subst h2
      exact ⟨List.append_cancel_right h0, rfl⟩

theorem pointerOpt_delimit (p1 p2 : Option Pointer) (t1 t2 : Tok) (x1 x2 : List Tok)
    (ht1 : t1 ≠ L "@") (ht2 : t2 ≠ L "@")
    (h : Pointer.yieldOpt p1 ++ t1 :: x1 = Pointer.yieldOpt p2 ++ t2 :: x2) :
    Pointer.yieldOpt p1 = Pointer.yieldOpt p2 ∧ t1 :: x1 = t2 :: x2 := by
  cases p1 with
  | none =>
    cases p2 with
    | none => exact ⟨rfl, h⟩
    | some q2 =>
      simp only [Pointer.yieldOpt, Pointer.yield, List.nil_append, List.cons_append,
        List.cons.injEq] at h
      exact absurd h.1 ht1
  | some q1 =>
    cases p2 with
    | none =>
      simp only [Pointer.yieldOpt, Pointer.yield, List.nil_append, List.cons_append,
        List.cons.injEq] at h
      exact absurd h.1.symm ht2
    | some q2 =>
      simp only [Pointer.yieldOpt, Pointer.yield, List.cons_append, List.cons.injEq,
        true_and] at h ⊢
      obtain ⟨h1, h2⟩ := pointerId_delimit _ _ _ _ h
      exact ⟨h1, List.cons.inj h2⟩

/-- An expression ends where it is followed by a token other than `@`: two expressions
that begin at the same place of a token sequence and are each followed by such a token
end at the same place. -/
theorem expression_delimit (e1 e2 : Expression) (t1 t2 : Tok) (x1 x2 : List Tok)
    (ht1 : t1 ≠ L "@") (ht2 : t2 ≠ L "@")
    (h : e1.yield ++ t1 :: x1 = e2.yield ++ t2 :: x2) :
    e1.yield = e2.yield ∧ t1 :: x1 = t2 :: x2 := by
  have hstr : ∀ n : StringNode, ∃ t, n.yield = [t] := by
    intro n
    cases n <;> exact ⟨_, rfl⟩
  have hfixed : ∀ (a b : Tok) (n1 n2 : StringNode),
      a :: n1.yield ++ [b] ++ t1 :: x1 = a :: n2.yield ++ [b] ++ t2 :: x2 →
      a :: n1.yield ++ [b] = a :: n2.yield ++ [b] ∧ t1 :: x1 = t2 :: x2 := by
    intro a b n1 n2 h
    obtain ⟨s1, e1⟩ := hstr n1
    obtain ⟨s2, e2⟩ := hstr n2
    simp only [e1, e2, List.cons_append, List.singleton_append, List.nil_append,
      List.cons.injEq, true_and] at h ⊢
    exact ⟨⟨h.1, trivial⟩, h.2.1, h.2.2⟩
  have hword : ∀ (a : Tok) (g1 g2 : GacString) (p1 p2 : Option Pointer),
      a :: g1.yield ++ L "]" :: Pointer.yieldOpt p1 ++ t1 :: x1 =
        a :: g2.yield ++ L "]" :: Pointer.yieldOpt p2 ++ t2 :: x2 →
      a :: g1.yield ++ L "]" :: Pointer.yieldOpt p1 =
        a :: g2.yield ++ L "]" :: Pointer.yieldOpt p2 ∧ t1 :: x1 = t2 :: x2 := by
    intro a g1 g2 p1 p2 h
    simp only [List.cons_append, List.append_assoc, List.cons.injEq, true_and] at h ⊢
    obtain ⟨hg, hr⟩ := gacString_delimit g1 g2 _ _ h
    obtain ⟨hp, hx⟩ := pointerOpt_delimit p1 p2 t1 t2 x1 x2 ht1 ht2 hr
    rw [hg, hp]
    exact ⟨rfl, List.cons.inj hx⟩
  cases e1 with
  | datatype d1 =>
    cases d1 with
    | type_desc d1 =>
      cases e2 with
      | datatype d2 =>
        cases d2 with
        | type_desc d2 => exact hfixed _ _ _ _ h
        | type_word w2 => cases w2 <;> simp at h
      | fycoide f2 => simp at h
      | pointer_ref p2 => simp at h
    | type_word w1 =>
      cases w1 with
      | proto_gac_word w1 =>
        cases e2 with
        | datatype d2 =>
          cases d2 with
          | type_desc d2 => simp at h
          | type_word w2 =>
            cases w2 with
            | proto_gac_word w2 => exact hword _ _ _ _ _ h
            | std_gac_word w2 => simp at h
        | fycoide f2 => simp at h
        | pointer_ref p2 => simp at h
      | std_gac_word w1 =>
        cases e2 with
        | datatype d2 =>
          cases d2 with
          | type_desc d2 => simp at h
          | type_word w2 =>
            cases w2 with
            | proto_gac_word w2 => simp at h
            | std_gac_word w2 => exact hword _ _ _ _ _ h
        | fycoide f2 => simp at h
        | pointer_ref p2 => simp at h
  | fycoide f1 =>
    cases e2 with
    | datatype d2 =>
      cases d2 with
      | type_desc d2 => simp at h
      | type_word w2 => cases w2 <;> simp at h
    | fycoide f2 => exact hfixed _ _ _ _ h
    | pointer_ref p2 => simp at h
  | pointer_ref p1 =>
    cases e2 with
    | datatype d2 =>
      cases d2 with
      | type_desc d2 => simp at h
      | type_word w2 => cases w2 <;> simp at h
    | fycoide f2 => simp at h
    | pointer_ref p2 =>
      simp only [Expression.yield, PointerRef.yield, List.cons_append, List.cons.injEq,
        true_and] at h ⊢
      obtain ⟨h1, h2⟩ := pointerId_delimit _ _ _ _ h
      exact ⟨h1, List.cons.inj h2⟩

theorem pureRel_kind (k : RelKind) (l r : Expression) :
    (pureRel k l r).kind = some k ∧ (pureRel k l r).lefts = [l] ∧
      (pureRel k l r).rights = [r] ∧ (pureRel k l r).hasBlock = false := by
  cases k <;> exact ⟨rfl, rfl, rfl, rfl⟩

theorem blockRel_kind (k : RelKind) (l : Expression) (b : Option BlockBody) :
    (blockRel k l b).kind = some k ∧ (blockRel k l b).lefts = [l] ∧
      (blockRel k l b).rights = [] ∧ (blockRel k l b).body = b ∧
      (blockRel k l b).hasBlock = true := by
  cases k <;> exact ⟨rfl, rfl, rfl, rfl, rfl⟩

/-- A function block that derives `L OP R` is the pure form of the relation of `OP`. -/
theorem functionBlock_pure_inv (fb : FunctionBlock) (k : RelKind) (l r : Expression)
    (x : List Tok) (h : fb.yield ++ x = l.yield ++ L k.op :: (r.yield ++ x)) :
    ∃ l2 r2, fb = pureRel k l2 r2 ∧ l2.yield = l.yield ∧ r2.yield = r.yield := by
  rcases functionBlock_forms fb with ⟨i, rfl⟩ | ⟨k2, l2, r2, rfl⟩ | ⟨k2, l2, b, rfl⟩
  · obtain ⟨t, y, hy, ht⟩ := expression_yield_head l
    rw [hy] at h
    simp only [FunctionBlock.yield, Include.yield, List.cons_append, List.cons.injEq] at h
    rw [← h.1] at ht
    exact absurd ht (by decide)
  · rw [pureRel_yield, List.append_assoc, List.cons_append] at h
    obtain ⟨h1, h2⟩ := expression_delimit l2 l _ _ _ _ (relKind_op_ne_at k2)
      (relKind_op_ne_at k) h
    obtain ⟨h3, h4⟩ := List.cons.inj h2
    have hk := relKind_op_inj k k2 h3
    subst hk
    exact ⟨l2, r2, rfl, h1, List.append_cancel_right h4⟩
  · simp only [blockRel_yield, List.append_assoc, List.cons_append] at h
    obtain ⟨-, h2⟩ := expression_delimit l2 l _ _ _ _ (relKind_op_ne_at k2)
      (relKind_op_ne_at k) h
    obtain ⟨-, h4⟩ := List.cons.inj h2
    obtain ⟨t, y, hy, ht⟩ := expression_yield_head r
    rw [hy] at h4
    simp only [List.cons_append, List.cons.injEq] at h4
    rw [← h4.1] at ht
    exact absurd ht (by decide)

/-- A function block that derives `L OP { B }` is the block form of the relation of
`OP`. -/
theorem functionBlock_block_inv (fb : FunctionBlock) (k : RelKind) (l : Expression)
    (b : Option BlockBody)
    (h : fb.yield = l.yield ++ L k.op :: L "\x7b" :: BlockBody.yieldOpt b ++ [L "\x7d"]) :
    ∃ l2 b2, fb = blockRel k l2 b2 ∧ l2.yield = l.yield ∧
      BlockBody.yieldOpt b2 = BlockBody.yieldOpt b := by
  rcases functionBlock_forms fb with ⟨i, rfl⟩ | ⟨k2, l2, r2, rfl⟩ | ⟨k2, l2, b2, rfl⟩
  · obtain ⟨t, y, hy, ht⟩ := expression_yield_head l
    rw [hy] at h
    simp only [FunctionBlock.yield, Include.yield, List.cons_append, List.cons.injEq] at h
    rw [← h.1] at ht
    exact absurd ht (by decide)
  · rw [pureRel_yield] at h
    simp only [List.append_assoc, List.cons_append] at h
    obtain ⟨-, h2⟩ := expression_delimit l2 l _ _ _ _ (relKind_op_ne_at k2)
      (relKind_op_ne_at k) h
    obtain ⟨-, h4⟩ := List.cons.inj h2
    obtain ⟨t, y, hy, ht⟩ := expression_yield_head r2
    rw [hy] at h4
    simp only [List.cons.injEq] at h4
    rw [h4.1] at ht
    exact absurd ht (by decide)
  · simp only [blockRel_yield, List.append_assoc, List.cons_append] at h
    obtain ⟨h1, h2⟩ := expression_delimit l2 l _ _ _ _ (relKind_op_ne_at k2)
      (relKind_op_ne_at k) h
    obtain ⟨h3, h4⟩ := List.cons.inj h2
    have hk := relKind_op_inj k k2 h3
    subst hk
    simp only [List.cons.injEq, true_and] at h4
    exact ⟨l2, b2, rfl, h1, List.append_cancel_right h4⟩

/-- The only file that derives the tokens of `[a] OP [b];`. -/
theorem pureRel_unique (k : RelKind) (a b : String) (f : File)
    (h : File.yield f = wordToks (Tok.identifier a) ++ L k.op :: wordToks (Tok.identifier b) ++
      [L ";"]) : f = [Statement.function_block (pureRel k (stdIdent a) (stdIdent b))] := by
  cases f with
  | nil => simp [wordToks] at h
  | cons s rest =>
    cases s with
    | function_block fb =>
      simp only [File.yield, Statement.yield, List.append_assoc, wordToks, List.cons_append,
        List.nil_append] at h
      rcases functionBlock_inv_ident fb a k _ _ h with ⟨right, rfl, h2⟩ | ⟨bb, -, h2⟩
      · obtain ⟨rfl, h3⟩ := expression_inv_stdIdent right b _ _ _ (by decide) h2
        simp only [List.singleton_append, List.cons.injEq, true_and] at h3
        rw [file_yield_eq_nil rest h3]
      · simp at h2
    | dash_comment w => simp [wordToks] at h
    | empty => simp [wordToks] at h

/-- No file derives `[a] OP [b];` with the second word a token that does not begin a
stem. -/
theorem pureRel_no_unicode (k : RelKind) (ta tb : Tok) (f : File)
    (hb : stemStart ta = false ∨ stemStart tb = false)
    (h : File.yield f = wordToks ta ++ L k.op :: wordToks tb ++ [L ";"]) : False := by
  rcases hb with hb | hb
  · have := file_open_stem f _ _ h
    rw [hb] at this
    exact Bool.noConfusion this
  cases f with
  | nil => simp [wordToks] at h
  | cons s rest =>
    cases s with
    | function_block fb =>
      simp only [File.yield, Statement.yield, List.append_assoc, wordToks, List.cons_append,
        List.nil_append] at h
      rcases functionBlock_single fb ta k _ _ h with ⟨right, h2⟩ | ⟨bb, h2⟩
      · have := expression_open_stem right _ _ _ h2
        rw [hb] at this
        exact Bool.noConfusion this
      · simp at h2
    | dash_comment w => simp [wordToks] at h
    | empty => simp [wordToks] at h

/-! ## Empty tokens -/

theorem contentBound_of_noContent (l : List Tok) (h : NoContent l) : ContentBound l := by
  unfold ContentBound
  have h0 : l.countP Tok.isContent = 0 := by
    rw [List.countP_eq_zero]
    intro t ht
    simp [h t ht]
  omega

theorem contentBound_append (a b : List Tok) (ha : ContentBound a) (hb : ContentBound b) :
    ContentBound (a ++ b) := by
  unfold ContentBound at *
  rw [List.countP_append, List.count_append]
  omega

theorem contentBound_cons (t : Tok) (l : List Tok) (ht : t.isContent = false)
    (hl : ContentBound l) : ContentBound (t :: l) :=
  contentBound_append [t] l (contentBound_of_noContent _ (by simp [NoContent, ht])) hl

theorem include_contentBound (i : Include) : ContentBound i.yield := by
  obtain ⟨file⟩ := i
  cases file with
  | string n =>
    apply contentBound_of_noContent
    simp only [Include.yield, IncludeFile.yield, List.cons_append, noContent_cons,
      noContent_append, noContent_nil, and_true]
    exact ⟨rfl, stringNode_noContent _, rfl⟩
  | quoted_string q =>
    simp [ContentBound, Include.yield, IncludeFile.yield, QuotedString.yield, List.countP_cons,
      List.count_cons, Tok.isContent]

theorem pure_contentBound (l r : Expression) (op : String) :
    ContentBound (l.yield ++ L op :: r.yield) := by
  apply contentBound_of_noContent
  simp only [noContent_append, noContent_cons]
  exact ⟨expression_noContent l, rfl, expression_noContent r⟩

theorem block_contentBound (l : Expression) (op : String) (body : List Tok)
    (hb : ContentBound body) :
    ContentBound (l.yield ++ L op :: L "\x7b" :: body ++ [L "\x7d"]) := by
  have e : l.yield ++ L op :: L "\x7b" :: body ++ [L "\x7d"] =
      (l.yield ++ [L op, L "\x7b"]) ++ (body ++ [L "\x7d"]) := by simp
  rw [e]
  apply contentBound_append
  · apply contentBound_of_noContent
    simp only [noContent_append, noContent_cons, noContent_nil, and_true]
    exact ⟨expression_noContent l, rfl, rfl⟩
  · exact contentBound_append _ _ hb
      (contentBound_of_noContent _ (by simp [NoContent, Tok.isContent]))

mutual
theorem functionBlock_contentBound : ∀ fb : FunctionBlock, ContentBound fb.yield
  | .include i => include_contentBound i
  | .shape (.shape_pure l r) => pure_contentBound l r _
  | .shape (.shape_block l b) => block_contentBound l _ _ (bodyOpt_contentBound b)
  | .hold (.hold_pure l r) => pure_contentBound l r _
  | .hold (.hold_block l b) => block_contentBound l _ _ (bodyOpt_contentBound b)
  | .shift (.shift_pure l r) => pure_contentBound l r _
  | .shift (.shift_block l b) => block_contentBound l _ _ (bodyOpt_contentBound b)
  | .flow (.flow_pure l r) => pure_contentBound l r _
  | .flow (.flow_block l b) => block_contentBound l _ _ (bodyOpt_contentBound b)
  | .melt (.melt_pure l r) => pure_contentBound l r _
  | .melt (.melt_block l b) => block_contentBound l _ _ (bodyOpt_contentBound b)
theorem bodyOpt_contentBound : ∀ b : Option BlockBody, ContentBound (BlockBody.yieldOpt b)
  | none => contentBound_of_noContent _ noContent_nil
  | some (.commaSep1 first rest) => by
    simp only [BlockBody.yieldOpt, BlockBody.yield]
    exact contentBound_append _ _ (element_contentBound first) (elements_contentBound rest)
  | some (.trailingCommaSep1 first rest tr) => by
    simp only [BlockBody.yieldOpt, BlockBody.yield]
    refine contentBound_append _ _ (contentBound_append _ _ (element_contentBound first)
      (elements_contentBound rest)) (contentBound_of_noContent _ ?_)
    cases tr <;> simp [NoContent, Tok.isContent]
theorem elements_contentBound : ∀ l : List BlockElement,
    ContentBound (BlockElement.yieldRest l)
  | [] => contentBound_of_noContent _ noContent_nil
  | e :: rest => by
    simp only [BlockElement.yieldRest]
    exact contentBound_cons _ _ rfl
      (contentBound_append _ _ (element_contentBound e) (elements_contentBound rest))
theorem element_contentBound : ∀ e : BlockElement, ContentBound e.yield
  | .expression e => contentBound_of_noContent _ (expression_noContent e)
  | .function_block fb => functionBlock_contentBound fb
end

/-- In the tokens of a file the content tokens are no more than the double-quote
literals: each stands between the two quotes of its `quoted_string`. -/
theorem file_contentBound (f : File) : ContentBound (File.yield f) := by
  induction f with
  | nil => exact contentBound_of_noContent _ noContent_nil
  | cons s f ih =>
    simp only [File.yield]
    apply contentBound_append _ _ _ ih
    cases s with
    | function_block fb =>
      exact contentBound_append _ _ (functionBlock_contentBound fb)
        (contentBound_of_noContent _ (by simp [NoContent, Tok.isContent]))
    | dash_comment w => exact contentBound_of_noContent _ (by simp [NoContent, Tok.isContent])
    | empty => exact contentBound_of_noContent _ (by simp [NoContent, Tok.isContent])

/-- A text is at least as long as the number of its tokens other than content tokens. -/
theorem textOf_length_ge (ts : List Tok) (hwf : ∀ t ∈ ts, t.wf = true) :
    ts.countP (fun t => !t.isContent) ≤ (textOf ts).length := by
  induction ts with
  | nil => simp
  | cons t ts ih =>
    have ih2 := ih (fun u hu => hwf u (List.mem_cons_of_mem _ hu))
    rw [List.countP_cons]
    simp only [textOf, List.length_append]
    by_cases hc : t.isContent = true
    · simp only [hc, Bool.not_true, Bool.false_eq_true, if_false]
      omega
    · have hne : t.text ≠ [] := by
        intro h0
        obtain ⟨w, rfl⟩ := wf_text_nil t (hwf t (List.mem_cons_self _ _)) h0
        exact hc rfl
      have hpos : 0 < t.text.length := List.length_pos.2 hne
      have hc2 : t.isContent = false := by simpa using hc
      simp only [hc2, Bool.not_false, if_true]
      omega

/-- A scan that is a parse of a file has at most twice as many tokens as the text has
characters. -/
theorem scan_length_bound (s : List Char) (ts : List Tok) (f : File) (h : Scan s ts)
    (hs : significant ts = File.yield f) : ts.length ≤ 2 * s.length := by
  have h1 := textOf_length_ge ts h.1
  rw [h.2] at h1
  have h2 : ts.length = ts.countP Tok.isContent + ts.countP (fun t => !t.isContent) := by
    rw [List.length_eq_countP_add_countP Tok.isContent]
    congr 2
    funext t
    simp
  have h3 : ts.countP Tok.isContent = (significant ts).countP Tok.isContent := by
    unfold significant
    rw [List.countP_filter]
    apply List.countP_congr
    intro t _
    cases t <;> simp [Tok.isContent, Tok.isExtra]
  have h4 : (significant ts).count (L "\"") ≤ ts.count (L "\"") :=
    (List.filter_sublist ts).count_le _
  have h5 : ts.count (L "\"") ≤ ts.countP (fun t => !t.isContent) := by
    unfold List.count
    apply List.countP_mono_left
    intro t _ ht
    have : t = L "\"" := by simpa using ht
    subst this
    rfl
  have h6 := file_contentBound f
  unfold ContentBound at h6
  rw [← hs] at h6
  omega

/-! ## Where a dash comment can stand -/

theorem inBlock_nil : InBlock [] := by simp [InBlock]

theorem inBlock_cons (t : Tok) (l : List Tok) :
    InBlock (t :: l) ↔ t.inBlock = true ∧ InBlock l := by
  simp [InBlock]

theorem inBlock_append (a b : List Tok) : InBlock (a ++ b) ↔ InBlock a ∧ InBlock b := by
  simp only [InBlock, List.mem_append]
  constructor
  · intro h; exact ⟨fun t ht => h t (Or.inl ht), fun t ht => h t (Or.inr ht)⟩
  · rintro ⟨h1, h2⟩ t (ht | ht)
    · exact h1 t ht
    · exact h2 t ht

theorem stringNode_inBlock (n : StringNode) : InBlock n.yield := by
  cases n <;> simp [InBlock, Tok.inBlock]

theorem number_inBlock (n : Number) : InBlock n.yield := by
  cases n <;> simp [InBlock, Tok.inBlock]

theorem operator_inBlock (o : Operator) : InBlock o.yield := by
  cases o <;> simp [InBlock, Tok.inBlock]

theorem pointerItem_inBlock (p : PointerItem) : InBlock p.yield := by
  cases p with
  | number n => exact number_inBlock n
  | operator o => exact operator_inBlock o
  | arithmetic_op a => cases a <;> simp [InBlock, Tok.inBlock]

theorem pointerId_inBlock (p : PointerId) : InBlock p.yield := by
  cases p with
  | number n => exact number_inBlock n
  | pointer_expression e =>
    obtain ⟨first, rest⟩ := e
    simp only [PointerId.yield, PointerExpression.yield, List.cons_append, inBlock_cons,
      inBlock_append, inBlock_nil, and_true]
    refine ⟨rfl, ⟨pointerItem_inBlock first, ?_⟩, rfl⟩
    intro t ht
    obtain ⟨p, -, hp⟩ := List.mem_flatMap.1 ht
    exact pointerItem_inBlock p t hp

theorem fycoide_inBlock (f : Fycoide) : InBlock f.yield := by
  simp only [Fycoide.yield, List.cons_append, inBlock_cons, inBlock_append, inBlock_nil,
    and_true]
  exact ⟨rfl, stringNode_inBlock _, rfl⟩

theorem pointerRef_inBlock (p : PointerRef) : InBlock p.yield := by
  simp only [PointerRef.yield, inBlock_cons]
  exact ⟨rfl, pointerId_inBlock _⟩

theorem pointerOpt_inBlock (p : Option Pointer) : InBlock (Pointer.yieldOpt p) := by
  cases p with
  | none => exact inBlock_nil
  | some p =>
    simp only [Pointer.yieldOpt, Pointer.yield, inBlock_cons]
    exact ⟨rfl, pointerId_inBlock _⟩

mutual
theorem gacStem_inBlock : ∀ s : GacStem, InBlock s.yield
  | .fycoide f => fycoide_inBlock f
  | .pointer_ref p => pointerRef_inBlock p
  | .operator o => operator_inBlock o
  | .identifier v => by simp [InBlock, Tok.inBlock]
  | GacStem.gac_prefix p => by cases p <;> simp [InBlock, Tok.inBlock]
  | .gac_suffix p => by cases p <;> simp [InBlock, Tok.inBlock]
  | .gac_synonym p => by simp [InBlock, Tok.inBlock]
  | .gac_nested c => by
    simp only [GacStem.yield, List.cons_append, inBlock_cons, inBlock_append,
      inBlock_nil, and_true]
    exact ⟨rfl, gacString_inBlock c, rfl⟩
theorem gacString_inBlock : ∀ g : GacString, InBlock g.yield
  | .mk first rest => by
    simp only [GacString.yield, inBlock_append]
    exact ⟨gacStem_inBlock first, gacStemList_inBlock rest⟩
theorem gacStemList_inBlock : ∀ l : List GacStem, InBlock (GacStem.yieldList l)
  | [] => inBlock_nil
  | s :: rest => by
    simp only [GacStem.yieldList, inBlock_append]
    exact ⟨gacStem_inBlock s, gacStemList_inBlock rest⟩
end

theorem expression_inBlock (e : Expression) : InBlock e.yield := by
  cases e with
  | datatype d => cases d with
    | type_desc d =>
      simp only [Expression.yield, Datatype.yield, TypeDesc.yield, List.cons_append,
        inBlock_cons, inBlock_append, inBlock_nil, and_true]
      exact ⟨rfl, stringNode_inBlock _, rfl⟩
    | type_word w => cases w with
      | proto_gac_word w =>
        simp only [Expression.yield, Datatype.yield, TypeWord.yield, ProtoGacWord.yield,
          List.cons_append, inBlock_cons, inBlock_append]
        exact ⟨rfl, gacString_inBlock _, rfl, pointerOpt_inBlock _⟩
      | std_gac_word w =>
        simp only [Expression.yield, Datatype.yield, TypeWord.yield, StdGacWord.yield,
          List.cons_append, inBlock_cons, inBlock_append]
        exact ⟨rfl, gacString_inBlock _, rfl, pointerOpt_inBlock _⟩
  | fycoide f => exact fycoide_inBlock f
  | pointer_ref p => exact pointerRef_inBlock p


theorem include_inBlock (i : Include) : InBlock i.yield := by
  obtain ⟨file⟩ := i
  cases file with
  | string n =>
    simp only [Include.yield, IncludeFile.yield, List.cons_append, inBlock_cons,
      inBlock_append, inBlock_nil, and_true]
    exact ⟨rfl, stringNode_inBlock _, rfl⟩
  | quoted_string q =>
    simp [InBlock, Include.yield, IncludeFile.yield, QuotedString.yield, Tok.inBlock]

theorem pure_inBlock (l r : Expression) (op : String) :
    InBlock (l.yield ++ L op :: r.yield) := by
  simp only [inBlock_append, inBlock_cons]
  exact ⟨expression_inBlock l, rfl, expression_inBlock r⟩

theorem block_inBlock (l : Expression) (op : String) (body : List Tok) (hb : InBlock body) :
    InBlock (l.yield ++ L op :: L "\x7b" :: body ++ [L "\x7d"]) := by
  simp only [inBlock_append, inBlock_cons, inBlock_nil, and_true]
  exact ⟨⟨expression_inBlock l, rfl, rfl, hb⟩, rfl⟩

mutual
theorem functionBlock_inBlock : ∀ fb : FunctionBlock, InBlock fb.yield
  | .include i => include_inBlock i
  | .shape (.shape_pure l r) => pure_inBlock l r _
  | .shape (.shape_block l b) => block_inBlock l _ _ (bodyOpt_inBlock b)
  | .hold (.hold_pure l r) => pure_inBlock l r _
  | .hold (.hold_block l b) => block_inBlock l _ _ (bodyOpt_inBlock b)
  | .shift (.shift_pure l r) => pure_inBlock l r _
  | .shift (.shift_block l b) => block_inBlock l _ _ (bodyOpt_inBlock b)
  | .flow (.flow_pure l r) => pure_inBlock l r _
  | .flow (.flow_block l b) => block_inBlock l _ _ (bodyOpt_inBlock b)
  | .melt (.melt_pure l r) => pure_inBlock l r _
  | .melt (.melt_block l b) => block_inBlock l _ _ (bodyOpt_inBlock b)
theorem bodyOpt_inBlock : ∀ b : Option BlockBody, InBlock (BlockBody.yieldOpt b)
  | none => inBlock_nil
  | some (.commaSep1 first rest) => by
    simp only [BlockBody.yieldOpt, BlockBody.yield, inBlock_append]
    exact ⟨element_inBlock first, elements_inBlock rest⟩
  | some (.trailingCommaSep1 first rest tr) => by
    simp only [BlockBody.yieldOpt, BlockBody.yield, inBlock_append]
    refine ⟨⟨element_inBlock first, elements_inBlock rest⟩, ?_⟩
    cases tr <;> simp [InBlock, Tok.inBlock]
theorem elements_inBlock : ∀ l : List BlockElement, InBlock (BlockElement.yieldRest l)
  | [] => inBlock_nil
  | e :: rest => by
    simp only [BlockElement.yieldRest, List.cons_append, inBlock_cons, inBlock_append]
    exact ⟨rfl, element_inBlock e, elements_inBlock rest⟩
theorem element_inBlock : ∀ e : BlockElement, InBlock e.yield
  | .expression e => expression_inBlock e
  | .function_block fb => functionBlock_inBlock fb
end

/-- No function block derives a dash comment token. -/
theorem functionBlock_no_dash (fb : FunctionBlock) (w : String) :
    Tok.dash_comment w ∉ fb.yield := by
  intro h
  exact Bool.noConfusion (functionBlock_inBlock fb _ h)

/-- The dash comment tokens of a file are those of its dash comment statements. -/
theorem file_dash_mem (f : File) (w : String) :
    Tok.dash_comment w ∈ File.yield f ↔ Statement.dash_comment w ∈ f := by
  induction f with
  | nil => simp [File.yield]
  | cons s f ih =>
    simp only [File.yield, List.mem_append, List.mem_cons, ih]
    cases s with
    | function_block fb =>
      simp only [Statement.yield, List.mem_append, List.mem_singleton, reduceCtorEq, or_false,
        false_or]
      constructor
      · rintro (h | h)
        · exact absurd h (functionBlock_no_dash fb w)
        · exact h
      · intro h
        exact Or.inr h
    | dash_comment v =>
      simp only [Statement.yield, List.mem_singleton, Tok.dash_comment.injEq,
        Statement.dash_comment.injEq]
    | empty =>
      simp [Statement.yield]

/-- A parse of a text without a double quote has a scan without content tokens. -/
theorem parses_content_free (s : List Char) (hq : '"' ∉ s) (f : File) (h : Parses s f) :
    ∃ ts, Scan s ts ∧ (∀ t ∈ ts, t.isContent = false) ∧ significant ts = File.yield f := by
  obtain ⟨ts, ⟨hwf, htext⟩, hsig⟩ := h
  refine ⟨ts, ⟨hwf, htext⟩, ?_, hsig⟩
  intro t ht
  by_contra hc
  have hc2 : t.isContent = true := by simpa using hc
  have hsigmem : t ∈ significant ts := by
    apply List.mem_filter.2
    refine ⟨ht, ?_⟩
    cases t <;> simp [Tok.isContent] at hc2
    simp [Tok.isExtra]
  rw [hsig] at hsigmem
  have hquote : L "\"" ∈ File.yield f := file_quoteGuard f ⟨t, hsigmem, hc2⟩
  rw [← hsig] at hquote
  have hq2 : L "\"" ∈ ts := List.mem_of_mem_filter hquote
  apply hq
  rw [← htext]
  exact mem_textOf _ ts '"' hq2 (by simp [Tok.text])

/-- The enumeration of scan prefixes is complete. -/
theorem scanPrefixes_complete : ∀ (k : Nat) (ts : List Tok) (s : List Char),
    (∀ t ∈ ts, t.wf = true) → (∀ t ∈ ts, t.isContent = false) → textOf ts = s →
    ts.take k ∈ scanPrefixes k s := by
  intro k
  induction k with
  | zero =>
    intro ts s _ _ _
    simp [scanPrefixes]
  | succ k ih =>
    intro ts s hwf hc ht
    cases ts with
    | nil =>
      simp only [textOf] at ht
      subst ht
      simp [scanPrefixes]
    | cons t ts =>
      have htne : t.text ≠ [] := by
        intro h0
        obtain ⟨w, rfl⟩ := wf_text_nil t (hwf t (by simp)) h0
        have := hc _ (List.mem_cons_self _ _)
        simp [Tok.isContent] at this
      simp only [textOf] at ht
      have hlen : (textOf ts).length < s.length := by
        rw [← ht, List.length_append]
        have : 0 < t.text.length := List.length_pos.2 htne
        omega
      have hsne : s ≠ [] := by
        intro h0
        rw [h0] at hlen
        simp at hlen
      simp only [scanPrefixes, hsne, if_false, List.take_succ_cons]
      apply List.mem_flatMap.2
      refine ⟨(t, textOf ts), ?_, ?_⟩
      · rw [← ht]
        exact mem_nextTokens t _ (hwf t (by simp)) (hc t (by simp))
      · simp only [hlen, if_true]
        exact List.mem_map.2 ⟨ts.take k, ih ts _ (fun t ht => hwf t (by simp [ht]))
          (fun t ht => hc t (by simp [ht])) rfl, rfl⟩

theorem significant_append (a b : List Tok) :
    significant (a ++ b) = significant a ++ significant b := by
  simp [significant]

/-- A text without a double quote is not a valid file when the tokens of each of its
scan prefixes of `k` tokens and extras have a property that no beginning of the tokens
of a file has. -/
theorem not_valid_of_prefixes (s : List Char) (hq : '"' ∉ s) (k : Nat) (P : List Tok → Bool)
    (hall : ∀ p ∈ scanPrefixes k s, P (significant p) = true)
    (hP : ∀ (f : File) (p x : List Tok), File.yield f = p ++ x → P p = false) :
    ¬ ValidFile s := by
  rintro ⟨f, hf⟩
  obtain ⟨ts, hscan, hc, hsig⟩ := parses_content_free s hq f hf
  have h1 := hall _ (scanPrefixes_complete k ts s hscan.1 hc hscan.2)
  have h2 : File.yield f = significant (ts.take k) ++ significant (ts.drop k) := by
    rw [← significant_append, List.take_append_drop, hsig]
  rw [hP f _ _ h2] at h1
  exact Bool.noConfusion h1

/-- In a file that begins with a gac word of one token, the word is followed by `@` or
by the operator of a relation. -/
theorem file_after_word (f : File) (tx t : Tok) (x : List Tok)
    (h : File.yield f = L "[" :: tx :: L "]" :: t :: x) : afterWord t = true := by
  by_cases ht : t = L "@"
  · subst ht
    decide
  have hop : ∀ k : RelKind, afterWord (L k.op) = true := by
    intro k
    cases k <;> decide
  cases f with
  | nil => simp at h
  | cons s rest =>
    cases s with
    | function_block fb =>
      simp only [File.yield, Statement.yield, List.append_assoc] at h
      rcases functionBlock_forms fb with ⟨i, rfl⟩ | ⟨k, l, r, rfl⟩ | ⟨k, l, b, rfl⟩
      · simp at h
      · rw [pureRel_yield, List.append_assoc, List.cons_append] at h
        have h2 := expression_single l tx _ t x ht h
        rw [← (List.cons.inj h2).1]
        exact hop k
      · simp only [blockRel_yield, List.append_assoc, List.cons_append] at h
        have h2 := expression_single l tx _ t x ht h
        rw [← (List.cons.inj h2).1]
        exact hop k
    | dash_comment w => simp at h
    | empty => simp at h

/-- In a file that begins `[`, one token, `]`, `->` and an opening brace, the next token
begins a block element or closes the block. -/
theorem file_block_start (f : File) (tx t : Tok) (x : List Tok)
    (h : File.yield f = L "[" :: tx :: L "]" :: L "->" :: L "\x7b" :: t :: x) :
    (elemStart t || t == L "\x7d") = true := by
  obtain ⟨b, f2, h2⟩ := file_block_single f tx .shift (t :: x) h
  cases b with
  | none =>
    simp only [BlockBody.yieldOpt, List.nil_append, List.cons.injEq] at h2
    rw [← h2.1]
    decide
  | some body =>
    simp only [BlockBody.yieldOpt] at h2
    rw [blockBody_yield_start body _ t x h2]
    rfl

/-- The parses of `[a]OP[b];`: the pure relation of `OP` and no other. -/
theorem parses_pureText (k : RelKind) (f : File) (hp : Parses (pureText k) f) :
    f = [Statement.function_block (pureRel k (stdIdent "a") (stdIdent "b"))] := by
  have hall : ∀ ts ∈ allScans (pureText k).length (pureText k),
      significant ts ∈
        [wordToks (Tok.identifier "a") ++ L k.op :: wordToks (Tok.identifier "b") ++ [L ";"],
         wordToks (Tok.identifier "a") ++ L k.op :: wordToks (Tok.unicode_string "b") ++
           [L ";"],
         wordToks (Tok.unicode_string "a") ++ L k.op :: wordToks (Tok.identifier "b") ++
           [L ";"],
         wordToks (Tok.unicode_string "a") ++ L k.op :: wordToks (Tok.unicode_string "b") ++
           [L ";"]] := by
    cases k <;> decide
  have hq : '"' ∉ pureText k := by cases k <;> decide
  refine unique_parse_of_scans _ hq _ hall _ ?_ f hp
  intro f hf
  simp only [List.mem_cons, List.mem_singleton, List.not_mem_nil, or_false] at hf
  rcases hf with h | h | h | h
  · exact pureRel_unique k "a" "b" f h
  · exact (pureRel_no_unicode k _ _ f (Or.inr (by decide)) h).elim
  · exact (pureRel_no_unicode k _ _ f (Or.inl (by decide)) h).elim
  · exact (pureRel_no_unicode k _ _ f (Or.inl (by decide)) h).elim

/-- A file whose first token is a dash comment begins with that dash comment
statement. -/
theorem file_dash_head (f : File) (w : String) (x : List Tok)
    (h : File.yield f = Tok.dash_comment w :: x) :
    ∃ f2, f = Statement.dash_comment w :: f2 ∧ File.yield f2 = x := by
  cases f with
  | nil => simp at h
  | cons s rest =>
    cases s with
    | function_block fb =>
      simp only [File.yield, Statement.yield, List.append_assoc] at h
      have := blockElement_yield_start (.function_block fb) _ _ _ h
      exact Bool.noConfusion this
    | dash_comment v =>
      simp only [File.yield, Statement.yield, List.singleton_append, List.cons.injEq,
        Tok.dash_comment.injEq] at h
      obtain ⟨rfl, h2⟩ := h
      exact ⟨rest, rfl, h2⟩
    | empty => simp at h

/-- The parses of `---- c ----[a]::[b];`: a dash comment statement and the statement
`[a]::[b]`. -/
theorem parses_dash_then_shape (f : File) (hp : Parses "---- c ----[a]::[b];".toList f) :
    f = Statement.dash_comment "---- c ----" :: shapePureFile "a" "b" := by
  obtain ⟨ts, hscan, hc, hsig⟩ :=
    parses_content_free "---- c ----[a]::[b];".toList (by decide) f hp
  have h1 := scanPrefixes_complete 1 ts _ hscan.1 hc hscan.2
  have hall : ∀ p ∈ scanPrefixes 1 "---- c ----[a]::[b];".toList,
      dashOrOther "---- c ----" p = true := by decide
  have h2 := hall _ h1
  cases ts with
  | nil => exact absurd hscan.2 (by decide)
  | cons t ts =>
    simp only [List.take_succ_cons, List.take_zero, dashOrOther, Bool.or_eq_true,
      Bool.and_eq_true, beq_iff_eq, Bool.not_eq_true'] at h2
    rcases h2 with rfl | ⟨hs, hx⟩
    · have hsig2 : File.yield f = Tok.dash_comment "---- c ----" :: significant ts := by
        rw [← hsig]
        rfl
      obtain ⟨f2, rfl, hf2⟩ := file_dash_head f _ _ hsig2
      have htext : textOf ts = pureText .shape := by
        have := hscan.2
        simp only [textOf] at this
        exact List.append_cancel_left (this.trans (by decide :
          "---- c ----[a]::[b];".toList =
            (Tok.dash_comment "---- c ----").text ++ pureText .shape))
      have hp2 : Parses (pureText .shape) f2 :=
        ⟨ts, ⟨fun u hu => hscan.1 u (List.mem_cons_of_mem _ hu), htext⟩, hf2.symm⟩
      rw [parses_pureText .shape f2 hp2]
      rfl
    · have hsig2 : File.yield f = t :: significant ts := by
        rw [← hsig]
        simp [significant, hx]
      have := file_yield_start f _ _ hsig2
      rw [hs] at this
      exact Bool.noConfusion this

/-! ## An unclosed word -/

/-- No file derives just `[` and one more token. -/
theorem file_not_open_one (f : File) (t : Tok) : File.yield f ≠ [L "[", t] := by
  have hexpr : ∀ (e : Expression) (r : List Tok), e.yield ++ r ≠ [L "[", t] := by
    intro e r h
    cases e with
    | datatype d => cases d with
      | type_desc d => simp at h
      | type_word w => cases w with
        | proto_gac_word w => simp at h
        | std_gac_word w =>
          obtain ⟨g, p⟩ := w
          obtain ⟨t0, x, hg, -⟩ := gacString_yield_head g
          simp [Expression.yield, Datatype.yield, TypeWord.yield, StdGacWord.yield, hg] at h
    | fycoide f => simp at h
    | pointer_ref p => simp at h
  intro h
  cases f with
  | nil => simp at h
  | cons s f2 =>
    cases s with
    | function_block fb =>
      simp only [File.yield, Statement.yield, List.append_assoc] at h
      rcases functionBlock_forms fb with ⟨i, rfl⟩ | ⟨k, l, r, rfl⟩ | ⟨k, l, b, rfl⟩
      · simp at h
      · rw [pureRel_yield, List.append_assoc] at h
        exact hexpr l _ h
      · simp only [blockRel_yield, List.append_assoc] at h
        exact hexpr l _ h
    | dash_comment w => simp at h
    | empty => simp at h

/-- The text `[a`, a gac word that is not closed, is not a valid file. -/
theorem unclosed_word_not_valid : ¬ ValidFile "[a".toList := by
  apply not_valid_of_scans _ (by decide) openAndOne (by decide)
  intro f
  cases hp : openAndOne (File.yield f) with
  | false => rfl
  | true =>
    exfalso
    match hy : File.yield f, hp with
    | [a, t], hp =>
      simp only [openAndOne, beq_iff_eq] at hp
      subst hp
      exact file_not_open_one f t hy

/-! ## Std and proto gac words -/

/-- A scan that spans tokens beginning with the token `a` begins with `a`. -/
theorem spans_head (ts : List Tok) (a : Tok) (y : List Tok) (hsig : significant ts = a :: y)
    (hhead : ∀ t, ts.head? = some t → t.isExtra = false) :
    ∃ ts2, ts = a :: ts2 ∧ significant ts2 = y := by
  cases ts with
  | nil => simp [significant] at hsig
  | cons t ts2 =>
    have hx := hhead t rfl
    have : significant (t :: ts2) = t :: significant ts2 := by simp [significant, hx]
    rw [this] at hsig
    obtain ⟨rfl, h2⟩ := List.cons.inj hsig
    exact ⟨ts2, rfl, h2⟩

/-- Exchanging the first token of a scan for another token that is not an extra. -/
theorem spans_exchange (a b : Tok) (hb : b.wf = true) (hbx : b.isExtra = false)
    (s : List Char) (y : List Tok) (h : Spans (a.text ++ s) (a :: y))
    (hs : ∀ ts2, textOf (a :: ts2) = a.text ++ s → textOf ts2 = s) :
    Spans (b.text ++ s) (b :: y) := by
  obtain ⟨ts, ⟨hwf, htext⟩, hsig, hhead, hlast⟩ := h
  obtain ⟨ts2, rfl, hsig2⟩ := spans_head ts a y hsig hhead
  refine ⟨b :: ts2, ⟨?_, ?_⟩, ?_, ?_, ?_⟩
  · intro t ht
    rcases List.mem_cons.1 ht with rfl | h2
    · exact hb
    · exact hwf t (List.mem_cons_of_mem _ h2)
  · simp only [textOf]
    rw [hs ts2 htext]
  · simp [significant, hbx, ← hsig2]
  · intro t ht
    simp only [List.head?_cons, Option.some.injEq] at ht
    subst ht
    exact hbx
  · intro t ht
    cases ts2 with
    | nil =>
      simp only [List.getLast?_singleton, Option.some.injEq] at ht
      subst ht
      exact hbx
    | cons u ts3 =>
      rw [List.getLast?_cons_cons] at ht
      apply hlast t
      rw [List.getLast?_cons_cons]
      exact ht

/-! ## Nested blocks -/

theorem nestLeaves_wf (n : Nat) : ∀ t ∈ nestLeaves n, t.wf = true := by
  induction n with
  | zero => decide
  | succ n ih =>
    intro t ht
    simp only [nestLeaves, List.mem_append, List.mem_cons, List.mem_singleton,
      List.not_mem_nil, or_false] at ht
    rcases ht with (⟨rfl | rfl | rfl | rfl | rfl | rfl⟩ | h) | rfl | rfl
    all_goals first | exact ih t h | decide

theorem nestLeaves_text (n : Nat) : textOf (nestLeaves n) = nestText n := by
  induction n with
  | zero => decide
  | succ n ih =>
    simp only [nestLeaves, nestText, textOf_append, ih]
    rfl

theorem nestLeaves_significant (n : Nat) : significant (nestLeaves n) = nestToks n := by
  induction n with
  | zero => decide
  | succ n ih =>
    simp only [nestLeaves, nestToks, significant_append, ih]
    rfl

theorem nestBlock_yield (n : Nat) : (nestBlock n).yield = nestToks n := by
  induction n with
  | zero => rfl
  | succ n ih =>
    simp [nestBlock, nestToks, FunctionBlock.yield, Shape.yield, BlockBody.yieldOpt,
      BlockBody.yield, BlockElement.yield, BlockElement.yieldRest, ih, stdIdent]

theorem nestBlock_depth (n : Nat) : (nestBlock n).depth = n := by
  induction n with
  | zero => rfl
  | succ n ih =>
    simp only [nestBlock, FunctionBlock.depth, BlockBody.depthOpt, BlockElement.depth,
      BlockElement.depthList, ih]
    omega

theorem pureRel_depth (k : RelKind) (l r : Expression) : (pureRel k l r).depth = 0 := by
  cases k <;> rfl

theorem blockRel_depth (k : RelKind) (l : Expression) (b : Option BlockBody) :
    (blockRel k l b).depth = BlockBody.depthOpt b := by
  cases k <;> rfl

theorem bodyOpt_depth (body : BlockBody) :
    BlockBody.depthOpt (some body) =
      1 + BlockElement.depthList body.elements := by
  cases body <;> simp [BlockBody.depthOpt, BlockBody.elements, BlockElement.depthList]

/-- Every function block that derives the tokens of `nestText n` has depth `n`, and it
ends where these tokens end. -/
theorem nest_inv : ∀ (n : Nat) (fb : FunctionBlock) (r x : List Tok),
    (∀ y, x ≠ L "@" :: y) → fb.yield ++ r = nestToks n ++ x → fb.depth = n ∧ r = x := by
  intro n
  induction n with
  | zero =>
    intro fb r x hx h
    simp only [nestToks, List.cons_append, List.nil_append] at h
    rcases functionBlock_inv_ident fb "a" .shape r _ h with ⟨right, rfl, h2⟩ | ⟨b, -, h2⟩
    · refine ⟨pureRel_depth _ _ _, ?_⟩
      obtain ⟨p, -, h3⟩ := expression_inv_ident right "b" r x h2
      cases p with
      | none => exact h3
      | some q =>
        simp only [Pointer.yieldOpt, Pointer.yield, List.cons_append] at h3
        exact absurd h3.symm (hx _)
    · simp at h2
  | succ n ih =>
    intro fb r x hx h
    simp only [nestToks, List.cons_append, List.nil_append, List.append_assoc] at h
    rcases functionBlock_inv_ident fb "a" .shape r _ h with ⟨right, -, h2⟩ | ⟨b, rfl, h2⟩
    · obtain ⟨t, y, hy, ht⟩ := expression_yield_head right
      rw [hy] at h2
      simp only [List.cons_append, List.cons.injEq] at h2
      rw [h2.1] at ht
      exact absurd ht (by decide)
    · simp only [List.cons.injEq, true_and] at h2
      cases b with
      | none =>
        exfalso
        cases n <;> simp [BlockBody.yieldOpt, nestToks] at h2
      | some body =>
        obtain ⟨first, more, trail, htrail, hel, hy⟩ := blockBody_yield_form body
        simp only [BlockBody.yieldOpt, hy, List.append_assoc] at h2
        cases first with
        | expression e =>
          exfalso
          have hn : ∃ z, nestToks n ++ L "\x7d" :: x =
              L "[" :: Tok.identifier "a" :: L "]" :: L "::" :: z := by
            cases n <;> exact ⟨_, rfl⟩
          obtain ⟨z, hz⟩ := hn
          simp only [BlockElement.yield] at h2
          rw [hz] at h2
          obtain ⟨-, h3⟩ := expression_inv_stdIdent e "a" _ _ _ (by decide) h2
          cases more with
          | nil =>
            rcases htrail with rfl | rfl <;> simp [BlockElement.yieldRest] at h3
          | cons m more => simp [BlockElement.yieldRest] at h3
        | function_block fb2 =>
          simp only [BlockElement.yield] at h2
          obtain ⟨hd, h3⟩ := ih fb2 _ (L "\x7d" :: x) (by intro y; simp) h2
          obtain ⟨rfl, h4⟩ := yieldRest_stop more _ (L "\x7d") x (by decide) h3
          have h5 : trail = [] ∧ r = x := by
            rcases htrail with rfl | rfl
            · simp only [List.nil_append, List.cons.injEq, true_and] at h4
              exact ⟨rfl, h4⟩
            · simp at h4
          refine ⟨?_, h5.2⟩
          rw [blockRel_depth, bodyOpt_depth, hel]
          simp only [BlockElement.depthList, BlockElement.depth, hd]
          omega

/-! ## Overlap of the token classes -/

theorem unicode_string_iff (w : List Char) :
    unicode_string.matches w = true ↔ w ≠ [] ∧ ∀ ch ∈ w, inClass false unicodeClass ch = true := by
  rw [RE.matches_iff, unicode_string_match]
  constructor
  · rintro ⟨c, v, rfl, hc, hv⟩
    refine ⟨by simp, ?_⟩
    intro ch hch
    simp only [List.append_nil, List.mem_cons] at hch
    rcases hch with rfl | h
    · exact hc
    · exact hv ch h
  · rintro ⟨hne, hall⟩
    cases w with
    | nil => exact absurd rfl hne
    | cons c v =>
      exact ⟨c, v, by simp, hall c (List.mem_cons_self _ _),
        fun ch hch => hall ch (List.mem_cons_of_mem _ hch)⟩

theorem inClass_mono (s1 s2 : List CharSet) (hsub : ∀ x ∈ s1, x ∈ s2) (ch : Char)
    (h : inClass false s1 ch = true) : inClass false s2 ch = true := by
  simp only [inClass, bne_iff_ne, ne_eq, Bool.not_eq_false, List.any_eq_true] at h ⊢
  obtain ⟨x, hx, hm⟩ := h
  exact ⟨x, hsub x hx, hm⟩

theorem identStart_sub (ch : Char)
    (h : inClass false [.range 'a' 'z', .range 'A' 'Z', .one '_'] ch = true) :
    inClass false unicodeClass ch = true := by
  exact inClass_mono _ _ (by decide) ch h

theorem identRest_sub (ch : Char)
    (h : inClass false [.range 'a' 'z', .range 'A' 'Z', .range '0' '9', .one '_', .one '-']
      ch = true) :
    inClass false unicodeClass ch = true := by
  exact inClass_mono _ _ (by decide) ch h

theorem digit_sub (ch : Char) (h : inClass false [.range '0' '9'] ch = true) :
    inClass false unicodeClass ch = true := by
  exact inClass_mono _ _ (by decide) ch h

theorem identifier_sub_unicode (w : List Char) (h : identifier.matches w = true) :
    unicode_string.matches w = true := by
  rw [RE.matches_iff, identifier_match] at h
  obtain ⟨c, v, rfl, hc, hv⟩ := h
  rw [unicode_string_iff]
  refine ⟨by simp, ?_⟩
  intro ch hch
  simp only [List.append_nil, List.mem_cons] at hch
  rcases hch with rfl | h
  · exact identStart_sub _ hc
  · exact identRest_sub _ (hv ch h)

theorem integer_sub_unicode (w : List Char) (h : integer.matches w = true) :
    unicode_string.matches w = true := by
  rw [RE.matches_iff] at h
  obtain ⟨c, v, rfl, hc, hv⟩ := (plus_cls_match _ _ _ _).1 h
  rw [unicode_string_iff]
  refine ⟨by simp, ?_⟩
  intro ch hch
  simp only [List.append_nil, List.mem_cons] at hch
  rcases hch with rfl | h
  · exact digit_sub _ hc
  · exact digit_sub _ (hv ch h)

theorem float_sub_unicode (w : List Char) (h : float.matches w = true) :
    unicode_string.matches w = true := by
  rw [RE.matches_iff] at h
  obtain ⟨m, h1, m2, h2, h3⟩ := h
  obtain ⟨c, v, rfl, hc, hv⟩ := (plus_cls_match _ _ _ _).1 h1
  rw [chr_match] at h2
  obtain ⟨c2, v2, rfl, hc2, hv2⟩ := (plus_cls_match _ _ _ _).1 h3
  subst h2
  rw [unicode_string_iff]
  refine ⟨by simp, ?_⟩
  intro ch hch
  simp only [List.append_nil, List.mem_cons, List.mem_append] at hch
  rcases hch with rfl | h | rfl | rfl | h
  · exact digit_sub _ hc
  · exact digit_sub _ (hv ch h)
  · decide
  · exact digit_sub _ hc2
  · exact digit_sub _ (hv2 ch h)

/-! ## The two comma-separated lists -/

theorem yieldRest_eq_commaRest (l : List BlockElement) :
    BlockElement.yieldRest l = commaRest BlockElement.yield l := by
  induction l with
  | nil => rfl
  | cons e rest ih => simp only [BlockElement.yieldRest, commaRest, ih]

theorem trailing_yield_eq {α : Type} (y : α → List Tok) (t : TrailingCommaSep1 α) :
    t.yield y = (CommaSep1.mk t.first t.rest).yield y ++
      (if t.trailing then [L ","] else []) := rfl

/-! ## Longest match and the quoted string of an include -/

/-- Under longest match no well-formed token or extra other than a content token is a
longer beginning of the remaining text than the token taken. -/
theorem longestScan_head (t : Tok) (post : List Tok) (h : longestScan (t :: post) = true)
    (u : Tok) (hwf : u.wf = true) (hc : u.isContent = false) (r : List Char)
    (hr : textOf (t :: post) = u.text ++ r) : u.text.length ≤ t.text.length := by
  simp only [longestScan, Bool.and_eq_true, List.all_eq_true, decide_eq_true_eq] at h
  have h2 := h.1.2 (u, r) (by rw [hr]; exact mem_nextTokens u r hwf hc)
  rw [hr, List.length_append] at h2
  simp only at h2
  omega

theorem longestScan_tail (t : Tok) (post : List Tok) (h : longestScan (t :: post) = true) :
    longestScan post = true := by
  simp only [longestScan, Bool.and_eq_true] at h
  exact h.2

/-- The double-quoted text `"c"` is a quote comment when `c` is an escaped body. -/
theorem quote_comment_wf (c : List Char) (hesc : escapedBody c = true) :
    (Tok.quote_comment (String.mk ('"' :: (c ++ ['"'])))).wf = true := by
  simp only [Tok.wf]
  rw [RE.matches_iff, quote_comment_match_iff]
  exact ⟨c, rfl, hesc⟩

/-- No file derives just `#[`, `]`, `;`: an include has a file. -/
theorem file_not_empty_include (f : File) : File.yield f ≠ [L "#[", L "]", L ";"] := by
  intro h
  obtain ⟨i, f2, -, h2⟩ := file_include_inv f _ h
  obtain ⟨file⟩ := i
  cases file with
  | string n => cases n <;> simp at h2
  | quoted_string q => simp at h2

/-- A longest-match scan of `#["c"];`, for an escaped body `c` without a double quote, is
not the scan of a parse: a parse needs the literal `"` after `#[`, where the quote
comment `"c"` is longer. -/
theorem include_not_longest (c : List Char) (hc : '"' ∉ c) (hesc : escapedBody c = true)
    (ts : List Tok) (f : File)
    (hscan : Scan ('#' :: '[' :: '"' :: (c ++ ['"', ']', ';'])) ts)
    (hl : longestScan ts = true) : significant ts ≠ File.yield f := by
  intro hsig
  obtain ⟨hwf, htext⟩ := hscan
  obtain ⟨ts2, i, f2, rfl, rfl, ht2, hs2⟩ := include_scan_start ts f _ hwf htext hsig
  have hwf2 : ∀ t ∈ ts2, t.wf = true := fun t ht => hwf t (by simp [ht])
  obtain ⟨q, hq, -, -⟩ := include_quoted_inv c hc ts2 i f2 hwf2 ht2 hs2
  have hnoq := include_no_quote_comment c hc ts2 i _ hwf2 ht2 hs2
  have hno : ∀ t ∈ ts2, t.isExtra = true → t.firstOk '"' = false := by
    intro t ht hx
    cases t with
    | whitespace w => simp only [Tok.firstOk]; decide
    | line_comment w => simp only [Tok.firstOk]; decide
    | quote_comment w => exact absurd ht (hnoq w)
    | lit s => simp [Tok.isExtra] at hx
    | identifier w => simp [Tok.isExtra] at hx
    | unicode_string w => simp [Tok.isExtra] at hx
    | integer w => simp [Tok.isExtra] at hx
    | float w => simp [Tok.isExtra] at hx
    | content w => simp [Tok.isExtra] at hx
    | dash_comment w => simp [Tok.isExtra] at hx
  rw [hq] at hs2
  simp only [IncludeFile.yield, QuotedString.yield, List.cons_append, List.nil_append] at hs2
  obtain ⟨ts3, rfl, -⟩ := scan_head ts2 _ _ _ _ hwf2 ht2 hno hs2
  have hl2 := longestScan_tail _ _ hl
  have hlen := longestScan_head _ _ hl2 _ (quote_comment_wf c hesc) rfl [']', ';']
    (by rw [ht2]; simp [Tok.text])
  simp [Tok.text] at hlen

/-! ## The claims -/

/-- C1. For all identifiers `a`, `b` the text `[a]::[b];` parses as a file of exactly one
statement, the pure form of `shape` whose left is the std gac word with gac string
`[Identifier a]` and whose right is the std gac word with gac string `[Identifier b]`;
this is the only file tree that derives the tokens `[`, `a`, `]`, `::`, `[`, `b`, `]`,
`;`; and for the witness `a`, `b` it is the only parse of the text. -/
theorem C1_shape_pure_parse (a b : String) (ha : (Tok.identifier a).wf = true)
    (hb : (Tok.identifier b).wf = true) :
    Parses (shapePureText a b) (shapePureFile a b) ∧
    (∀ f : File,
      File.yield f = wordToks (Tok.identifier a) ++ L "::" :: wordToks (Tok.identifier b) ++
        [L ";"] →
      f = shapePureFile a b) ∧
    (∀ f : File, Parses "[a]::[b];".toList f ↔ f = shapePureFile "a" "b") := by
  have hex : ∀ a b : String, (Tok.identifier a).wf = true → (Tok.identifier b).wf = true →
      Parses (shapePureText a b) (shapePureFile a b) := by
    intro a b ha hb
    refine ⟨[L "[", Tok.identifier a, L "]", L "::", L "[", Tok.identifier b, L "]", L ";"],
      ⟨?_, ?_⟩, ?_⟩
    · intro t ht
      simp only [List.mem_cons, List.mem_singleton, List.not_mem_nil, or_false] at ht
      rcases ht with rfl | rfl | rfl | rfl | rfl | rfl | rfl | rfl <;>
        first | exact ha | exact hb | decide
    · simp only [shapePureText, string_toList_append, textOf, Tok.text, List.append_assoc]
      rfl
    · simp [significant, Tok.isExtra, stdIdent, shapePureFile]
  refine ⟨hex a b ha hb, shapePure_unique a b, fun f => ⟨?_, ?_⟩⟩
  · apply unique_parse_of_scans _ (by decide)
      [wordToks (Tok.identifier "a") ++ L "::" :: wordToks (Tok.identifier "b") ++ [L ";"],
       wordToks (Tok.identifier "a") ++ L "::" :: wordToks (Tok.unicode_string "b") ++ [L ";"],
       wordToks (Tok.unicode_string "a") ++ L "::" :: wordToks (Tok.identifier "b") ++ [L ";"],
       wordToks (Tok.unicode_string "a") ++ L "::" :: wordToks (Tok.unicode_string "b") ++
         [L ";"]] (by decide)
    intro f hf
    simp only [List.mem_cons, List.mem_singleton, List.not_mem_nil, or_false] at hf
    rcases hf with h | h | h | h
    · exact shapePure_unique "a" "b" f h
    · exfalso
      cases f with
      | nil => simp [wordToks] at h
      | cons s rest =>
        cases s with
        | function_block fb =>
          simp only [File.yield, Statement.yield, List.append_assoc, wordToks, List.cons_append,
            List.nil_append] at h
          rcases functionBlock_inv_ident fb "a" .shape _ _ h with ⟨right, -, h2⟩ | ⟨bb, -, h2⟩
          · exact absurd (expression_open_stem right _ _ _ h2) (by decide)
          · simp at h2
        | dash_comment w => simp [wordToks] at h
        | empty => simp [wordToks] at h
    · exact absurd (file_open_stem f _ _ h) (by decide)
    · exact absurd (file_open_stem f _ _ h) (by decide)
  · rintro rfl
    exact hex "a" "b" (by decide) (by decide)

theorem C1_shape_pure_parse_witness :
    Parses "[a]::[b];".toList (shapePureFile "a" "b") ∧
    ∀ f : File,
      File.yield f = wordToks (Tok.identifier "a") ++ L "::" :: wordToks (Tok.identifier "b") ++
        [L ";"] →
      f = shapePureFile "a" "b" :=
  ⟨(C1_shape_pure_parse "a" "b" (by decide) (by decide)).1,
    (C1_shape_pure_parse "a" "b" (by decide) (by decide)).2.1⟩

/-- C2. For every non-empty list `es` of block elements, any relation kind and any left
expression, the block form with the elements separated by commas is derived both
without and with one trailing comma, each time by a block relation whose body has
exactly the elements `es` in order; every block body derives its elements separated by
commas, perhaps followed by one comma.  For all identifiers `x`, `y`, `z` the tokens of
`[x]->\x7b [y], [z], \x7d;` are derived by one file only, and the witness text parses as
that file and no other: one `shift` statement in block form whose body has exactly the
two elements `[y]` and `[z]`. -/
theorem C2_block_trailing_comma (k : RelKind) (l : Expression) (es : List BlockElement)
    (hes : es ≠ []) :
    (∃ b : BlockBody, b.elements = es ∧
      (blockRel k l (some b)).yield =
        l.yield ++ L k.op :: L "\x7b" :: commaSeparated es ++ [L "\x7d"]) ∧
    (∃ b : BlockBody, b.elements = es ∧
      (blockRel k l (some b)).yield =
        l.yield ++ L k.op :: L "\x7b" :: commaSeparated es ++ [L ",", L "\x7d"]) ∧
    (∀ b : BlockBody, b.elements ≠ [] ∧
      (b.yield = commaSeparated b.elements ∨ b.yield = commaSeparated b.elements ++ [L ","])) ∧
    (∀ (x y z : String) (f : File),
      File.yield f =
        shiftBlockToks (Tok.identifier x) (Tok.identifier y) (Tok.identifier z) →
      f = shiftBlockFile x y z) ∧
    (∀ f : File, Parses "[x]->\x7b [y], [z], \x7d;".toList f ↔ f = shiftBlockFile "x" "y" "z") ∧
    (∀ x y z : String, (shiftBlockFile x y z).map (fun s =>
      match s with
      | .function_block fb => (fb.hasBlock, BlockBody.elementsOpt fb.body)
      | _ => (false, [])) =
      [(true, [.expression (stdIdent y), .expression (stdIdent z)])]) := by
  refine ⟨?_, ?_, ?_, shiftBlock_unique, fun f => ⟨?_, ?_⟩, fun _ _ _ => rfl⟩
  · cases es with
    | nil => exact absurd rfl hes
    | cons e es =>
      refine ⟨.commaSep1 e es, rfl, ?_⟩
      simp [blockRel_yield, commaSeparated_cons]
  · cases es with
    | nil => exact absurd rfl hes
    | cons e es =>
      refine ⟨.trailingCommaSep1 e es true, rfl, ?_⟩
      simp [blockRel_yield, commaSeparated_cons]
  · intro b
    cases b with
    | commaSep1 e es =>
      exact ⟨by simp [BlockBody.elements],
        Or.inl (by simp [BlockBody.elements, commaSeparated_cons])⟩
    | trailingCommaSep1 e es tr =>
      refine ⟨by simp [BlockBody.elements], ?_⟩
      cases tr
      · exact Or.inl (by simp [BlockBody.elements, commaSeparated_cons])
      · exact Or.inr (by simp [BlockBody.elements, commaSeparated_cons])
  · apply unique_parse_of_scans _ (by decide)
      ([Tok.identifier, Tok.unicode_string].flatMap fun kx =>
        [Tok.identifier, Tok.unicode_string].flatMap fun ky =>
          [Tok.identifier, Tok.unicode_string].map fun kz =>
            shiftBlockToks (kx "x") (ky "y") (kz "z")) (by decide)
    intro f hf
    simp only [List.mem_flatMap, List.mem_map, List.mem_cons, List.mem_singleton,
      List.not_mem_nil, or_false] at hf
    obtain ⟨kx, hkx, ky, hky, kz, hkz, h⟩ := hf
    obtain ⟨h1, h2, h3⟩ := shiftBlock_no_unicode "x" "y" "z" f (kx "x") (ky "y") (kz "z")
      (by rcases hkx with rfl | rfl
          · exact Or.inl rfl
          · exact Or.inr rfl)
      (by rcases hky with rfl | rfl
          · exact Or.inl rfl
          · exact Or.inr rfl)
      (by rcases hkz with rfl | rfl
          · exact Or.inl rfl
          · exact Or.inr rfl) h.symm
    rw [h1, h2, h3] at h
    exact shiftBlock_unique "x" "y" "z" f h.symm
  · rintro rfl
    exact ⟨[L "[", Tok.identifier "x", L "]", L "->", L "\x7b", Tok.whitespace " ",
      L "[", Tok.identifier "y", L "]", L ",", Tok.whitespace " ",
      L "[", Tok.identifier "z", L "]", L ",", Tok.whitespace " ", L "\x7d", L ";"],
      ⟨by decide, by decide⟩, by decide⟩

theorem C2_block_trailing_comma_witness :
    [BlockElement.expression (stdIdent "y"), BlockElement.expression (stdIdent "z")] ≠ [] ∧
    ∃ b : BlockBody,
      b.elements = [BlockElement.expression (stdIdent "y"), BlockElement.expression (stdIdent "z")] ∧
      (blockRel .shift (stdIdent "x") (some b)).yield =
        (stdIdent "x").yield ++ L RelKind.shift.op :: L "\x7b" ::
          commaSeparated [BlockElement.expression (stdIdent "y"),
            BlockElement.expression (stdIdent "z")] ++ [L ",", L "\x7d"] :=
  ⟨by simp, (C2_block_trailing_comma .shift (stdIdent "x")
    [BlockElement.expression (stdIdent "y"), BlockElement.expression (stdIdent "z")]
    (by simp)).2.1⟩

/-- C3 as stated fails for a scanner that takes the longest token: in `#["foo.fgfh"];`
the quote comment `"foo.fgfh"` (10 characters) is longer than the literal `"` at the
same place, the longest-match scan is `#[`, quote comment, `]`, `;`, whose tokens outside
`extras` no file derives, and no longest-match scan of the text is the scan of a
parse. -/
theorem C3_include_quoted_string_counterexample :
    LongestMatch "#[\"foo.fgfh\"];".toList
      [L "#[", Tok.quote_comment "\"foo.fgfh\"", L "]", L ";"] ∧
    significant [L "#[", Tok.quote_comment "\"foo.fgfh\"", L "]", L ";"] =
      [L "#[", L "]", L ";"] ∧
    (∀ f : File, File.yield f ≠ [L "#[", L "]", L ";"]) ∧
    longestScan [L "#[", L "\"", Tok.content "foo.fgfh", L "\"", L "]", L ";"] = false ∧
    (∀ (ts : List Tok) (f : File), LongestMatch "#[\"foo.fgfh\"];".toList ts →
      significant ts ≠ File.yield f) := by
  refine ⟨⟨⟨by decide, by decide⟩, by decide⟩, by decide, file_not_empty_include, by decide,
    ?_⟩
  rintro ts f ⟨hscan, hl⟩
  exact include_not_longest "foo.fgfh".toList (by decide) (by decide) ts f hscan hl

/-- C3. For every text `c` without a double quote, the tokens `#[`, `"`, content `c`,
`"`, `]`, `;` cut `#["c"];` and derive the file of one include statement whose include
file is the quoted string with content `c`.  In no scan of this text that parses as a
file is the double-quoted text (or anything else) a quote comment, and every such file
is one include statement of a quoted string; when `c` has only plain characters (no
white space, no `/`), as `foo.fgfh` has, the content is `c` in every parse.  But when
`c` is an escaped body, as `foo.fgfh` is, the double-quoted text is a match of
`quote_comment`, and no longest-match scan of the text is the scan of a parse: a
scanner that takes the longest token reads the double-quoted text as a quote comment. -/
theorem C3_include_quoted_string (c : String) (hc : '"' ∉ c.toList) :
    Parses (includeText c) [Statement.function_block (.include ⟨.quoted_string ⟨c⟩⟩)] ∧
    (∀ (ts : List Tok) (f : File), Scan (includeText c) ts → significant ts = File.yield f →
      (∀ w, Tok.quote_comment w ∉ ts) ∧
      ∃ q, f = [Statement.function_block (.include ⟨.quoted_string q⟩)]) ∧
    ((∀ ch ∈ c.toList, plainChar ch = true) → ∀ f : File, Parses (includeText c) f →
      f = [Statement.function_block (.include ⟨.quoted_string ⟨c⟩⟩)]) ∧
    (escapedBody c.toList = true →
      (Tok.quote_comment (String.mk ('"' :: (c.toList ++ ['"'])))).wf = true ∧
      ∀ (ts : List Tok) (f : File), LongestMatch (includeText c) ts →
        significant ts ≠ File.yield f) := by
  have key : ∀ (ts : List Tok) (f : File), Scan (includeText c) ts →
      significant ts = File.yield f →
      (∀ w, Tok.quote_comment w ∉ ts) ∧
      ∃ q, f = [Statement.function_block (.include ⟨.quoted_string q⟩)] ∧
        ((∀ ch ∈ c.toList, plainChar ch = true) → q.content.toList = c.toList) := by
    rintro ts f ⟨hwf, htext⟩ hsig
    rw [includeText_eq] at htext
    obtain ⟨ts2, i, f2, rfl, rfl, ht2, hs2⟩ := include_scan_start ts f _ hwf htext hsig
    have hwf2 : ∀ t ∈ ts2, t.wf = true := fun t ht => hwf t (by simp [ht])
    obtain ⟨q, hq, rfl, hcontent⟩ := include_quoted_inv c.toList hc ts2 i f2 hwf2 ht2 hs2
    refine ⟨?_, q, ?_, hcontent⟩
    · intro w hmem
      simp only [List.mem_cons] at hmem
      rcases hmem with h | h
      · cases h
      · exact include_no_quote_comment c.toList hc ts2 i _ hwf2 ht2 hs2 w h
    · obtain ⟨file⟩ := i
      simp only at hq
      rw [hq]
  refine ⟨?_, ?_, ?_, ?_⟩
  · refine ⟨[L "#[", L "\"", Tok.content c, L "\"", L "]", L ";"], ⟨?_, ?_⟩, ?_⟩
    · intro t ht
      simp only [List.mem_cons, List.mem_singleton, List.not_mem_nil, or_false] at ht
      rcases ht with rfl | rfl | rfl | rfl | rfl | rfl
      · decide
      · decide
      · exact quotedContent_matches _ hc
      · decide
      · decide
      · decide
    · rw [includeText_eq]
      simp [textOf, Tok.text]
    · simp [significant, Tok.isExtra]
  · intro ts f hscan hsig
    obtain ⟨h1, q, h2, -⟩ := key ts f hscan hsig
    exact ⟨h1, q, h2⟩
  · rintro hplain f ⟨ts, hscan, hsig⟩
    obtain ⟨-, q, rfl, h3⟩ := key ts f hscan hsig
    have : q.content = c := String.ext (h3 hplain)
    obtain ⟨qc⟩ := q
    simp only at this
    rw [this]
  · intro hesc
    refine ⟨quote_comment_wf _ hesc, ?_⟩
    rintro ts f ⟨hscan, hl⟩
    rw [includeText_eq] at hscan
    exact include_not_longest c.toList hc hesc ts f hscan hl

theorem C3_include_quoted_string_witness :
    Parses "#[\"foo.fgfh\"];".toList
      [Statement.function_block (.include ⟨.quoted_string ⟨"foo.fgfh"⟩⟩)] ∧
    (∀ (ts : List Tok) (f : File), Scan "#[\"foo.fgfh\"];".toList ts →
      significant ts = File.yield f →
      (∀ w, Tok.quote_comment w ∉ ts) ∧
      ∃ q, f = [Statement.function_block (.include ⟨.quoted_string q⟩)]) ∧
    (∀ f : File, Parses "#[\"foo.fgfh\"];".toList f →
      f = [Statement.function_block (.include ⟨.quoted_string ⟨"foo.fgfh"⟩⟩)]) ∧
    (∀ (ts : List Tok) (f : File), LongestMatch "#[\"foo.fgfh\"];".toList ts →
      significant ts ≠ File.yield f) :=
  ⟨(C3_include_quoted_string "foo.fgfh" (by decide)).1,
    (C3_include_quoted_string "foo.fgfh" (by decide)).2.1,
    (C3_include_quoted_string "foo.fgfh" (by decide)).2.2.1 (by decide),
    ((C3_include_quoted_string "foo.fgfh" (by decide)).2.2.2 (by decide)).2⟩

/-- C4 as stated fails: the gac word text `a=-b` also has the reading Identifier `a`,
Operator `=`, Suffix(`-`, `b`): the gac string with these three stems derives the same
tokens as Prefix(`a`, `=`), Suffix(`-`, `b`), and `[a=-b]::[c];` parses with it. -/
theorem C4_prefix_conflict_counterexample :
    (operatorReading "a" "b").yield = [Tok.identifier "a", L "=", L "-", Tok.identifier "b"] ∧
    (operatorReading "a" "b").stems =
      [.identifier "a", .operator .equals, .gac_suffix (.minus "b")] ∧
    Parses "[a=-b]::[c];".toList (conflictFile (operatorReading "a" "b") "c") := by
  refine ⟨by simp [operatorReading], rfl, ?_⟩
  exact ⟨[L "[", Tok.identifier "a", L "=", L "-", Tok.identifier "b", L "]", L "::", L "[",
    Tok.identifier "c", L "]", L ";"], ⟨by decide, by decide⟩, by decide⟩

/-- C4, amended. For all identifiers `a`, `b` the gac-string tokens `a`, `=`, `-`, `b` have
exactly two derivations: the two stems Prefix(`a`, `=`), Suffix(`-`, `b`), and the three
stems Identifier `a`, Operator `=`, Suffix(`-`, `b`); so no derivation has four stems.
The text `[a=-b]::[c];` has exactly the two parses with these two gac strings. -/
theorem C4_prefix_conflict (a b : String) (g : GacString) :
    (g.yield = [Tok.identifier a, L "=", L "-", Tok.identifier b] ↔
      g = prefixReading a b ∨ g = operatorReading a b) ∧
    (g.yield = [Tok.identifier a, L "=", L "-", Tok.identifier b] → g.stems.length ≤ 3) ∧
    (∀ f : File, Parses "[a=-b]::[c];".toList f ↔
      f = conflictFile (prefixReading "a" "b") "c" ∨
      f = conflictFile (operatorReading "a" "b") "c") := by
  have key : g.yield = [Tok.identifier a, L "=", L "-", Tok.identifier b] →
      g = prefixReading a b ∨ g = operatorReading a b := by
    intro h
    have h2 : g.yield ++ L "]" :: [] =
        Tok.identifier a :: L "=" :: L "-" :: (Tok.identifier b :: L "]" :: []) := by
      rw [h]; rfl
    obtain ⟨b2, hb, hg, -⟩ := (gacString_conflict_inv g a _ _ _ h2).2 _ _ rfl rfl
    obtain rfl : b = b2 := by simpa using hb
    exact hg
  refine ⟨⟨key, ?_⟩, ?_, fun f => ⟨?_, ?_⟩⟩
  · rintro (rfl | rfl) <;> simp [prefixReading, operatorReading]
  · intro h
    rcases key h with rfl | rfl <;> simp [GacString.stems, prefixReading, operatorReading]
  · apply parses_property_of_scans _ (by decide)
      ([Tok.identifier "a", Tok.unicode_string "a"].flatMap fun ta =>
        [[L "-", Tok.identifier "b"], [L "-", Tok.unicode_string "b"],
          [Tok.unicode_string "-", Tok.identifier "b"],
          [Tok.unicode_string "-", Tok.unicode_string "b"],
          [Tok.unicode_string "-b"]].flatMap fun m =>
          [Tok.identifier "c", Tok.unicode_string "c"].map fun tc => conflictToks ta m tc)
      (by decide)
    intro f hf
    simp only [List.mem_flatMap, List.mem_map, List.mem_cons, List.mem_singleton,
      List.not_mem_nil, or_false] at hf
    obtain ⟨ta, hta, m, hm, tc, htc, h⟩ := hf
    rcases hta with rfl | rfl
    swap
    · exact absurd (file_open_stem f _ _ h.symm) (by decide)
    have htc2 : (∃ c, tc = Tok.identifier c) ∨ stemStart tc = false := by
      rcases htc with rfl | rfl
      · exact Or.inl ⟨"c", rfl⟩
      · exact Or.inr rfl
    rcases hm with rfl | rfl | rfl | rfl | rfl
    · obtain ⟨b2, c2, -, hb, hc, hfile⟩ := conflict_file_inv f "a" _ _ tc
        (Or.inl ⟨rfl, _, rfl⟩) htc2 h.symm
      obtain rfl : "b" = b2 := by simpa using hb
      rcases htc with rfl | rfl
      · obtain rfl : "c" = c2 := by simpa using hc
        exact hfile
      · exact absurd hc (by simp)
    · obtain ⟨b2, c2, -, hb, -, -⟩ := conflict_file_inv f "a" _ _ tc
        (Or.inl ⟨rfl, _, rfl⟩) htc2 h.symm
      exact absurd hb (by simp)
    · obtain ⟨b2, c2, h1, -, -, -⟩ := conflict_file_inv f "a" (Tok.unicode_string "-")
        [Tok.identifier "b"] tc (Or.inr ⟨rfl, by decide⟩) htc2 h.symm
      exact absurd h1 (by decide)
    · obtain ⟨b2, c2, h1, -, -, -⟩ := conflict_file_inv f "a" (Tok.unicode_string "-")
        [Tok.unicode_string "b"] tc (Or.inr ⟨rfl, by decide⟩) htc2 h.symm
      exact absurd h1 (by decide)
    · obtain ⟨b2, c2, h1, -, -, -⟩ := conflict_file_inv f "a" (Tok.unicode_string "-b")
        [] tc (Or.inr ⟨rfl, by decide⟩) htc2 h.symm
      exact absurd h1 (by decide)
  · rintro (rfl | rfl) <;>
      exact ⟨[L "[", Tok.identifier "a", L "=", L "-", Tok.identifier "b", L "]", L "::",
        L "[", Tok.identifier "c", L "]", L ";"], ⟨by decide, by decide⟩, by decide⟩

/-- C5. At most one prefix of a text is a `dash_comment` lexeme (all matches leave the
same remainder); when the text is `----`, a body `b`, `----` and a rest `t`, and these
four dashes are the first ones that stand at offset 4 or later, the lexeme ends right
after them, leaving `t`.  On `---- a ---- b ----` the lexeme is `---- a ----` and leaves
` b ----`; on `---- a -- b ----` the lexeme is the whole text. -/
theorem C5_dash_comment_first_close :
    (∀ s t1 t2 : List Char, t1 ∈ dash_comment.run s → t2 ∈ dash_comment.run s → t1 = t2) ∧
    (∀ b t : List Char,
      (∀ p q, b ++ dashes4 ++ t = p ++ dashes4 ++ q → b.length ≤ p.length) →
      t ∈ dash_comment.run (dashes4 ++ b ++ dashes4 ++ t)) ∧
    (" b ----".toList ∈ dash_comment.run "---- a ---- b ----".toList ∧
      "---- a ---- b ----".toList = "---- a ----".toList ++ " b ----".toList) ∧
    ([] ∈ dash_comment.run "---- a -- b ----".toList) := by
  refine ⟨?_, ?_, ⟨by decide, by decide⟩, by decide⟩
  · intro s t1 t2 h1 h2
    obtain ⟨u1, hs1, hu1⟩ := (dash_comment_run_iff s t1).1 h1
    obtain ⟨u2, hs2, hu2⟩ := (dash_comment_run_iff s t2).1 h2
    have : u1 = u2 := by
      rw [hs1] at hs2
      exact List.append_cancel_left hs2
    subst this
    rw [hu1] at hu2
    exact Option.some.inj hu2
  · intro b t h
    rw [dash_comment_run_iff]
    exact ⟨b ++ dashes4 ++ t, by simp, (scanClose_iff _ _).2 ⟨b, rfl, noClose_of_first b t h⟩⟩

theorem C5_dash_comment_first_close_witness :
    " b ----".toList ∈ dash_comment.run (dashes4 ++ " a ".toList ++ dashes4 ++ " b ----".toList) :=
  C5_dash_comment_first_close.2.1 " a ".toList " b ----".toList (by
    intro p q h
    rcases p with _ | ⟨c1, _ | ⟨c2, _ | ⟨c3, p⟩⟩⟩
    · exact absurd h (by simp [dashes4])
    · exact absurd h (by simp [dashes4])
    · exact absurd h (by simp [dashes4])
    · simp)

/-- C6 as stated fails: `----a-----` is `----`, the body `a-`, `----`, and the only run
of dashes of the body has length 1, but the token does not match it; so matching is not
the same as having a body without four consecutive dashes. -/
theorem C6_dash_body_counterexample :
    ¬ (∀ w : List Char, dash_comment.matches w = true ↔
        ∃ body, w = dashes4 ++ body ++ dashes4 ∧ ¬ dashes4 <:+: body) := by
  intro h
  have h1 : dash_comment.matches "----a-----".toList = true :=
    (h _).2 ⟨"a-".toList, by decide, by decide⟩
  exact absurd h1 (by decide)

/-- C6, amended. A string is matched by the `dash_comment` token exactly when it is
`----`, a body, `----`, where the body has no four consecutive dashes (every run of
dashes in it has length 1, 2 or 3; the body may be empty or free of dashes) and does not
end with a dash. -/
theorem C6_dash_body_runs (w : List Char) :
    dash_comment.matches w = true ↔
      ∃ body, w = dashes4 ++ body ++ dashes4 ∧ ¬ dashes4 <:+: body ∧
        body.getLast? ≠ some '-' := by
  rw [RE.matches_iff, dash_comment_match_iff]
  constructor
  · rintro ⟨u, rfl, hu⟩
    obtain ⟨b, rfl, hb⟩ := (scanClose_iff _ _).1 hu
    exact ⟨b, by simp, (noClose_iff b).1 hb⟩
  · rintro ⟨b, rfl, hb⟩
    exact ⟨b ++ dashes4, by simp, (scanClose_iff _ _).2 ⟨b, by simp, (noClose_iff b).2 hb⟩⟩

/-- C7 as stated fails: in `---- a ----- b` the first run of four or more dashes after
the opening has length five, and the token `---- a ----` ends inside it, leaving `- b`. -/
theorem C7_dash_long_run_counterexample :
    "---- a ----- b".toList = dashes4 ++ " a ".toList ++ List.replicate 5 '-' ++ " b".toList ∧
    "---- a ----- b".toList = "---- a ----".toList ++ "- b".toList ∧
    "- b".toList ∈ dash_comment.run "---- a ----- b".toList := by
  decide

/-- C7, amended. A dash comment is closed by the first four consecutive dashes after the
opening, also when they begin a longer run: when the body `b` has no four consecutive
dashes and does not end with a dash, on `----`, `b`, a run of `4 + n` dashes and a rest
`t` the token ends after the fourth dash of the run, leaving the other `n` dashes and
`t`, and nowhere else. -/
theorem C7_dash_long_run (b t : List Char) (n : Nat) (h1 : ¬ dashes4 <:+: b)
    (h2 : b.getLast? ≠ some '-') :
    List.replicate n '-' ++ t ∈
      dash_comment.run (dashes4 ++ b ++ List.replicate (4 + n) '-' ++ t) ∧
    ∀ r ∈ dash_comment.run (dashes4 ++ b ++ List.replicate (4 + n) '-' ++ t),
      r = List.replicate n '-' ++ t := by
  have e : dashes4 ++ b ++ List.replicate (4 + n) '-' ++ t =
      dashes4 ++ (b ++ dashes4 ++ (List.replicate n '-' ++ t)) := by
    rw [List.replicate_add]
    simp [dashes4]
  have hmem : List.replicate n '-' ++ t ∈
      dash_comment.run (dashes4 ++ b ++ List.replicate (4 + n) '-' ++ t) := by
    rw [e, dash_comment_run_iff]
    exact ⟨_, rfl, (scanClose_iff _ _).2 ⟨b, rfl, (noClose_iff b).2 ⟨h1, h2⟩⟩⟩
  refine ⟨hmem, fun r hr => ?_⟩
  obtain ⟨u1, hs1, hu1⟩ := (dash_comment_run_iff _ _).1 hr
  obtain ⟨u2, hs2, hu2⟩ := (dash_comment_run_iff _ _).1 hmem
  have : u1 = u2 := by
    rw [hs1] at hs2
    exact List.append_cancel_left hs2
  subst this
  rw [hu1] at hu2
  exact Option.some.inj hu2

theorem C7_dash_long_run_witness :
    "- b".toList ∈ dash_comment.run "---- a ----- b".toList ∧
    ∀ r ∈ dash_comment.run "---- a ----- b".toList, r = "- b".toList :=
  C7_dash_long_run " a ".toList " b".toList 1 (by decide) (by decide)

/-- C8. Every relation node (`shape`, `hold`, `shift`, `flow`, `melt`) has exactly one
left expression and is either the pure form, with one right expression and no block, or
the block form, with the braces and no right expression; never both, never neither.  Its
tokens are the left expression, the operator, and then the right expression or the
braces around the optional body.  For every identifier `a` the tokens of `[a]::\x7b\x7d;`
are derived only by the block form of `shape` with no body, which has the braces and
zero elements, and the text `[a]::\x7b\x7d;` parses as that file and no other (so as no
pure form). -/
theorem C8_relation_pure_or_block :
    (∀ fb : FunctionBlock, fb.isRelation = true →
      fb.lefts.length = 1 ∧
      ((fb.rights.length = 1 ∧ fb.hasBlock = false ∧ fb.body = none) ∨
        (fb.rights = [] ∧ fb.hasBlock = true)) ∧
      ∃ k l, fb.lefts = [l] ∧
        ((∃ r, fb = pureRel k l r ∧ fb.rights = [r] ∧
            fb.yield = l.yield ++ L k.op :: r.yield) ∨
          (fb = blockRel k l fb.body ∧
            fb.yield = l.yield ++ L k.op :: L "\x7b" :: BlockBody.yieldOpt fb.body ++
              [L "\x7d"]))) ∧
    (∀ a : String,
      (FunctionBlock.shape (.shape_block (stdIdent a) none)).hasBlock = true ∧
      BlockBody.elementsOpt (FunctionBlock.shape (.shape_block (stdIdent a) none)).body = [] ∧
      ∀ f : File,
        File.yield f = wordToks (Tok.identifier a) ++ [L "::", L "\x7b", L "\x7d", L ";"] →
        f = [Statement.function_block (.shape (.shape_block (stdIdent a) none))]) ∧
    (∀ f : File, Parses "[a]::\x7b\x7d;".toList f ↔
      f = [Statement.function_block (.shape (.shape_block (stdIdent "a") none))]) := by
  have huniq : ∀ (a : String) (f : File),
      File.yield f = wordToks (Tok.identifier a) ++ [L "::", L "\x7b", L "\x7d", L ";"] →
      f = [Statement.function_block (.shape (.shape_block (stdIdent a) none))] := by
    intro a f h
    obtain ⟨b, f2, rfl, h2⟩ := file_block_inv f a .shape _ h
    obtain ⟨rfl, h3⟩ := yieldOpt_close_inv b _ _ h2
    simp only [List.cons.injEq, true_and] at h3
    rw [file_yield_eq_nil f2 h3]
    rfl
  refine ⟨?_, fun a => ⟨rfl, rfl, huniq a⟩, fun f => ⟨?_, ?_⟩⟩
  · intro fb hrel
    rcases functionBlock_forms fb with ⟨i, rfl⟩ | ⟨k, l, r, rfl⟩ | ⟨k, l, b, rfl⟩
    · simp [FunctionBlock.isRelation] at hrel
    · refine ⟨by cases k <;> rfl, Or.inl (by cases k <;> exact ⟨rfl, rfl, rfl⟩), k, l,
        by cases k <;> rfl, Or.inl ⟨r, rfl, by cases k <;> rfl, pureRel_yield k l r⟩⟩
    · refine ⟨by cases k <;> rfl, Or.inr (by cases k <;> exact ⟨rfl, rfl⟩), k, l,
        by cases k <;> rfl, Or.inr ⟨by cases k <;> rfl, ?_⟩⟩
      have hb : (blockRel k l b).body = b := by cases k <;> rfl
      rw [hb]
      exact blockRel_yield k l b
  · apply unique_parse_of_scans _ (by decide)
      [wordToks (Tok.identifier "a") ++ [L "::", L "\x7b", L "\x7d", L ";"],
       wordToks (Tok.unicode_string "a") ++ [L "::", L "\x7b", L "\x7d", L ";"]] (by decide)
    intro f hf
    simp only [List.mem_cons, List.mem_singleton, List.not_mem_nil, or_false] at hf
    rcases hf with h | h
    · exact huniq "a" f h
    · exact absurd (file_open_stem f _ _ h) (by decide)
  · rintro rfl
    exact ⟨[L "[", Tok.identifier "a", L "]", L "::", L "\x7b", L "\x7d", L ";"],
      ⟨by decide, by decide⟩, by decide⟩

theorem C8_relation_pure_or_block_witness :
    (FunctionBlock.shape (.shape_block (stdIdent "a") none)).lefts.length = 1 ∧
    (FunctionBlock.shape (.shape_block (stdIdent "a") none)).rights = [] :=
  ⟨(C8_relation_pure_or_block.1 (.shape (.shape_block (stdIdent "a") none)) rfl).1, rfl⟩

/-- C9. Every gac string has at least one stem and derives at least one token.  Hence no
std gac word, proto gac word or nested stem derives tokens that begin with its opening
bracket followed at once by `]`; no file derives tokens that begin `[`, `]`, or
`[`, one token, `]`, `::`, `*[`, `]`, or `[`, `[`, `]`; and the texts `[]::[b];`,
`[a]::*[];` and `[[]]::[b];` are not valid files. -/
theorem C9_gac_string_nonempty :
    (∀ g : GacString, 1 ≤ g.stems.length ∧ g.yield ≠ []) ∧
    (∀ (w : StdGacWord) (x : List Tok), w.yield ≠ L "[" :: L "]" :: x) ∧
    (∀ (w : ProtoGacWord) (x : List Tok), w.yield ≠ L "*[" :: L "]" :: x) ∧
    (∀ (c : GacString) (x : List Tok), (GacStem.gac_nested c).yield ≠ L "[" :: L "]" :: x) ∧
    (∀ (f : File) (x : List Tok), File.yield f ≠ L "[" :: L "]" :: x) ∧
    (∀ (f : File) (tx : Tok) (x : List Tok),
      File.yield f ≠ wordToks tx ++ L "::" :: L "*[" :: L "]" :: x) ∧
    (∀ (f : File) (x : List Tok), File.yield f ≠ L "[" :: L "[" :: L "]" :: x) ∧
    ¬ ValidFile "[]::[b];".toList ∧
    ¬ ValidFile "[a]::*[];".toList ∧
    ¬ ValidFile "[[]]::[b];".toList := by
  refine ⟨?_, ?_, ?_, ?_, file_not_open_close, fun f tx x => (file_not_empty_proto f tx x).1,
    file_not_open_open_close, ?_, ?_, ?_⟩
  · intro g
    obtain ⟨t, x, h, -⟩ := gacString_yield_head g
    obtain ⟨first, rest⟩ := g
    exact ⟨by simp [GacString.stems], by rw [h]; exact List.cons_ne_nil _ _⟩
  · intro w x h
    simp only [StdGacWord.yield, List.cons_append, List.cons.injEq, true_and] at h
    exact gacString_yield_ne_close _ _ _ h
  · intro w x h
    simp only [ProtoGacWord.yield, List.cons_append, List.cons.injEq, true_and] at h
    exact gacString_yield_ne_close _ _ _ h
  · intro c x h
    simp only [GacStem.yield, List.cons_append, List.cons.injEq, true_and] at h
    exact gacString_yield_ne_close _ _ _ h
  · apply not_valid_of_scans _ (by decide) (matchPat [some (L "["), some (L "]")]) (by decide)
    intro f
    apply not_matchPat
    intro h
    simp only [matchPat_some, matchPat_none, matchPat_nil] at h
    obtain ⟨l1, h1, l2, rfl, -⟩ := h
    exact file_not_open_close f _ h1
  · apply not_valid_of_scans _ (by decide)
      (fun ts =>
        matchPat [some (L "["), none, some (L "]"), some (L "::"), some (L "*["),
          some (L "]")] ts ||
        matchPat [some (L "["), none, some (L "]"), some (L "::"), some (L "*")] ts)
      (by decide)
    intro f
    simp only [Bool.or_eq_false_iff]
    constructor
    · apply not_matchPat
      intro h
      simp only [matchPat_some, matchPat_none, matchPat_nil] at h
      obtain ⟨l1, h1, tx, l2, rfl, l3, rfl, l4, rfl, l5, rfl, l6, rfl, -⟩ := h
      exact (file_not_empty_proto f tx _).1 h1
    · apply not_matchPat
      intro h
      simp only [matchPat_some, matchPat_none, matchPat_nil] at h
      obtain ⟨l1, h1, tx, l2, rfl, l3, rfl, l4, rfl, l5, rfl, -⟩ := h
      exact (file_not_empty_proto f tx _).2 h1
  · apply not_valid_of_scans _ (by decide)
      (matchPat [some (L "["), some (L "["), some (L "]")]) (by decide)
    intro f
    apply not_matchPat
    intro h
    simp only [matchPat_some, matchPat_none, matchPat_nil] at h
    obtain ⟨l1, h1, l2, rfl, l3, rfl, -⟩ := h
    exact file_not_open_open_close f _ h1

/-- C10. What stands between the block braces is nothing, or a non-empty list of block
elements with exactly one comma between consecutive elements and nothing or one comma
after the last.  No file derives tokens that begin as `[x]->\x7b ,` or as
`[x]->\x7b [y],,` or as `[x]->\x7b [y] [` (whatever the single tokens in the words and
whatever follows), and the texts `[x]->\x7b , \x7d;`, `[x]->\x7b [y],, \x7d;`,
`[x]->\x7b [y],,[z] \x7d;` and `[x]->\x7b [y] [z] \x7d;` are not valid files, while
`[x]->\x7b\x7d;` parses, only as the block form of `shift` with no body. -/
theorem C10_block_separators :
    (∀ b : Option BlockBody,
      (b = none ∧ BlockBody.yieldOpt b = []) ∨
      (BlockBody.elementsOpt b ≠ [] ∧
        (BlockBody.yieldOpt b = commaSeparated (BlockBody.elementsOpt b) ∨
          BlockBody.yieldOpt b = commaSeparated (BlockBody.elementsOpt b) ++ [L ","]))) ∧
    (∀ (f : File) (tx : Tok) (rest : List Tok),
      File.yield f ≠ wordToks tx ++ L "->" :: L "\x7b" :: L "," :: rest) ∧
    (∀ (f : File) (tx ty : Tok) (rest : List Tok),
      File.yield f ≠ wordToks tx ++ L "->" :: L "\x7b" :: wordToks ty ++ L "," :: L "," :: rest) ∧
    (∀ (f : File) (tx ty : Tok) (rest : List Tok),
      File.yield f ≠ wordToks tx ++ L "->" :: L "\x7b" :: wordToks ty ++ L "[" :: rest) ∧
    ¬ ValidFile "[x]->\x7b , \x7d;".toList ∧
    ¬ ValidFile "[x]->\x7b [y],, \x7d;".toList ∧
    ¬ ValidFile "[x]->\x7b [y],,[z] \x7d;".toList ∧
    ¬ ValidFile "[x]->\x7b [y] [z] \x7d;".toList ∧
    (∀ f : File, Parses "[x]->\x7b\x7d;".toList f ↔
      f = [Statement.function_block (.shift (.shift_block (stdIdent "x") none))]) := by
  refine ⟨?_, file_not_block_comma, file_not_block_double_comma, file_not_block_no_comma,
    ?_, ?_, ?_, ?_, ?_⟩
  · intro b
    cases b with
    | none => exact Or.inl ⟨rfl, rfl⟩
    | some body =>
      refine Or.inr ?_
      cases body with
      | commaSep1 e es =>
        exact ⟨by simp [BlockBody.elementsOpt, BlockBody.elements],
          Or.inl (by simp [BlockBody.elementsOpt, BlockBody.elements, commaSeparated_cons])⟩
      | trailingCommaSep1 e es tr =>
        refine ⟨by simp [BlockBody.elementsOpt, BlockBody.elements], ?_⟩
        cases tr
        · exact Or.inl (by simp [BlockBody.elementsOpt, BlockBody.elements, commaSeparated_cons])
        · exact Or.inr (by simp [BlockBody.elementsOpt, BlockBody.elements, commaSeparated_cons])
  · apply not_valid_of_scans _ (by decide)
      (matchPat [some (L "["), none, some (L "]"), some (L "->"), some (L "\x7b"),
        some (L ",")]) (by decide)
    intro f
    apply not_matchPat
    intro h
    simp only [matchPat_some, matchPat_none, matchPat_nil] at h
    obtain ⟨l1, h1, tx, l2, rfl, l3, rfl, l4, rfl, l5, rfl, l6, rfl, -⟩ := h
    exact file_not_block_comma f tx _ h1
  · apply not_valid_of_scans _ (by decide)
      (matchPat [some (L "["), none, some (L "]"), some (L "->"), some (L "\x7b"),
        some (L "["), none, some (L "]"), some (L ","), some (L ",")]) (by decide)
    intro f
    apply not_matchPat
    intro h
    simp only [matchPat_some, matchPat_none, matchPat_nil] at h
    obtain ⟨l1, h1, tx, l2, rfl, l3, rfl, l4, rfl, l5, rfl, l6, rfl, ty, l7, rfl, l8, rfl,
      l9, rfl, l10, rfl, -⟩ := h
    exact file_not_block_double_comma f tx ty _ h1
  · apply not_valid_of_scans _ (by decide)
      (matchPat [some (L "["), none, some (L "]"), some (L "->"), some (L "\x7b"),
        some (L "["), none, some (L "]"), some (L ","), some (L ",")]) (by decide)
    intro f
    apply not_matchPat
    intro h
    simp only [matchPat_some, matchPat_none, matchPat_nil] at h
    obtain ⟨l1, h1, tx, l2, rfl, l3, rfl, l4, rfl, l5, rfl, l6, rfl, ty, l7, rfl, l8, rfl,
      l9, rfl, l10, rfl, -⟩ := h
    exact file_not_block_double_comma f tx ty _ h1
  · apply not_valid_of_scans _ (by decide)
      (matchPat [some (L "["), none, some (L "]"), some (L "->"), some (L "\x7b"),
        some (L "["), none, some (L "]"), some (L "[")]) (by decide)
    intro f
    apply not_matchPat
    intro h
    simp only [matchPat_some, matchPat_none, matchPat_nil] at h
    obtain ⟨l1, h1, tx, l2, rfl, l3, rfl, l4, rfl, l5, rfl, l6, rfl, ty, l7, rfl, l8, rfl,
      l9, rfl, -⟩ := h
    exact file_not_block_no_comma f tx ty _ h1
  · intro f
    constructor
    · apply unique_parse_of_scans _ (by decide)
        [wordToks (Tok.identifier "x") ++ [L "->", L "\x7b", L "\x7d", L ";"],
         wordToks (Tok.unicode_string "x") ++ [L "->", L "\x7b", L "\x7d", L ";"]] (by decide)
      intro f hf
      simp only [List.mem_cons, List.mem_singleton, List.not_mem_nil, or_false] at hf
      rcases hf with h | h
      · obtain ⟨b, f2, rfl, h2⟩ := file_block_inv f "x" .shift _ h
        obtain ⟨rfl, h3⟩ := yieldOpt_close_inv b _ _ h2
        simp only [List.cons.injEq, true_and] at h3
        rw [file_yield_eq_nil f2 h3]
        rfl
      · exact absurd (file_open_stem f _ _ h) (by decide)
    · rintro rfl
      exact ⟨[L "[", Tok.identifier "x", L "]", L "->", L "\x7b", L "\x7d", L ";"],
        ⟨by decide, by decide⟩, by decide⟩

/-- C11. Quoted content has no unescaped delimiter.  A text is matched by `quote_comment`
exactly when it is a double quote, an escaped body and a double quote, and every double
quote of an escaped body directly follows a backslash that begins an escape (the text
before that backslash and the text after the quote are escaped bodies themselves).  The
content pattern of `quoted_string` matches exactly the texts without a double quote.  No
match of `identifier` or `unicode_string`, the two alternatives of the description of a
`type_desc`, contains a single quote.  The same holds for the tokens of every scan and
for the trees whose tokens are well formed. -/
theorem C11_no_unescaped_delimiter :
    (∀ w : List Char, quote_comment.matches w = true ↔
      ∃ body, w = '"' :: (body ++ ['"']) ∧ escapedBody body = true) ∧
    (∀ p q : List Char, escapedBody (p ++ '"' :: q) = true →
      ∃ p2, p = p2 ++ ['\\'] ∧ escapedBody p2 = true ∧ escapedBody q = true) ∧
    (∀ w : List Char, quotedContent.matches w = true ↔ '"' ∉ w) ∧
    (∀ w : List Char, identifier.matches w = true → '\'' ∉ w) ∧
    (∀ w : List Char, unicode_string.matches w = true → '\'' ∉ w) ∧
    (∀ (s : List Char) (ts : List Tok), Scan s ts →
      (∀ w, Tok.quote_comment w ∈ ts →
        ∃ body, w.toList = '"' :: (body ++ ['"']) ∧
          ∀ p q, body = p ++ '"' :: q →
            ∃ p2, p = p2 ++ ['\\'] ∧ escapedBody p2 = true ∧ escapedBody q = true) ∧
      (∀ w, Tok.content w ∈ ts → '"' ∉ w.toList) ∧
      (∀ w, Tok.identifier w ∈ ts ∨ Tok.unicode_string w ∈ ts → '\'' ∉ w.toList)) ∧
    (∀ q : QuotedString, (∀ t ∈ q.yield, t.wf = true) → '"' ∉ q.content.toList) ∧
    (∀ d : TypeDesc, (∀ t ∈ d.yield, t.wf = true) → '\'' ∉ textOf d.description.yield) ∧
    quote_comment.matches "\"a\\\"b\"".toList = true ∧
    quote_comment.matches "\"a\"b\"".toList = false ∧
    quote_comment.matches "\"a\\\\\"b\"".toList = false := by
  have hqc : ∀ w : List Char, quote_comment.matches w = true ↔
      ∃ body, w = '"' :: (body ++ ['"']) ∧ escapedBody body = true := by
    intro w
    rw [RE.matches_iff, quote_comment_match_iff]
  have hsplit : ∀ p q : List Char, escapedBody (p ++ '"' :: q) = true →
      ∃ p2, p = p2 ++ ['\\'] ∧ escapedBody p2 = true ∧ escapedBody q = true :=
    fun p q h => escapedBody_split p.length p q (le_refl _) h
  refine ⟨hqc, hsplit, quotedContent_iff, identifier_no_apostrophe,
    unicode_string_no_apostrophe, ?_, ?_, ?_, by decide, by decide, by decide⟩
  · intro s ts hscan
    refine ⟨?_, ?_, ?_⟩
    · intro w hw
      obtain ⟨body, hb, hesc⟩ := (hqc _).1 (hscan.1 _ hw)
      refine ⟨body, hb, ?_⟩
      intro p q hpq
      subst hpq
      exact hsplit p q hesc
    · intro w hw
      exact (quotedContent_iff _).1 (hscan.1 _ hw)
    · rintro w (hw | hw)
      · exact identifier_no_apostrophe _ (hscan.1 _ hw)
      · exact unicode_string_no_apostrophe _ (hscan.1 _ hw)
  · intro q hq
    exact (quotedContent_iff _).1 (hq (Tok.content q.content) (by simp [QuotedString.yield]))
  · intro d hd
    cases hdesc : d.description with
    | identifier w =>
      have := hd (Tok.identifier w) (by simp [TypeDesc.yield, hdesc, StringNode.yield])
      simpa [StringNode.yield, textOf, Tok.text] using identifier_no_apostrophe _ this
    | unicode_string w =>
      have := hd (Tok.unicode_string w) (by simp [TypeDesc.yield, hdesc, StringNode.yield])
      simpa [StringNode.yield, textOf, Tok.text] using unicode_string_no_apostrophe _ this

/-- C12. The kind of a relation is fixed by its operator.  For each of the five relation
rules `k`, the pure form and the block form built with the operator of `k` are function
blocks of kind `k` with the given left, right and body, whatever `k` is, so replacing the
operator of a relation by another of the five gives the relation of that kind with the
same children.  A function block that derives `L OP R` or `L OP { B }` for the operator
`OP` of `k` is of kind `k2` exactly when `k2 = k`, and it is the pure (block) form with a
left and right (body) deriving the same tokens.  The five operators are distinct, and
the text `[a]OP[b];` has one parse, the pure relation of `OP`. -/
theorem C12_relation_kind_by_operator :
    (∀ (k : RelKind) (l r : Expression),
      (pureRel k l r).kind = some k ∧ (pureRel k l r).lefts = [l] ∧
      (pureRel k l r).rights = [r] ∧ (pureRel k l r).hasBlock = false ∧
      (pureRel k l r).yield = l.yield ++ L k.op :: r.yield) ∧
    (∀ (k : RelKind) (l : Expression) (b : Option BlockBody),
      (blockRel k l b).kind = some k ∧ (blockRel k l b).lefts = [l] ∧
      (blockRel k l b).body = b ∧ (blockRel k l b).hasBlock = true ∧
      (blockRel k l b).yield =
        l.yield ++ L k.op :: L "\x7b" :: BlockBody.yieldOpt b ++ [L "\x7d"]) ∧
    (∀ (fb : FunctionBlock) (k : RelKind) (l r : Expression),
      fb.yield = l.yield ++ L k.op :: r.yield →
      (∀ k2, fb.kind = some k2 ↔ k2 = k) ∧
      ∃ l2 r2, fb = pureRel k l2 r2 ∧ l2.yield = l.yield ∧ r2.yield = r.yield) ∧
    (∀ (fb : FunctionBlock) (k : RelKind) (l : Expression) (b : Option BlockBody),
      fb.yield = l.yield ++ L k.op :: L "\x7b" :: BlockBody.yieldOpt b ++ [L "\x7d"] →
      (∀ k2, fb.kind = some k2 ↔ k2 = k) ∧
      ∃ l2 b2, fb = blockRel k l2 b2 ∧ l2.yield = l.yield ∧
        BlockBody.yieldOpt b2 = BlockBody.yieldOpt b) ∧
    (∀ (k k2 : RelKind) (l r : Expression),
      (∃ fb : FunctionBlock, fb.kind = some k2 ∧ fb.yield = l.yield ++ L k.op :: r.yield) ↔
        k2 = k) ∧
    (∀ (k k2 : RelKind) (l : Expression) (b : Option BlockBody),
      (∃ fb : FunctionBlock, fb.kind = some k2 ∧
        fb.yield = l.yield ++ L k.op :: L "\x7b" :: BlockBody.yieldOpt b ++ [L "\x7d"]) ↔
        k2 = k) ∧
    (∀ k k2 : RelKind, k.op = k2.op ↔ k = k2) ∧
    (∀ (k : RelKind) (f : File), Parses (pureText k) f ↔
      f = [Statement.function_block (pureRel k (stdIdent "a") (stdIdent "b"))]) := by
  have hpure : ∀ (fb : FunctionBlock) (k : RelKind) (l r : Expression),
      fb.yield = l.yield ++ L k.op :: r.yield →
      (∀ k2, fb.kind = some k2 ↔ k2 = k) ∧
      ∃ l2 r2, fb = pureRel k l2 r2 ∧ l2.yield = l.yield ∧ r2.yield = r.yield := by
    intro fb k l r h
    obtain ⟨l2, r2, rfl, h1, h2⟩ := functionBlock_pure_inv fb k l r [] (by simpa using h)
    refine ⟨fun k2 => ?_, l2, r2, rfl, h1, h2⟩
    rw [(pureRel_kind k l2 r2).1]
    constructor
    · intro e
      exact (Option.some.inj e).symm
    · rintro rfl
      rfl
  have hblock : ∀ (fb : FunctionBlock) (k : RelKind) (l : Expression) (b : Option BlockBody),
      fb.yield = l.yield ++ L k.op :: L "\x7b" :: BlockBody.yieldOpt b ++ [L "\x7d"] →
      (∀ k2, fb.kind = some k2 ↔ k2 = k) ∧
      ∃ l2 b2, fb = blockRel k l2 b2 ∧ l2.yield = l.yield ∧
        BlockBody.yieldOpt b2 = BlockBody.yieldOpt b := by
    intro fb k l b h
    obtain ⟨l2, b2, rfl, h1, h2⟩ := functionBlock_block_inv fb k l b h
    refine ⟨fun k2 => ?_, l2, b2, rfl, h1, h2⟩
    rw [(blockRel_kind k l2 b2).1]
    constructor
    · intro e
      exact (Option.some.inj e).symm
    · rintro rfl
      rfl
  refine ⟨?_, ?_, hpure, hblock, ?_, ?_, ?_, ?_⟩
  · intro k l r
    obtain ⟨h1, h2, h3, h4⟩ := pureRel_kind k l r
    exact ⟨h1, h2, h3, h4, pureRel_yield k l r⟩
  · intro k l b
    obtain ⟨h1, h2, -, h3, h4⟩ := blockRel_kind k l b
    exact ⟨h1, h2, h3, h4, blockRel_yield k l b⟩
  · intro k k2 l r
    constructor
    · rintro ⟨fb, hk, hy⟩
      exact ((hpure fb k l r hy).1 k2).1 hk
    · rintro rfl
      exact ⟨pureRel k2 l r, (pureRel_kind k2 l r).1, pureRel_yield k2 l r⟩
  · intro k k2 l b
    constructor
    · rintro ⟨fb, hk, hy⟩
      exact ((hblock fb k l b hy).1 k2).1 hk
    · rintro rfl
      exact ⟨blockRel k2 l b, (blockRel_kind k2 l b).1, blockRel_yield k2 l b⟩
  · intro k k2
    cases k <;> cases k2 <;> decide
  · intro k f
    constructor
    · exact parses_pureText k f
    · rintro rfl
      refine ⟨[L "[", Tok.identifier "a", L "]", L k.op, L "[", Tok.identifier "b", L "]", L ";"],
        ⟨?_, ?_⟩, ?_⟩
      · cases k <;> decide
      · cases k <;> decide
      · cases k <;> simp [significant, Tok.isExtra, stdIdent, pureRel, RelKind.op]

/-- C13, counterexample.  The content pattern of `quoted_string` matches the empty text:
the content token of `#[""];` is well formed and has no character, and it stands in a
parse of that text. -/
theorem C13_empty_content_counterexample :
    quotedContent.matches [] = true ∧
    (Tok.content "").wf = true ∧ (Tok.content "").text = [] ∧
    Parses "#[\"\"];".toList [Statement.function_block (.include ⟨.quoted_string ⟨""⟩⟩)] := by
  refine ⟨by decide, by decide, rfl, ?_⟩
  exact ⟨[L "#[", L "\"", Tok.content "", L "\"", L "]", L ";"], ⟨by decide, by decide⟩,
    by decide⟩

/-- C13. Every token other than the content of a quoted string is non-empty: no string
literal of the grammar is empty, and none of the patterns `line_comment`, `dash_comment`,
`quote_comment`, `identifier`, `unicode_string`, `integer`, `float` and the white space of
`extras` matches the empty text.  The content pattern matches every text without a
double quote, the empty one included.  In the tokens of a file the content tokens are
no more than the double-quote literals, so a parse of a text of `n` characters has at
most `2 * n` tokens and extras. -/
theorem C13_tokens_nonempty :
    (∀ t : Tok, t.wf = true → t.isContent = false → t.text ≠ []) ∧
    (∀ s ∈ literals, s.toList ≠ []) ∧
    (line_comment.matches [] = false ∧ dash_comment.matches [] = false ∧
      quote_comment.matches [] = false ∧ identifier.matches [] = false ∧
      unicode_string.matches [] = false ∧ integer.matches [] = false ∧
      float.matches [] = false ∧ whitespaceRE.matches [] = false) ∧
    (∀ w : List Char, quotedContent.matches w = true ↔ '"' ∉ w) ∧
    (∀ f : File, (File.yield f).countP Tok.isContent ≤ (File.yield f).count (L "\"")) ∧
    (∀ (s : List Char) (ts : List Tok) (f : File), Scan s ts →
      significant ts = File.yield f → ts.length ≤ 2 * s.length) := by
  refine ⟨?_, literals_nonempty, by decide, quotedContent_iff, file_contentBound,
    scan_length_bound⟩
  intro t hwf hc h0
  obtain ⟨w, rfl⟩ := wf_text_nil t hwf h0
  exact Bool.noConfusion hc

/-- C16. A dash comment stands only as a statement of the file.  No function block,
block body, expression or gac string derives a dash comment token, and the token is not
an extra; the dash comment tokens of a file are exactly those of its dash comment
statements, also among the leaves of every parse.  The texts `[a] ---- c ---- :: [b];`
and `[x]->{ ---- c ---- [y] };` are not valid files; the text `---- c ----[a]::[b];`
has one parse, the file of the dash comment statement and the statement `[a]::[b]`. -/
theorem C16_dash_comment_top_level :
    (∀ (fb : FunctionBlock) (w : String), Tok.dash_comment w ∉ fb.yield) ∧
    (∀ (b : Option BlockBody) (w : String), Tok.dash_comment w ∉ BlockBody.yieldOpt b) ∧
    (∀ (e : Expression) (w : String), Tok.dash_comment w ∉ e.yield) ∧
    (∀ (g : GacString) (w : String), Tok.dash_comment w ∉ g.yield) ∧
    (∀ w : String, (Tok.dash_comment w).isExtra = false) ∧
    (∀ (f : File) (w : String),
      Tok.dash_comment w ∈ File.yield f ↔ Statement.dash_comment w ∈ f) ∧
    (∀ (s : List Char) (ts : List Tok) (f : File), Scan s ts → significant ts = File.yield f →
      ∀ w : String, Tok.dash_comment w ∈ ts ↔ Statement.dash_comment w ∈ f) ∧
    ¬ ValidFile "[a] ---- c ---- :: [b];".toList ∧
    ¬ ValidFile "[x]->\x7b ---- c ---- [y] \x7d;".toList ∧
    (∀ f : File, Parses "---- c ----[a]::[b];".toList f ↔
      f = Statement.dash_comment "---- c ----" :: shapePureFile "a" "b") ∧
    (Statement.dash_comment "---- c ----" :: shapePureFile "a" "b").length = 2 := by
  refine ⟨functionBlock_no_dash, ?_, ?_, ?_, fun _ => rfl, file_dash_mem, ?_, ?_, ?_, ?_, rfl⟩
  · intro b w h
    exact Bool.noConfusion (bodyOpt_inBlock b _ h)
  · intro e w h
    exact Bool.noConfusion (expression_inBlock e _ h)
  · intro g w h
    exact Bool.noConfusion (gacString_inBlock g _ h)
  · intro s ts f _ hsig w
    rw [← file_dash_mem, ← hsig]
    unfold significant
    simp [List.mem_filter, Tok.isExtra]
  · apply not_valid_of_prefixes _ (by decide) 5 wordThenOther (by decide)
    intro f p x h
    cases hp : wordThenOther p with
    | false => rfl
    | true =>
      exfalso
      match p, hp with
      | a :: tx :: c :: t :: p2, hp =>
        simp only [wordThenOther, Bool.and_eq_true, beq_iff_eq, Bool.not_eq_true'] at hp
        obtain ⟨⟨rfl, rfl⟩, ht⟩ := hp
        have := file_after_word f tx t (p2 ++ x) (by simpa using h)
        rw [ht] at this
        exact Bool.noConfusion this
  · apply not_valid_of_prefixes _ (by decide) 7 blockThenOther (by decide)
    intro f p x h
    cases hp : blockThenOther p with
    | false => rfl
    | true =>
      exfalso
      match p, hp with
      | a :: tx :: c :: d :: e :: t :: p2, hp =>
        simp only [blockThenOther, Bool.and_eq_true, beq_iff_eq, Bool.not_eq_true'] at hp
        obtain ⟨⟨⟨⟨rfl, rfl⟩, rfl⟩, rfl⟩, ht⟩ := hp
        have := file_block_start f tx t (p2 ++ x) (by simpa using h)
        rw [ht] at this
        exact Bool.noConfusion this
  · intro f
    constructor
    · exact parses_dash_then_shape f
    · rintro rfl
      exact ⟨[Tok.dash_comment "---- c ----", L "[", Tok.identifier "a", L "]", L "::", L "[",
        Tok.identifier "b", L "]", L ";"], ⟨by decide, by decide⟩, by decide⟩

/-- C17. A text `s` is a std gac word with content `c` and pointer `p` exactly when `*`
followed by `s` is a proto gac word with the same content `c` and pointer `p`.  The
tokens of the two words differ in the first token only, `[` for the one and `*[` for the
other, and so do their texts, by the leading `*`.  The examples are `[a]` and `*[a]`. -/
theorem C17_std_proto_star :
    (∀ (s : List Char) (c : GacString) (p : Option Pointer),
      Spans s (StdGacWord.mk c p).yield ↔ Spans ('*' :: s) (ProtoGacWord.mk c p).yield) ∧
    (∀ (c : GacString) (p : Option Pointer),
      (StdGacWord.mk c p).yield = L "[" :: (c.yield ++ L "]" :: Pointer.yieldOpt p) ∧
      (ProtoGacWord.mk c p).yield = L "*[" :: (c.yield ++ L "]" :: Pointer.yieldOpt p) ∧
      textOf (ProtoGacWord.mk c p).yield = '*' :: textOf (StdGacWord.mk c p).yield) ∧
    (∀ (w : StdGacWord) (v : ProtoGacWord) (x : List Tok), w.yield ≠ v.yield ++ x) ∧
    (Spans "[a]".toList (StdGacWord.mk (.mk (.identifier "a") []) none).yield ∧
      Spans "*[a]".toList (ProtoGacWord.mk (.mk (.identifier "a") []) none).yield) := by
  have hstd : ∀ ts2 (s : List Char), textOf (L "[" :: ts2) = (L "[").text ++ s →
      textOf ts2 = s := by
    intro ts2 s h
    simp only [textOf] at h
    exact List.append_cancel_left h
  have hproto : ∀ ts2 (s : List Char), textOf (L "*[" :: ts2) = (L "*[").text ++ s →
      textOf ts2 = s := by
    intro ts2 s h
    simp only [textOf] at h
    exact List.append_cancel_left h
  refine ⟨?_, ?_, ?_, ?_, ?_⟩
  · intro s c p
    constructor
    · intro h
      obtain ⟨ts, hscan, hsig, hhead, hlast⟩ := h
      obtain ⟨ts2, rfl, hsig2⟩ := spans_head ts (L "[") _ hsig hhead
      have hs : s = (L "[").text ++ textOf ts2 := hscan.2.symm
      have h2 : Spans ((L "[").text ++ textOf ts2) (L "[" :: (c.yield ++ L "]" ::
          Pointer.yieldOpt p)) := ⟨_, ⟨hscan.1, rfl⟩, hsig, hhead, hlast⟩
      have h3 := spans_exchange (L "[") (L "*[") (by decide) rfl _ _ h2 (fun ts3 => hstd ts3 _)
      rw [hs]
      exact h3
    · intro h
      obtain ⟨ts, hscan, hsig, hhead, hlast⟩ := h
      obtain ⟨ts2, rfl, hsig2⟩ := spans_head ts (L "*[") _ hsig hhead
      have hs : '*' :: s = (L "*[").text ++ textOf ts2 := hscan.2.symm
      have hs2 : s = (L "[").text ++ textOf ts2 := by
        have : (L "*[").text ++ textOf ts2 = '*' :: ((L "[").text ++ textOf ts2) := rfl
        rw [this] at hs
        exact (List.cons.inj hs).2
      have h2 : Spans ((L "*[").text ++ textOf ts2) (L "*[" :: (c.yield ++ L "]" ::
          Pointer.yieldOpt p)) := ⟨_, ⟨hscan.1, rfl⟩, hsig, hhead, hlast⟩
      have h3 := spans_exchange (L "*[") (L "[") (by decide) rfl _ _ h2
        (fun ts3 => hproto ts3 _)
      rw [hs2]
      exact h3
  · intro c p
    exact ⟨rfl, rfl, rfl⟩
  · intro w v x h
    simp [StdGacWord.yield, ProtoGacWord.yield] at h
  · exact ⟨[L "[", Tok.identifier "a", L "]"], ⟨by decide, by decide⟩, by decide, by decide,
      by decide⟩
  · exact ⟨[L "*[", Tok.identifier "a", L "]"], ⟨by decide, by decide⟩, by decide, by decide,
      by decide⟩

/-- C18. Relations nest in block bodies to every depth.  For every `n` the text
`nestText n` followed by `;`, that is `[a]::[b]` inside `n` block-form relations
`[a]::{ ... }`, parses as the file of the one statement `nestBlock n`, whose chain of
nested block bodies has length `n`; and every file that derives the tokens of this
text is one function-block statement of depth `n`. -/
theorem C18_unbounded_nesting (n : Nat) :
    Parses (nestText n ++ [';']) [Statement.function_block (nestBlock n)] ∧
    ValidFile (nestText n ++ [';']) ∧
    (nestBlock n).depth = n ∧
    (nestBlock (n + 1)).body = some (.commaSep1 (.function_block (nestBlock n)) []) ∧
    (∀ f : File, File.yield f = nestToks n ++ [L ";"] →
      ∃ fb, f = [Statement.function_block fb] ∧ fb.depth = n) ∧
    nestText 2 = "[a]::\x7b [a]::\x7b [a]::[b] \x7d \x7d".toList := by
  have hp : Parses (nestText n ++ [';']) [Statement.function_block (nestBlock n)] := by
    refine ⟨nestLeaves n ++ [L ";"], ⟨?_, ?_⟩, ?_⟩
    · intro t ht
      rcases List.mem_append.1 ht with h | h
      · exact nestLeaves_wf n t h
      · simp only [List.mem_singleton] at h
        subst h
        decide
    · rw [textOf_append, nestLeaves_text]
      rfl
    · rw [significant_append, nestLeaves_significant]
      simp [File.yield, Statement.yield, nestBlock_yield, significant, Tok.isExtra]
  refine ⟨hp, ⟨_, hp⟩, nestBlock_depth n, rfl, ?_, by decide⟩
  intro f h
  have hstart : ∃ z, nestToks n ++ [L ";"] = L "[" :: z := by
    cases n <;> exact ⟨_, rfl⟩
  obtain ⟨z, hz⟩ := hstart
  cases f with
  | nil =>
    rw [hz] at h
    simp at h
  | cons s rest =>
    cases s with
    | function_block fb =>
      simp only [File.yield, Statement.yield, List.append_assoc] at h
      obtain ⟨hd, h2⟩ := nest_inv n fb _ [L ";"] (by intro y; simp) h
      simp only [List.singleton_append, List.cons.injEq, true_and] at h2
      rw [file_yield_eq_nil rest h2]
      exact ⟨fb, rfl, hd⟩
    | dash_comment w =>
      rw [hz] at h
      simp at h
    | empty =>
      rw [hz] at h
      simp at h

/-- C18 at depth 2, the text `[a]::{ [a]::{ [a]::[b] } };`. -/
theorem C18_unbounded_nesting_witness :
    Parses "[a]::\x7b [a]::\x7b [a]::[b] \x7d \x7d;".toList
      [Statement.function_block (nestBlock 2)] ∧
    (nestBlock 2).depth = 2 :=
  ⟨(C18_unbounded_nesting 2).1, (C18_unbounded_nesting 2).2.2.1⟩

/-- C19. The token classes overlap.  Every text matched by `identifier`, by `integer` or
by `float` is matched by `unicode_string`, so the texts of the rule `string` are those
of `unicode_string` alone, and every well-formed tree of `string` has a well-formed
tree of the alternative `unicode_string` with the same text.  The two alternatives are
not disjoint: `foo` is matched by both, and the texts `#(foo)::[b];` and `'foo'::[b];`
each parse with the name read as `identifier` and with the name read as
`unicode_string`, two different trees.  The inclusion is proper: `1a` is matched by
`unicode_string` only. -/
theorem C19_token_classes_overlap :
    (∀ w : List Char, identifier.matches w = true → unicode_string.matches w = true) ∧
    (∀ w : List Char, integer.matches w = true → unicode_string.matches w = true) ∧
    (∀ w : List Char, float.matches w = true → unicode_string.matches w = true) ∧
    (∀ w : List Char, (identifier.matches w = true ∨ unicode_string.matches w = true) ↔
      unicode_string.matches w = true) ∧
    (∀ n : StringNode, (∀ t ∈ n.yield, t.wf = true) →
      ∃ w : String, (∀ t ∈ (StringNode.unicode_string w).yield, t.wf = true) ∧
        textOf (StringNode.unicode_string w).yield = textOf n.yield) ∧
    (identifier.matches "foo".toList = true ∧ unicode_string.matches "foo".toList = true) ∧
    (unicode_string.matches "1a".toList = true ∧ identifier.matches "1a".toList = false) ∧
    (Parses "#(foo)::[b];".toList (fycoideFile (.identifier "foo")) ∧
      Parses "#(foo)::[b];".toList (fycoideFile (.unicode_string "foo")) ∧
      fycoideFile (.identifier "foo") ≠ fycoideFile (.unicode_string "foo")) ∧
    (Parses "'foo'::[b];".toList (typeDescFile (.identifier "foo")) ∧
      Parses "'foo'::[b];".toList (typeDescFile (.unicode_string "foo")) ∧
      typeDescFile (.identifier "foo") ≠ typeDescFile (.unicode_string "foo")) := by
  refine ⟨identifier_sub_unicode, integer_sub_unicode, float_sub_unicode, ?_, ?_,
    ⟨by decide, by decide⟩, ⟨by decide, by decide⟩,
    ⟨?_, ?_, fun h => absurd (congrArg File.yield h) (by decide)⟩,
    ⟨?_, ?_, fun h => absurd (congrArg File.yield h) (by decide)⟩⟩
  · intro w
    constructor
    · rintro (h | h)
      · exact identifier_sub_unicode w h
      · exact h
    · exact Or.inr
  · intro n hn
    cases n with
    | identifier w =>
      refine ⟨w, ?_, rfl⟩
      intro t ht
      simp only [StringNode.yield, List.mem_singleton] at ht
      subst ht
      exact identifier_sub_unicode _ (hn (Tok.identifier w) (by simp [StringNode.yield]))
    | unicode_string w => exact ⟨w, hn, rfl⟩
  · exact ⟨[L "#(", Tok.identifier "foo", L ")", L "::", L "[", Tok.identifier "b", L "]",
      L ";"], ⟨by decide, by decide⟩, by decide⟩
  · exact ⟨[L "#(", Tok.unicode_string "foo", L ")", L "::", L "[", Tok.identifier "b", L "]",
      L ";"], ⟨by decide, by decide⟩, by decide⟩
  · exact ⟨[L "'", Tok.identifier "foo", L "'", L "::", L "[", Tok.identifier "b", L "]",
      L ";"], ⟨by decide, by decide⟩, by decide⟩
  · exact ⟨[L "'", Tok.unicode_string "foo", L "'", L "::", L "[", Tok.identifier "b", L "]",
      L ";"], ⟨by decide, by decide⟩, by decide⟩

/-- C20. The two comma-separated lists.  For every rule `x` (trees `α`, terminals `y`),
every token sequence of `commaSep1(x)` is one of `trailingCommaSep1(x)`, with the same
elements, and the token sequences of `trailingCommaSep1(x)` are exactly those of
`commaSep1(x)` and those followed by one comma.  The two alternatives of `block_body`
are these two lists of block elements, so the token sequences of `block_body` are those
of `trailingCommaSep1(block_element)` alone, and a block body without the trailing
comma is derived through both alternatives, by two different trees. -/
theorem C20_comma_lists :
    (∀ (α : Type) (y : α → List Tok) (c : CommaSep1 α),
      (TrailingCommaSep1.mk c.first c.rest false).yield y = c.yield y) ∧
    (∀ (α : Type) (y : α → List Tok) (w : List Tok),
      (∃ c : CommaSep1 α, c.yield y = w) → ∃ t : TrailingCommaSep1 α, t.yield y = w) ∧
    (∀ (α : Type) (y : α → List Tok) (w : List Tok),
      (∃ t : TrailingCommaSep1 α, t.yield y = w) ↔
        ∃ c : CommaSep1 α, w = c.yield y ∨ w = c.yield y ++ [L ","]) ∧
    (∀ (first : BlockElement) (rest : List BlockElement),
      (BlockBody.commaSep1 first rest).yield =
        (CommaSep1.mk first rest).yield BlockElement.yield) ∧
    (∀ (first : BlockElement) (rest : List BlockElement) (trailing : Bool),
      (BlockBody.trailingCommaSep1 first rest trailing).yield =
        (TrailingCommaSep1.mk first rest trailing).yield BlockElement.yield) ∧
    (∀ w : List Tok, (∃ b : BlockBody, b.yield = w) ↔
      ∃ t : TrailingCommaSep1 BlockElement, t.yield BlockElement.yield = w) ∧
    (∀ (first : BlockElement) (rest : List BlockElement),
      (BlockBody.commaSep1 first rest).yield =
        (BlockBody.trailingCommaSep1 first rest false).yield ∧
      (BlockBody.commaSep1 first rest).elements =
        (BlockBody.trailingCommaSep1 first rest false).elements ∧
      BlockBody.commaSep1 first rest ≠ BlockBody.trailingCommaSep1 first rest false) ∧
    (∀ b : BlockBody, (∀ x, b.yield ≠ x ++ [L ","]) →
      ∃ first rest, b.yield = (BlockBody.commaSep1 first rest).yield ∧
        b.yield = (BlockBody.trailingCommaSep1 first rest false).yield) := by
  have hc : ∀ (first : BlockElement) (rest : List BlockElement),
      (BlockBody.commaSep1 first rest).yield =
        (CommaSep1.mk first rest).yield BlockElement.yield := by
    intro first rest
    simp only [BlockBody.yield, CommaSep1.yield, yieldRest_eq_commaRest]
  have ht : ∀ (first : BlockElement) (rest : List BlockElement) (trailing : Bool),
      (BlockBody.trailingCommaSep1 first rest trailing).yield =
        (TrailingCommaSep1.mk first rest trailing).yield BlockElement.yield := by
    intro first rest trailing
    simp only [BlockBody.yield, TrailingCommaSep1.yield, yieldRest_eq_commaRest]
  have hsame : ∀ (first : BlockElement) (rest : List BlockElement),
      (BlockBody.commaSep1 first rest).yield =
        (BlockBody.trailingCommaSep1 first rest false).yield := by
    intro first rest
    simp [BlockBody.yield]
  refine ⟨?_, ?_, ?_, hc, ht, ?_, ?_, ?_⟩
  · intro α y c
    simp [TrailingCommaSep1.yield, CommaSep1.yield]
  · rintro α y w ⟨c, rfl⟩
    exact ⟨⟨c.first, c.rest, false⟩, by simp [TrailingCommaSep1.yield, CommaSep1.yield]⟩
  · intro α y w
    constructor
    · rintro ⟨t, rfl⟩
      refine ⟨⟨t.first, t.rest⟩, ?_⟩
      rw [trailing_yield_eq]
      cases t.trailing
      · left
        simp
      · right
        simp
    · rintro ⟨c, rfl | rfl⟩
      · exact ⟨⟨c.first, c.rest, false⟩, by simp [TrailingCommaSep1.yield, CommaSep1.yield]⟩
      · exact ⟨⟨c.first, c.rest, true⟩, by simp [TrailingCommaSep1.yield, CommaSep1.yield]⟩
  · intro w
    constructor
    · rintro ⟨b, rfl⟩
      cases b with
      | commaSep1 first rest =>
        exact ⟨⟨first, rest, false⟩, by rw [hsame, ht]⟩
      | trailingCommaSep1 first rest trailing =>
        exact ⟨⟨first, rest, trailing⟩, (ht first rest trailing).symm⟩
    · rintro ⟨t, rfl⟩
      exact ⟨.trailingCommaSep1 t.first t.rest t.trailing, ht _ _ _⟩
  · intro first rest
    refine ⟨hsame first rest, rfl, ?_⟩
    intro h
    cases h
  · intro b hb
    cases b with
    | commaSep1 first rest => exact ⟨first, rest, rfl, hsame first rest⟩
    | trailingCommaSep1 first rest trailing =>
      cases trailing with
      | false => exact ⟨first, rest, (hsame first rest).symm, rfl⟩
      | true =>
        exfalso
        exact hb (first.yield ++ BlockElement.yieldRest rest) (by simp [BlockBody.yield])

end Fgfh
